import Mathlib

/-!
PhantomKit project scan (`cmd/phantom/init.go`).

A shallow embedding of the project fingerprinting code of `phantom init`:
the manifest parsers, `scanProject`, the two text generators, and the
properties of the detection result; and of the API key check of
`services/phantomkit/api.go`.

Modelling conventions.

* Go strings are modelled by `String` (a sequence of Unicode scalar values,
  that is, valid UTF-8 text); functions of the Go `strings` package are
  written over `List Char` and wrapped.  The key of `isValidAPIKey`, which
  arrives from a request, is a sequence of bytes, decoded as a `for range`
  over a Go string decodes it.
* A Go `map[string]T` is an association list with unique keys, written by
  `mapSet` (assignment `m[k] = v`) and read by `mapGet`.  A nil map is the
  empty list: ranging over it does nothing, as in Go.
* The scanned directory is a snapshot `Dir` of the file system below it,
  keyed by the path relative to the directory.
* What the code takes from outside the repository and cannot be written
  down here (the Unicode case table, `encoding/json`) is a field of `Lib`.
-/

namespace Phantom

/-! ## Go maps -/

/-- A Go `map[string]α`: association list, one binding per key. -/
abbrev GoMap (α : Type) := List (String × α)

/-- The read `m[k]` with the comma-ok flag: `none` when the key is absent. -/
def mapGet {α : Type} : GoMap α → String → Option α
  | [], _ => none
  | (k', v) :: rest, k => if k' = k then some v else mapGet rest k

/-- The assignment `m[k] = v`: overwrites the binding of `k` or adds one. -/
def mapSet {α : Type} : GoMap α → String → α → GoMap α
  | [], k, v => [(k, v)]
  | (k', v') :: rest, k, v =>
    if k' = k then (k, v) :: rest else (k', v') :: mapSet rest k v

/-- The test `_, ok := m[k]`. -/
def mapHas {α : Type} (m : GoMap α) (k : String) : Bool :=
  (mapGet m k).isSome

/-! ## The file system snapshot -/

/-- What `os.Stat` finds at a path: a directory, or a file whose content is
`none` when it cannot be opened or read. -/
inductive Entry where
  | directory : Entry
  | file : Option String → Entry
  deriving DecidableEq, Repr

/-- The scanned directory: what is found at each relative path, `none` when
`os.Stat` fails there. -/
abbrev Dir := String → Option Entry

/-- The function `fileExists`: `os.Stat` succeeds and the entry is not a
directory. -/
def fileExists (d : Dir) (p : String) : Bool :=
  match d p with
  | some (Entry.file _) => true
  | _ => false

/-- The calls `os.ReadFile` and `os.Open` followed by a full read: the
content, or `none` on any error. -/
def readFile (d : Dir) (p : String) : Option String :=
  match d p with
  | some (Entry.file c) => c
  | _ => none

/-- The directory `d` with the entry at `p` replaced. -/
def Dir.put (d : Dir) (p : String) (e : Option Entry) : Dir :=
  fun q => if q = p then e else d q

/-! ## The Go `strings`, `unicode` and `bufio` functions used -/

/-- The predicate `unicode.IsSpace`. -/
def isSpace (c : Char) : Bool :=
  let n := c.toNat
  (9 ≤ n && n ≤ 13) || n == 32 || n == 0x85 || n == 0xA0 || n == 0x1680 ||
  (0x2000 ≤ n && n ≤ 0x200A) || n == 0x2028 || n == 0x2029 || n == 0x202F ||
  n == 0x205F || n == 0x3000

/-- The function `strings.TrimSpace` on characters. -/
def trimSpaceChars (l : List Char) : List Char :=
  (l.dropWhile isSpace).rdropWhile isSpace

/-- The function `strings.TrimSpace`. -/
def trimSpace (s : String) : String := ⟨trimSpaceChars s.data⟩

/-- Lower-casing of an ASCII rune: `A`..`Z` move to `a`..`z`. -/
def asciiLower (c : Char) : Char :=
  if 65 ≤ c.toNat ∧ c.toNat ≤ 90 then Char.ofNat (c.toNat + 32) else c

/-- The function `unicode.ToLower`: the ASCII rule below U+0080 and the
Unicode case table `u` above. -/
def lowerRune (u : Char → Char) (c : Char) : Char :=
  if c.toNat < 128 then asciiLower c else u c

/-- The function `strings.ToLower`: every rune is mapped by
`unicode.ToLower`. -/
def toLower (u : Char → Char) (s : String) : String := ⟨s.data.map (lowerRune u)⟩

/-- The function `strings.HasPrefix` on characters. -/
def startsWith (l p : List Char) : Bool := l.take p.length == p

/-- The function `strings.HasSuffix`. -/
def endsWith (s : String) (suffix : String) : Bool :=
  s.data.reverse.take suffix.data.length == suffix.data.reverse

/-- The pieces of `l` between the characters satisfying `p`, empty pieces
included (`strings.Split` for a one-character separator). -/
def splitWhere (p : Char → Bool) : List Char → List (List Char)
  | [] => [[]]
  | c :: cs =>
    if p c then [] :: splitWhere p cs
    else
      match splitWhere p cs with
      | [] => [[c]]
      | h :: t => (c :: h) :: t

/-- The function `strings.FieldsFunc`: the non-empty pieces between runs of
characters satisfying `p`. -/
def fieldsFunc (p : Char → Bool) (l : List Char) : List (List Char) :=
  (splitWhere p l).filter (fun f => !f.isEmpty)

/-- The function `strings.Fields`. -/
def fields (l : List Char) : List (List Char) := fieldsFunc isSpace l

/-- The call `strings.SplitN(l, sep, 2)` for a one-character separator: the
text before the first separator and, when there is one, the text after it. -/
def splitN2 (sep : Char) (l : List Char) : List Char × Option (List Char) :=
  match l.dropWhile (fun c => c != sep) with
  | [] => (l, none)
  | _ :: after => (l.takeWhile (fun c => c != sep), some after)

/-- The call `strings.Trim(l, cutset)` for a one-character cutset. -/
def trimChar (q : Char) (l : List Char) : List Char :=
  (l.dropWhile (fun c => c == q)).rdropWhile (fun c => c == q)

/-- The number of bytes of the UTF-8 encoding. -/
def byteLen (l : List Char) : Nat := (l.map Char.utf8Size).sum

/-- The helper `dropCR` of `bufio`: one trailing carriage return is removed. -/
def dropCR (l : List Char) : List Char :=
  match l.reverse with
  | '\r' :: r => r.reverse
  | _ => l

/-- The text pieces ended by a newline, and the rest after the last newline
when it is not empty. -/
def rawLines (l : List Char) : List (List Char) :=
  match (splitWhere (fun c => c == '\n') l).reverse with
  | [] :: r => r.reverse
  | r => r.reverse

/-- The size `bufio.MaxScanTokenSize` of the scanner's buffer. -/
def maxScanTokenSize : Nat := 64 * 1024

/-- The lines a `bufio.Scanner` with the default split function delivers:
the newline-terminated pieces (and a non-empty last piece), up to the first
one that does not fit the buffer, where scanning stops; each without its
trailing carriage return. -/
def scanLines (l : List Char) : List (List Char) :=
  ((rawLines l).takeWhile (fun t => byteLen t < maxScanTokenSize)).map dropCR

/-! ## The two regular expressions -/

/-- The class `\s` of Go regular expressions: `[\t\n\f\r ]`. -/
def reSpace (c : Char) : Bool :=
  c == '\t' || c == '\n' || c == Char.ofNat 12 || c == '\r' || c == ' '

/-- The class `['"]`. -/
def isQuote (c : Char) : Bool := c == Char.ofNat 39 || c == '"'

/-- A match of `Q([^Q]+)Q` at the head of `l`, for a quote class `Q`: the
captured text and what follows the closing quote.  The capture is the longest
run of non-quote characters; it must be non-empty and closed by a quote. -/
def matchQuoted (q : Char → Bool) (l : List Char) : Option (List Char × List Char) :=
  match l with
  | [] => none
  | c :: rest =>
    if q c then
      match rest.takeWhile (fun x => !q x), rest.dropWhile (fun x => !q x) with
      | [], _ => none
      | _ :: _, [] => none
      | b :: body, _ :: after => some (b :: body, after)
    else none

/-- A match of `(?i)entry\s*[:=]\s*\"([^\"]+)\"` starting exactly at the head
of `l`: the captured text. -/
def matchEntryAt (l : List Char) : Option (List Char) :=
  if (l.take 5).map asciiLower == "entry".data then
    match (l.drop 5).dropWhile reSpace with
    | [] => none
    | c :: r =>
      if c == ':' || c == '=' then
        (matchQuoted (fun x => x == '"') (r.dropWhile reSpace)).map Prod.fst
      else none
  else none

/-- The leftmost match of the entry expression in `l`
(`FindStringSubmatch`): its capture. -/
def findEntry : List Char → Option (List Char)
  | [] => none
  | c :: cs =>
    match matchEntryAt (c :: cs) with
    | some e => some e
    | none => findEntry cs

/-- A match of `kw\s+['"]([^'"]+)['"](?:,\s*['"]([^'"]+)['"])?` starting
exactly at the head of `l`, for the literal `kw`: the two captures, the
second one empty when the optional group does not take part. -/
def matchDepAt (kw : List Char) (l : List Char) : Option (List Char × List Char) :=
  if startsWith l kw then
    match l.drop kw.length with
    | [] => none
    | c :: r =>
      if reSpace c then
        match matchQuoted isQuote (r.dropWhile reSpace) with
        | none => none
        | some (name, rest) =>
          match rest with
          | ',' :: r2 =>
            match matchQuoted isQuote (r2.dropWhile reSpace) with
            | some (ver, _) => some (name, ver)
            | none => some (name, [])
          | _ => some (name, [])
      else none
  else none

/-- The leftmost match of the dependency expression in `l`. -/
def findDep (kw : List Char) : List Char → Option (List Char × List Char)
  | [] => none
  | c :: cs =>
    match matchDepAt kw (c :: cs) with
    | some m => some m
    | none => findDep kw cs

/-! ## What the code takes from outside the repository -/

/-- The anonymous struct `pkg` that `parsePackageJSON` decodes into. -/
structure PackageJSON where
  Main : String
  Module : String
  Types : String
  Dependencies : GoMap String
  DevDependencies : GoMap String
  deriving DecidableEq, Repr

/-- The anonymous struct `composer` that `parseComposerJSON` decodes into. -/
structure ComposerJSON where
  Require : GoMap String
  deriving DecidableEq, Repr

/-- The library functions of which only the interface is used.
`unicodeLower` is the case table of `unicode.ToLower` above U+007F.  The two
decoders are `json.Unmarshal` into the structs above: `none` when the data
is not valid JSON (the destination is then left untouched), otherwise the
destination after decoding, also when `Unmarshal` reports a field of the
wrong type: the code drops the error and keeps what was decoded. -/
structure Lib where
  unicodeLower : Char → Char
  unmarshalPackage : String → Option PackageJSON
  unmarshalComposer : String → Option ComposerJSON

/-! ## The manifest parsers -/

/-- The three results of `parsePackageJSON`. -/
structure PackageInfo where
  language : String
  entry : String
  deps : GoMap String
  deriving DecidableEq, Repr

/-- The loop `for k, v := range m { deps[k] = v }`. -/
def copyInto (deps m : GoMap String) : GoMap String :=
  m.foldl (fun acc kv => mapSet acc kv.1 kv.2) deps

/-- The loop over `devDependencies`: a name is added only when `deps` does
not have it yet. -/
def copyMissing (deps m : GoMap String) : GoMap String :=
  m.foldl (fun acc kv => if mapHas acc kv.1 then acc else mapSet acc kv.1 kv.2) deps

/-- The function `parsePackageJSON`, for the manifest at `path` in the
scanned directory; its sibling `tsconfig.json` is the one of that
directory. -/
def parsePackageJSON (lib : Lib) (d : Dir) (path : String) : PackageInfo :=
  match readFile d path with
  | none => { language := "js", entry := "", deps := [] }
  | some data =>
    let pkg : PackageJSON := (lib.unmarshalPackage data).getD
      { Main := "", Module := "", Types := "", Dependencies := [], DevDependencies := [] }
    let deps := copyMissing (copyInto [] pkg.Dependencies) pkg.DevDependencies
    let language :=
      if pkg.Types ≠ "" ∨ fileExists d "tsconfig.json" = true then "ts" else "js"
    let entry :=
      if pkg.Main ≠ "" then pkg.Main
      else if pkg.Module ≠ "" then pkg.Module
      else ""
    { language := language, entry := entry, deps := deps }

/-- One turn of the scanning loop of `parseCargoDependencies` on a line (not
yet trimmed): the state is the flag `in` and the map. -/
def cargoLine (st : Bool × GoMap String) (raw : List Char) : Bool × GoMap String :=
  let line := trimSpaceChars raw
  if startsWith line ['['] then (line == "[dependencies]".data, st.2)
  else if st.1 && line != [] && !startsWith line ['#'] then
    match splitN2 '=' line with
    | (_, none) => st
    | (k, some v) =>
      let key := trimSpaceChars k
      let val := trimChar '"' (trimSpaceChars v)
      let val := (splitWhere (fun c => c == ' ') val).headD []
      let key := trimChar '"' key
      (st.1, mapSet st.2 ⟨key⟩ ⟨val⟩)
  else st

/-- The function `parseCargoDependencies`. -/
def parseCargoDependencies (d : Dir) (path : String) : GoMap String :=
  match readFile d path with
  | none => []
  | some data => ((scanLines data.data).foldl cargoLine (false, [])).2

/-- The separator test of `parseRequirementsTxt`. -/
def isSpecChar (c : Char) : Bool :=
  c == '=' || c == '>' || c == '<' || c == '~' || c == '!'

/-- One turn of the scanning loop of `parseRequirementsTxt`. -/
def requirementsLine (deps : GoMap String) (raw : List Char) : GoMap String :=
  let line := trimSpaceChars raw
  if line != [] && !startsWith line ['#'] then
    match fieldsFunc isSpecChar line with
    | [] => deps
    | [name] => mapSet deps ⟨trimSpaceChars name⟩ "latest"
    | name :: version :: _ => mapSet deps ⟨trimSpaceChars name⟩ ⟨trimSpaceChars version⟩
  else deps

/-- The function `parseRequirementsTxt`. -/
def parseRequirementsTxt (d : Dir) (path : String) : GoMap String :=
  match readFile d path with
  | none => []
  | some data => (scanLines data.data).foldl requirementsLine []

/-- One turn of the scanning loop of `parseGemfile`. -/
def gemfileLine (deps : GoMap String) (raw : List Char) : GoMap String :=
  let line := trimSpaceChars raw
  if startsWith line "gem ".data then
    match findDep "gem".data line with
    | none => deps
    | some (gemName, v) => mapSet deps ⟨gemName⟩ (if v != [] then ⟨v⟩ else "latest")
  else deps

/-- The function `parseGemfile`. -/
def parseGemfile (d : Dir) (path : String) : GoMap String :=
  match readFile d path with
  | none => []
  | some data => (scanLines data.data).foldl gemfileLine []

/-- One turn of the scanning loop of `parseGoMod`. -/
def goModLine (deps : GoMap String) (raw : List Char) : GoMap String :=
  let line := trimSpaceChars raw
  if startsWith line "require ".data then
    match fields line with
    | _ :: module :: version :: _ => mapSet deps ⟨module⟩ ⟨version⟩
    | _ => deps
  else deps

/-- The function `parseGoMod`. -/
def parseGoMod (d : Dir) (path : String) : GoMap String :=
  match readFile d path with
  | none => []
  | some data => (scanLines data.data).foldl goModLine []

/-- The function `parseComposerJSON`. -/
def parseComposerJSON (lib : Lib) (d : Dir) (path : String) : GoMap String :=
  match readFile d path with
  | none => []
  | some data =>
    let composer : ComposerJSON := (lib.unmarshalComposer data).getD { Require := [] }
    copyInto [] composer.Require

/-- One turn of the scanning loop of `parsePodfile`. -/
def podfileLine (deps : GoMap String) (raw : List Char) : GoMap String :=
  let line := trimSpaceChars raw
  if startsWith line "pod ".data then
    match findDep "pod".data line with
    | none => deps
    | some (podName, v) => mapSet deps ⟨podName⟩ (if v != [] then ⟨v⟩ else "latest")
  else deps

/-- The function `parsePodfile`. -/
def parsePodfile (d : Dir) (path : String) : GoMap String :=
  match readFile d path with
  | none => []
  | some data => (scanLines data.data).foldl podfileLine []

/-- The function `parseProcfileEntrypoint`. -/
def parseProcfileEntrypoint (d : Dir) (path : String) : String :=
  match readFile d path with
  | none => ""
  | some data =>
    let line := trimSpaceChars ((splitWhere (fun c => c == '\n') data.data).headD [])
    let parts := fields line
    if parts.length ≥ 2 then ⟨parts.getLastD []⟩ else ""

/-- The function `parseConfigEntrypoint`. -/
def parseConfigEntrypoint (d : Dir) (path : String) : String :=
  if !fileExists d path then ""
  else
    match readFile d path with
    | none => ""
    | some data =>
      match findEntry data.data with
      | some e => ⟨e⟩
      | none => ""

/-- The function `hasAnyDep`. -/
def hasAnyDep (deps : GoMap String) (keys : List String) : Bool :=
  keys.any (fun k => mapHas deps k)

/-! ## The resolver `scanProject` -/

/-- The five named results of `scanProject`; they are also its local
variables. -/
structure Scan where
  language : String
  entry : String
  guessed : Bool
  allDeps : GoMap (GoMap String)
  secretsRuntime : Bool
  deriving DecidableEq, Repr

/-- The block of `scanProject` for `package.json`. -/
def stepPackageJSON (lib : Lib) (d : Dir) (s : Scan) : Scan :=
  if fileExists d "package.json" then
    let r := parsePackageJSON lib d "package.json"
    let s := if s.language = "" then { s with language := r.language } else s
    let s := if s.entry = "" ∧ r.entry ≠ "" then { s with entry := r.entry } else s
    let s := { s with allDeps := mapSet s.allDeps "node" r.deps }
    if fileExists d ".env" = true ∨ hasAnyDep r.deps ["tauri", "electron", "next"] = true then
      { s with secretsRuntime := true }
    else s
  else s

/-- The block that `scanProject` repeats for `Cargo.toml`,
`requirements.txt`, `Gemfile`, `go.mod`, `composer.json` and `Podfile`: when
`file` exists, `lang` becomes the language if none is set, `dflt` becomes the
entrypoint (marked guessed) if none is set, and the parsed map `deps` is
stored under `tag`. -/
def stepManifest (d : Dir) (file lang dflt tag : String) (deps : GoMap String)
    (s : Scan) : Scan :=
  if fileExists d file then
    let s := if s.language = "" then { s with language := lang } else s
    let s := if s.entry = "" then { s with entry := dflt, guessed := true } else s
    { s with allDeps := mapSet s.allDeps tag deps }
  else s

/-- The block of `scanProject` for the `Procfile`. -/
def stepProcfile (d : Dir) (s : Scan) : Scan :=
  if fileExists d "Procfile" then
    let e := parseProcfileEntrypoint d "Procfile"
    if e ≠ "" ∧ s.entry = "" then { s with entry := e, guessed := false } else s
  else s

/-- The block of `scanProject` for `.config.ts` and `.config.toml`. -/
def stepConfig (d : Dir) (s : Scan) : Scan :=
  if s.entry = "" then
    let e := parseConfigEntrypoint d ".config.ts"
    let s := if e ≠ "" then { s with entry := e, guessed := true } else s
    let e := parseConfigEntrypoint d ".config.toml"
    if e ≠ "" ∧ s.entry = "" then { s with entry := e, guessed := true } else s
  else s

/-- The list `candidates` of the heuristic file search. -/
def candidates : List String :=
  ["src/main.tsx", "src/main.ts", "src/index.tsx", "src/index.ts",
   "src/index.js", "src/main.js", "main.py", "app.py"]

/-- The block of `scanProject` for the heuristic file search: the first
candidate that exists. -/
def stepCandidates (d : Dir) (s : Scan) : Scan :=
  if s.entry = "" then
    match candidates.find? (fun c => fileExists d c) with
    | some c => { s with entry := c, guessed := true }
    | none => s
  else s

/-- The block of `scanProject` that determines a language still unknown from
the suffix of the entrypoint. -/
def stepLanguage (s : Scan) : Scan :=
  if s.language = "" then
    if endsWith s.entry ".ts" || endsWith s.entry ".tsx" then { s with language := "ts" }
    else if endsWith s.entry ".py" then { s with language := "python" }
    else if endsWith s.entry ".rs" then { s with language := "rust" }
    else { s with language := "js" }
  else s

/-- The last block of `scanProject`: the default entrypoint. -/
def stepDefault (s : Scan) : Scan :=
  if s.entry = "" then { s with entry := "src/main.tsx", guessed := true } else s

/-- The variables of `scanProject` after the manifest blocks, in their fixed
order. -/
def scanManifests (lib : Lib) (d : Dir) (forcedLang : String) : Scan :=
  let s : Scan :=
    { language := toLower lib.unicodeLower (trimSpace forcedLang), entry := "",
      guessed := false, allDeps := [], secretsRuntime := false }
  let s := stepPackageJSON lib d s
  let s := stepManifest d "Cargo.toml" "rust" "src/main.rs" "rust"
    (parseCargoDependencies d "Cargo.toml") s
  let s := stepManifest d "requirements.txt" "python" "main.py" "python"
    (parseRequirementsTxt d "requirements.txt") s
  let s := stepManifest d "Gemfile" "ruby" "main.rb" "ruby" (parseGemfile d "Gemfile") s
  let s := stepManifest d "go.mod" "go" "main.go" "go" (parseGoMod d "go.mod") s
  let s := stepManifest d "composer.json" "php" "index.php" "php"
    (parseComposerJSON lib d "composer.json") s
  stepManifest d "Podfile" "swift" "main.swift" "swift" (parsePodfile d "Podfile") s

/-- The blocks after the manifests that look for an entrypoint: `Procfile`,
the two config files, the candidate files. -/
def scanEntry (d : Dir) (s : Scan) : Scan :=
  stepCandidates d (stepConfig d (stepProcfile d s))

/-- The function `scanProject`. -/
def scanProject (lib : Lib) (d : Dir) (forcedLang : String) : Scan :=
  stepDefault (stepLanguage (scanEntry d (scanManifests lib d forcedLang)))

/-- The results of a scan other than the language. -/
def Scan.rest (s : Scan) : String × Bool × GoMap (GoMap String) × Bool :=
  (s.entry, s.guessed, s.allDeps, s.secretsRuntime)

/-! ## Vocabulary of the specification and concrete inputs -/

/-- The language enum of the specification's data model. -/
def languageEnum : List String :=
  ["js", "ts", "python", "rust", "ruby", "go", "php", "swift", "unknown"]

/-- Every path that `scanProject` and the parsers it calls look up. -/
def probedFiles : List String :=
  ["package.json", "tsconfig.json", ".env", "Cargo.toml", "requirements.txt", "Gemfile",
   "go.mod", "composer.json", "Podfile", "Procfile", ".config.ts", ".config.toml"] ++ candidates

/-- The directory holding exactly the listed entries. -/
def dirOf (l : GoMap Entry) : Dir := fun p => mapGet l p

/-- A readable file with the given content. -/
abbrev readable (content : String) : Entry := Entry.file (some content)

/-- A file that exists but cannot be read. -/
abbrev unreadable : Entry := Entry.file none

/-- The manifests read line by line, each with its ecosystem tag. -/
def lineManifests : List (String × String) :=
  [("Cargo.toml", "rust"), ("requirements.txt", "python"), ("Gemfile", "ruby"),
   ("go.mod", "go"), ("Podfile", "swift")]

/-- The language tags that the manifest blocks can set. -/
def manifestLanguages : List String :=
  ["js", "ts", "rust", "python", "ruby", "go", "php", "swift"]

/-- The empty directory. -/
def emptyDir : Dir := dirOf []

/-- A sample `package.json`. -/
def samplePackageText : String :=
  "\x7b\"main\": \"index.js\", \"dependencies\": \x7b\"serde\": \"0.1.0\", \"next\": \"14.0.0\"\x7d\x7d"

/-- What `json.Unmarshal` makes of `samplePackageText`. -/
def samplePackage : PackageJSON :=
  { Main := "index.js", Module := "", Types := "",
    Dependencies := [("serde", "0.1.0"), ("next", "14.0.0")], DevDependencies := [] }

/-- A library that decodes the sample and rejects every other text, with a
case table that changes nothing above U+007F. -/
def sampleLib : Lib :=
  { unicodeLower := id,
    unmarshalPackage := fun data => if data = samplePackageText then some samplePackage else none,
    unmarshalComposer := fun _ => none }

/-- A sample `Cargo.toml`. -/
def sampleCargoText : String :=
  "[package]\nname = \"demo\"\n\n[dependencies]\nserde = \"1.0\"\n"

/-- A directory with a Node and a Rust manifest that both declare `serde`. -/
def dirNodeRust : Dir :=
  dirOf [("package.json", readable samplePackageText), ("Cargo.toml", readable sampleCargoText)]

/-- A directory holding nothing but an environment file. -/
def dirEnvOnly : Dir := dirOf [(".env", readable "API_KEY=1\n")]

/-- A directory with a Rust manifest and a `Procfile` naming an entrypoint. -/
def dirRustProcfile : Dir :=
  dirOf [("Cargo.toml", readable sampleCargoText), ("Procfile", readable "web: node src/index.js\n")]

/-- A directory whose only file is a `Cargo.toml` that cannot be read. -/
def dirUnreadableCargo : Dir := dirOf [("Cargo.toml", unreadable)]

/-- The six manifests after `package.json`, in the order of their blocks,
each with the language tag and the default entrypoint of its block. -/
def manifestDefaults : List (String × String × String) :=
  [("Cargo.toml", "rust", "src/main.rs"), ("requirements.txt", "python", "main.py"),
   ("Gemfile", "ruby", "main.rb"), ("go.mod", "go", "main.go"),
   ("composer.json", "php", "index.php"), ("Podfile", "swift", "main.swift")]

/-- The language that goes with the suffix of an entrypoint. -/
def inferLanguage (entry : String) : String :=
  if endsWith entry ".ts" || endsWith entry ".tsx" then "ts"
  else if endsWith entry ".py" then "python"
  else if endsWith entry ".rs" then "rust"
  else "js"

/-- The zero value of the struct that `parsePackageJSON` decodes into. -/
def zeroPackage : PackageJSON :=
  { Main := "", Module := "", Types := "", Dependencies := [], DevDependencies := [] }

/-- A directory with a `package.json` that cannot be read next to a
`tsconfig.json`. -/
def dirUnreadablePackageTs : Dir :=
  dirOf [("package.json", unreadable), ("tsconfig.json", readable "")]

/-- A directory whose only file is a `Procfile` with a one-word first line. -/
def dirOneWordProcfile : Dir := dirOf [("Procfile", readable "./start.sh\n")]

/-- A directory whose only file is a `Procfile` naming a Python entrypoint. -/
def dirProcfile : Dir := dirOf [("Procfile", readable "web: python app.py\nworker: x\n")]

/-- A directory with a Python and a Go manifest and a `Procfile`. -/
def dirPythonGo : Dir :=
  dirOf [("requirements.txt", readable "flask==2.0.1\n# comment\nrequests"),
    ("go.mod", readable "module demo\nrequire example.com/m v1.0.0\n"),
    ("Procfile", readable "web: python app.py\n")]

/-- A `package.json` with both `main` and `module`, and a name declared in
both dependency maps. -/
def samplePackageBoth : PackageJSON :=
  { Main := "lib/main.js", Module := "lib/module.mjs", Types := "",
    Dependencies := [("left", "1.0.0"), ("both", "2.0.0")],
    DevDependencies := [("both", "9.9.9"), ("right", "3.0.0")] }

/-- A library that decodes every text to `samplePackageBoth`. -/
def libBoth : Lib :=
  { unicodeLower := id, unmarshalPackage := fun _ => some samplePackageBoth,
    unmarshalComposer := fun _ => none }

/-- A directory with a `package.json`, a Rust manifest and a `Procfile`. -/
def dirNodeAll : Dir :=
  dirOf [("package.json", readable "main and module"), ("Cargo.toml", readable sampleCargoText),
    ("Procfile", readable "web: node other.js\n")]

/-- The first line of a text: what precedes its first newline. -/
def firstLine (content : String) : List Char :=
  content.data.takeWhile (fun c => c != '\n')

/-- The pieces without a last empty one: what `rawLines` keeps of the pieces
between newlines. -/
def dropEmptyLast (ps : List (List Char)) : List (List Char) :=
  match ps.reverse with
  | [] :: r => r.reverse
  | r => r.reverse

/-- The lines of a text: the pieces between its newlines. -/
def textLines (content : String) : List (List Char) :=
  splitWhere (fun c => c == '\n') content.data

/-- Every line of the text fits the buffer of a `bufio.Scanner`. -/
def shortLines (content : String) : Bool :=
  (textLines content).all (fun t => byteLen t < maxScanTokenSize)

/-- A line of `x` that is as long as the scanner's buffer, so that it does
not fit together with its newline. -/
def longLine : List Char := List.replicate maxScanTokenSize 'x'

/-- The reading of `go.mod` in the words of the specification: every line
that begins with `require ` after trimming sends its second
whitespace-delimited token to its third one, when it has both. -/
def specGoMod (content : String) : GoMap String :=
  (textLines content).foldl
    (fun deps raw =>
      if startsWith (trimSpaceChars raw) "require ".data then
        match (fields raw).get? 1, (fields raw).get? 2 with
        | some module, some version => mapSet deps ⟨module⟩ ⟨version⟩
        | _, _ => deps
      else deps)
    []

/-- A `go.mod` whose first line does not fit the scanner's buffer. -/
def longGoModText : String := ⟨longLine ++ "\nrequire example.com/m v1.0.0\n".data⟩

/-- A directory whose only file is the `go.mod` with the long first line. -/
def dirLongGoMod : Dir := dirOf [("go.mod", readable longGoModText)]

/-- One requirement line in the words of the specification, as amended:
after the characters `= > < ~ !` it may begin with, the line is split at the
first such character; the text before the split is the name, the text after
the split up to the next such character is the version, and the version is
`latest` when nothing follows the split.  A line of nothing but these
characters gives nothing. -/
def specRequirement (line : List Char) : Option (String × String) :=
  let body := line.dropWhile isSpecChar
  if body = [] then none
  else
    let name := body.takeWhile (fun c => !isSpecChar c)
    let after := (body.dropWhile (fun c => !isSpecChar c)).dropWhile isSpecChar
    some (⟨trimSpaceChars name⟩,
      if after = [] then "latest"
      else ⟨trimSpaceChars (after.takeWhile (fun c => !isSpecChar c))⟩)

/-- The reading of `requirements.txt` in the words of the specification, as
amended: the lines that after trimming are non-empty and do not start with
`#`, each read by `specRequirement`. -/
def specRequirements (content : String) : GoMap String :=
  (textLines content).foldl
    (fun deps raw =>
      if trimSpaceChars raw ≠ [] ∧ (trimSpaceChars raw).head? ≠ some '#' then
        match specRequirement (trimSpaceChars raw) with
        | some (name, version) => mapSet deps name version
        | none => deps
      else deps)
    []

/-- A `requirements.txt` with a line that begins with a version specifier and
a line that ends with one. -/
def dirOddRequirements : Dir := dirOf [("requirements.txt", readable "==1.0\nb==\n")]

/-- A section-header line: after trimming it starts with `[`. -/
def isSectionHeader (raw : List Char) : Bool :=
  (trimSpaceChars raw).head? == some '['

/-- A `key = value` line: after trimming it starts neither with `[` nor with
`#`, and it contains `=`. -/
def isKeyValueLine (raw : List Char) : Bool :=
  (trimSpaceChars raw).head? != some '[' && (trimSpaceChars raw).head? != some '#' &&
    (trimSpaceChars raw).any (fun c => c == '=')

/-- The nearest section header among the lines `before` (in file order) is
exactly `[dependencies]`; false when there is no header. -/
def specInDependencies (before : List (List Char)) : Bool :=
  match before.reverse.find? isSectionHeader with
  | some h => trimSpaceChars h == "[dependencies]".data
  | none => false

/-- The lines that contribute, in the words of the specification: the
`key = value` lines whose nearest preceding section header is exactly
`[dependencies]`.  The lines already passed are `before`. -/
def specCargoSelect (before : List (List Char)) : List (List Char) → List (List Char)
  | [] => []
  | l :: rest =>
    if isKeyValueLine l && specInDependencies before then
      l :: specCargoSelect (before ++ [l]) rest
    else specCargoSelect (before ++ [l]) rest

/-- The name and the version that a `key = value` line declares, in the words
of the specification: the line is split at its first `=`; the name is the
left part without surrounding whitespace and double quotes, the version is
the right part without surrounding whitespace and double quotes, up to its
first space. -/
def cargoEntry (raw : List Char) : String × String :=
  let line := trimSpaceChars raw
  let left := line.takeWhile (fun c => c != '=')
  let right := (line.dropWhile (fun c => c != '=')).drop 1
  (⟨trimChar '"' (trimSpaceChars left)⟩,
    ⟨(trimChar '"' (trimSpaceChars right)).takeWhile (fun c => c != ' ')⟩)

/-- The reading of `Cargo.toml` in the words of the specification: the
entries of the contributing lines, in file order. -/
def specCargo (content : String) : GoMap String :=
  (specCargoSelect [] (textLines content)).foldl
    (fun deps l => mapSet deps (cargoEntry l).1 (cargoEntry l).2) []

/-- A `Cargo.toml` with a line under `[dependencies]` that does not fit the
scanner's buffer, followed by a dependency. -/
def longCargoText : String :=
  ⟨"[dependencies]".data ++ '\n' :: (longLine ++ "\nserde = \"1.0\"\n".data)⟩

/-- A directory whose only file is the `Cargo.toml` with the long line. -/
def dirLongCargo : Dir := dirOf [("Cargo.toml", readable longCargoText)]

/-- A `Cargo.toml` with several sections. -/
def sectionsCargoText : String :=
  "early = \"0\"\n[package]\nname = \"demo\"\n[dependencies]\nserde = \"1.0\"\n" ++
  "tokio = \x7b version = \"1\" \x7d\n# note = \"x\"\n[dev-dependencies]\nrand = \"0.8\"\n" ++
  "[dependencies.foo]\nversion = \"2\"\n"

/-- A directory whose only file is the `Cargo.toml` with several sections. -/
def dirSectionsCargo : Dir := dirOf [("Cargo.toml", readable sectionsCargoText)]

/-- The single quote character. -/
def apostrophe : Char := Char.ofNat 39

/-- The pattern of `parseGemfile` and `parsePodfile` occurs in `line` with
the name `name`: somewhere in the line stands the keyword, at least one
whitespace character, a quote, the non-empty name free of quotes, and a
quote. -/
def depPattern (kw line name : List Char) : Prop :=
  ∃ pre sp ws q1 q2 rest,
    line = pre ++ (kw ++ sp :: (ws ++ q1 :: (name ++ q2 :: rest))) ∧
    reSpace sp = true ∧ (∀ c ∈ ws, reSpace c = true) ∧ isQuote q1 = true ∧
    isQuote q2 = true ∧ name ≠ [] ∧ ∀ c ∈ name, isQuote c = false

/-- A `Gemfile` line that begins with `gem ` but not with a quoted name, and
mentions a quoted gem in a trailing comment. -/
def oddGemLine : List Char :=
  "gem tool # gem ".data ++ apostrophe :: ("rake".data ++ [apostrophe])

/-- A directory whose `Gemfile` is the odd line. -/
def dirOddGemfile : Dir := dirOf [("Gemfile", readable ⟨oddGemLine⟩)]

/-- The line `gem`, name `rails`, version `7.0`, in single quotes. -/
def sampleGemLine : List Char :=
  "  gem ".data ++ apostrophe :: ("rails".data ++ apostrophe :: ", ".data ++
    apostrophe :: ("7.0".data ++ [apostrophe]))

/-- The line `pod`, name `Alamofire`, in single quotes, without a version. -/
def samplePodLine : List Char :=
  "pod ".data ++ apostrophe :: ("Alamofire".data ++ [apostrophe])

/-- The variables of `scanProject` before any block has run, for an empty
forced language. -/
def initialScan : Scan :=
  { language := "", entry := "", guessed := false, allDeps := [], secretsRuntime := false }

/-- A directory whose only file is a `Procfile` naming a JavaScript
entrypoint. -/
def dirNodeProcfile : Dir := dirOf [("Procfile", readable "web: node src/index.js\n")]

/-! ## The manifest synthesizer -/

/-- The function `generatePhantomToml`.  Two things that the Go function takes
from its environment are arguments here: `created` is the text of
`time.Now().UTC().Format(time.RFC3339)`, and the list `allDeps` holds the
entries of the Go map, and of each map in it, in the order in which the
`range` loops of this call visit them.  Go leaves that order unspecified. -/
def generatePhantomToml (created project language entry : String) (guessed : Bool)
    (allDeps : GoMap (GoMap String)) (secretsRuntime : Bool) : String :=
  let comment := if guessed then " # please update to correct entrypoint" else ""
  let b := ""
  let b := b ++ "[repository]\n"
  let b := b ++ ("project = \"" ++ project ++ "\"\n")
  let b := b ++ "version = \"0.1.0\"\n"
  let b := b ++ ("entry = \"" ++ entry ++ "\"" ++ comment ++ "\n")
  let b := b ++ ("language = \"" ++ language ++ "\"\n")
  let b := b ++ ("created_at = \"" ++ created ++ "\"\n\n")
  let b := allDeps.foldl (fun b e =>
    if e.2.length > 0 then
      let b := b ++ ("[dependencies." ++ e.1 ++ "]\n")
      let b := e.2.foldl (fun b kv => b ++ (kv.1 ++ " = \"" ++ kv.2 ++ "\"\n")) b
      b ++ "\n"
    else b) b
  let b := b ++ "[runtime]\n"
  let b := b ++ ("language = \"" ++ language ++ "\"\n")
  let b := b ++ "isolation = \"v8\"\n"
  let b := b ++ "timeout = 30000\n"
  let b := b ++ "memory = 128\n\n"
  let b := b ++ "[secrets]\n"
  if secretsRuntime then b ++ "runtime = true\n" else b ++ "runtime = false\n"

/-- The function `generatePhantomLock`, with the text `generated` of
`time.Now().UTC().Format(time.RFC3339)` and the order `allDeps` in which the
`range` loops of this call visit the map as arguments. -/
def generatePhantomLock (generated project language : String)
    (allDeps : GoMap (GoMap String)) : String :=
  let b := ""
  let b := b ++ "# Phantom Lock File\n"
  let b := b ++ "# Generated for environment setup and dependency injection\n\n"
  let b := b ++ ("project = \"" ++ project ++ "\"\n")
  let b := b ++ ("language = \"" ++ language ++ "\"\n")
  let b := b ++ ("generated_at = \"" ++ generated ++ "\"\n\n")
  let b := b ++ "[environment]\n"
  let b :=
    if language = "js" ∨ language = "ts" then
      b ++ "setup = \"npm install\"\n" ++ "runtime = \"node\"\n"
    else if language = "python" then
      b ++ "setup = \"pip install -r requirements.txt\"\n" ++ "runtime = \"python\"\n"
    else if language = "rust" then
      b ++ "setup = \"cargo build\"\n" ++ "runtime = \"cargo\"\n"
    else if language = "ruby" then
      b ++ "setup = \"bundle install\"\n" ++ "runtime = \"ruby\"\n"
    else if language = "go" then
      b ++ "setup = \"go mod download\"\n" ++ "runtime = \"go\"\n"
    else if language = "php" then
      b ++ "setup = \"composer install\"\n" ++ "runtime = \"php\"\n"
    else if language = "swift" then
      b ++ "setup = \"pod install\"\n" ++ "runtime = \"swift\"\n"
    else
      b ++ "setup = \"# install dependencies for your runtime\"\n" ++ "runtime = \"custom\"\n"
  let b := b ++ "\n"
  let b := b ++ "[dependencies]\n"
  allDeps.foldl (fun b e =>
    if e.2.length > 0 then
      let b := b ++ ("[dependencies." ++ e.1 ++ "]\n")
      let b := e.2.foldl (fun b kv => b ++ (kv.1 ++ " = \"" ++ kv.2 ++ "\"\n")) b
      b ++ "\n"
    else b) b

/-! ## Vocabulary of the specification of the synthesizer -/

/-- The list `visit` is one way for the `range` loops to go through the map
`m`: it has the entries of `m` in some order, each with its own entries in
some order. -/
def Ranges (m visit : GoMap (GoMap String)) : Prop :=
  ∃ mid, List.Perm m mid ∧
    List.Forall₂ (fun a b => a.1 = b.1 ∧ List.Perm a.2 b.2) mid visit

/-- The text made of the given lines, each closed by a newline. -/
def unlines (ls : List (List Char)) : List Char :=
  (ls.map (fun l => l ++ ['\n'])).flatten

/-- The line `name = "version"` of a dependency. -/
def dependencyLine (kv : String × String) : List Char :=
  kv.1.data ++ " = \"".data ++ kv.2.data ++ "\"".data

/-- The header line `[dependencies.<tag>]`. -/
def headerLine (tag : String) : List Char :=
  "[dependencies.".data ++ tag.data ++ "]".data

/-- The lines of the subsection of one ecosystem: none for an empty map, and
otherwise the header, one line for each entry, and a blank line. -/
def sectionLines (e : String × GoMap String) : List (List Char) :=
  if e.2.length > 0 then headerLine e.1 :: (e.2.map dependencyLine ++ [[]]) else []

/-- The lines of the dependency subsections. -/
def dependencyLines (allDeps : GoMap (GoMap String)) : List (List Char) :=
  (allDeps.map sectionLines).flatten

/-- The lines of the `[repository]` section. -/
def repositoryLines (created project language entry : String) (guessed : Bool) :
    List (List Char) :=
  ["[repository]".data, "project = \"".data ++ project.data ++ "\"".data,
   "version = \"0.1.0\"".data,
   "entry = \"".data ++ entry.data ++ "\"".data ++
     (if guessed then " # please update to correct entrypoint".data else []),
   "language = \"".data ++ language.data ++ "\"".data,
   "created_at = \"".data ++ created.data ++ "\"".data, []]

/-- The lines of the `[runtime]` section. -/
def runtimeLines (language : String) : List (List Char) :=
  ["[runtime]".data, "language = \"".data ++ language.data ++ "\"".data,
   "isolation = \"v8\"".data, "timeout = 30000".data, "memory = 128".data, []]

/-- The lines of the `[secrets]` section. -/
def secretsLines (secretsRuntime : Bool) : List (List Char) :=
  ["[secrets]".data, if secretsRuntime then "runtime = true".data else "runtime = false".data]

/-- The lines with which the lock file begins. -/
def preambleLines (generated project language : String) : List (List Char) :=
  ["# Phantom Lock File".data,
   "# Generated for environment setup and dependency injection".data, [],
   "project = \"".data ++ project.data ++ "\"".data,
   "language = \"".data ++ language.data ++ "\"".data,
   "generated_at = \"".data ++ generated.data ++ "\"".data, []]

/-- The runtime name that `generatePhantomLock` writes for a language. -/
def lockRuntime (language : String) : String :=
  if language = "js" ∨ language = "ts" then "node"
  else if language = "python" then "python"
  else if language = "rust" then "cargo"
  else if language = "ruby" then "ruby"
  else if language = "go" then "go"
  else if language = "php" then "php"
  else if language = "swift" then "swift"
  else "custom"

/-- The setup command of a language, by the table of the specification. -/
def specSetup (language : String) : String :=
  if language = "js" ∨ language = "ts" then "npm install"
  else if language = "python" then "pip install -r requirements.txt"
  else if language = "rust" then "cargo build"
  else if language = "ruby" then "bundle install"
  else if language = "go" then "go mod download"
  else if language = "php" then "composer install"
  else if language = "swift" then "pod install"
  else "# install dependencies for your runtime"

/-- The languages that the table of setup commands names. -/
def setupLanguages : List String :=
  ["js", "ts", "python", "rust", "ruby", "go", "php", "swift"]

/-- The lines of the `[environment]` section of the lock file, for a setup
command and a runtime name, and the `[dependencies]` header after them. -/
def environmentLines (setup runtime : String) : List (List Char) :=
  ["[environment]".data, "setup = \"".data ++ setup.data ++ "\"".data,
   "runtime = \"".data ++ runtime.data ++ "\"".data, [], "[dependencies]".data]

/-- The characters of a line: no newline among them. -/
def lineChars (l : List Char) : Bool := l.all (fun c => c != '\n')

/-- The string has no line break. -/
def oneLine (s : String) : Bool := lineChars s.data

/-- No tag, name or version of the maps has a line break. -/
def depsOneLine (allDeps : GoMap (GoMap String)) : Bool :=
  allDeps.all (fun e => oneLine e.1 && e.2.all (fun kv => oneLine kv.1 && oneLine kv.2))

/-- The lines of a text from its first line `start` up to, and without, the
next line `stop`. -/
def linesBetween (start stop : List Char) (text : String) : List (List Char) :=
  ((textLines text).dropWhile (fun l => l != start)).takeWhile (fun l => l != stop)

/-- A timestamp in the format RFC 3339. -/
def sampleTime : String := "2026-01-01T00:00:00Z"

/-- Dependency maps of two ecosystems, one entry each. -/
def sampleDeps : GoMap (GoMap String) :=
  [("node", [("express", "^4.18.0")]), ("rust", [("serde", "latest")])]

/-- The text from the first occurrence of `marker` on, empty when `marker`
does not occur. -/
def dropUntil (marker : List Char) : List Char → List Char
  | [] => []
  | c :: cs => if startsWith (c :: cs) marker then c :: cs else dropUntil marker cs

/-- The text before the first occurrence of `marker`, all of it when `marker`
does not occur. -/
def takeUntil (marker : List Char) : List Char → List Char
  | [] => []
  | c :: cs => if startsWith (c :: cs) marker then [] else c :: takeUntil marker cs

/-- The dependency subsections of a `phantom.toml`: the text from the first
header `[dependencies.` up to the header `[runtime]`. -/
def tomlSubsections (text : String) : List Char :=
  takeUntil "[runtime]\n".data (dropUntil "[dependencies.".data text.data)

/-- The dependency subsections of a lock file: the text after its header
`[dependencies]`. -/
def lockSubsections (text : String) : List Char :=
  (dropUntil "[dependencies]\n".data text.data).drop "[dependencies]\n".data.length

/-- The string can stand between double quotes as it is: it has no double
quote and no line break. -/
def plainString (s : String) : Bool := s.data.all (fun c => c != '"' && c != '\n')

/-- A string value of the grammar: a double quote, characters other than the
double quote, a double quote, and then nothing or a blank and a `#` comment. -/
def isStringValue (v : List Char) : Bool :=
  match v with
  | '"' :: t =>
    t.dropWhile (fun c => c != '"') == ['"'] ||
      startsWith (t.dropWhile (fun c => c != '"')) "\" #".data
  | _ => false

/-- A value of the grammar that is not a string: a number or a boolean. -/
def isBareValue (v : List Char) : Bool := !v.isEmpty && v.all Char.isAlphanum

/-- A directory whose `Cargo.toml` declares a dependency by an inline table
without blanks. -/
def dirInlineCargo : Dir :=
  dirOf [("Cargo.toml", readable "[dependencies]\ntokio = \x7bversion=\"1.0\"\x7d\n")]

/-- The text before and the text after the first occurrence of `sep`. -/
def splitFirst (sep : List Char) : List Char → Option (List Char × List Char)
  | [] => none
  | c :: cs =>
    if startsWith (c :: cs) sep then some ([], (c :: cs).drop sep.length)
    else (splitFirst sep cs).map (fun p => (c :: p.1, p.2))

/-- The text without its enclosing pair of double quotes, if it has one. -/
def unquote (v : List Char) : List Char :=
  match v with
  | '"' :: t => if t.getLast? = some '"' then t.dropLast else v
  | _ => v

/-- The tag of a header line `[dependencies.<tag>]`. -/
def specReadHeader (l : List Char) : Option String :=
  if startsWith l "[dependencies.".data && l.getLast? == some ']' then
    some ⟨(l.drop "[dependencies.".data.length).dropLast⟩
  else none

/-- One step of the key-value reader of the specification, on the maps read
so far and the map that is open: a header `[dependencies.<tag>]` opens a map,
another line in square brackets closes the open one, and a line with ` = `
under an open map is split at its first ` = ` into a name and a version,
whose enclosing double quotes are removed. -/
def specReadLine (st : GoMap (GoMap String) × Option (String × GoMap String))
    (l : List Char) : GoMap (GoMap String) × Option (String × GoMap String) :=
  match specReadHeader l with
  | some tag => (st.1 ++ st.2.toList, some (tag, []))
  | none =>
    if startsWith l ['['] && l.getLast? == some ']' then (st.1 ++ st.2.toList, none)
    else
      match st.2, splitFirst " = ".data l with
      | some (tag, es), some (k, v) => (st.1, some (tag, es ++ [(⟨k⟩, ⟨unquote v⟩)]))
      | _, _ => st

/-- The key-value reader of the specification: the dependency maps read back
from a text, in the order of their headers. -/
def specReadBack (text : String) : GoMap (GoMap String) :=
  ((textLines text).foldl specReadLine ([], none)).1 ++
    ((textLines text).foldl specReadLine ([], none)).2.toList

/-- The name, written before ` = `, is found again by splitting at the first
` = `: it does not contain ` = ` and does not end in ` =`. -/
def nameSplits (name : String) : Bool :=
  splitFirst " = ".data (name.data ++ " = ".data) == some (name.data, [])

/-- No tag, name or version has a line break, and every name is found again
by splitting at the first ` = `. -/
def depsReadable (allDeps : GoMap (GoMap String)) : Bool :=
  allDeps.all (fun e => oneLine e.1 && e.2.all (fun kv =>
    oneLine kv.1 && oneLine kv.2 && nameSplits kv.1))

/-- A dependency map with a name that contains ` = `. -/
def oddDeps : GoMap (GoMap String) := [("node", [("a = b", "1.0.0")])]

/-- A dependency map with a version that has a line break. -/
def brokenDeps : GoMap (GoMap String) := [("node", [("a", "1\n2")])]

/-- A project name with a line break, a header and an assignment. -/
def oddProject : String := "p\"\n[dependencies.x]\ny = \"1"

/-- The pattern of `parseConfigEntrypoint` occurs in `text` after `pre`, with
the quoted string `name`: the key `entry` in any letter case, whitespace, a
colon or an equals sign, whitespace, a double quote, the non-empty string
`name` free of double quotes, and a double quote. -/
def entryPattern (text pre name : List Char) : Prop :=
  ∃ key ws₁ sep ws₂ rest,
    text = pre ++ (key ++ (ws₁ ++ sep :: (ws₂ ++ '"' :: (name ++ '"' :: rest)))) ∧
    key.map asciiLower = "entry".data ∧ (∀ c ∈ ws₁, reSpace c = true) ∧
    (sep = ':' ∨ sep = '=') ∧ (∀ c ∈ ws₂, reSpace c = true) ∧ name ≠ [] ∧
    ∀ c ∈ name, c ≠ '"'

/-- The string `name` is the quoted string of the first occurrence of the
pattern in `text`. -/
def firstEntryMatch (text name : List Char) : Prop :=
  ∃ pre, entryPattern text pre name ∧
    ∀ pre' name', entryPattern text pre' name' → pre.length ≤ pre'.length

/-- A directory with the two config files, each with an entry. -/
def dirConfig : Dir :=
  dirOf [(".config.ts", readable "entry: \"src/app.ts\"\n"),
    (".config.toml", readable "name = \"demo\"\nEntry=\"other.py\"\n")]

/-- A directory whose only file is the candidate `src/index.ts`. -/
def dirIndexTs : Dir := dirOf [("src/index.ts", readable "export {}\n")]

/-- A `go.mod` whose modules stand inside a parenthesised block. -/
def blockGoModText : String :=
  "module demo\n\ngo 1.21\n\nrequire (\n\texample.com/m v1.0.0\n\texample.com/n v0.2.0\n)\n"

/-- A directory whose `go.mod` is `blockGoModText`. -/
def dirBlockGoMod : Dir := dirOf [("go.mod", readable blockGoModText)]
/-! ## The API key check of `services/phantomkit` -/

/-- The rune `utf8.RuneError`, U+FFFD. -/
def runeError : Nat := 0xFFFD

/-- A continuation byte of UTF-8: `0x80` to `0xBF`. -/
def isContinuation (b : Nat) : Bool := decide (0x80 ≤ b ∧ b ≤ 0xBF)

/-- The second byte that UTF-8 accepts after the first byte `b0` of a
sequence of three or four bytes. -/
def acceptsSecond (b0 b1 : Nat) : Bool :=
  if b0 = 0xE0 then decide (0xA0 ≤ b1 ∧ b1 ≤ 0xBF)
  else if b0 = 0xED then decide (0x80 ≤ b1 ∧ b1 ≤ 0x9F)
  else if b0 = 0xF0 then decide (0x90 ≤ b1 ∧ b1 ≤ 0xBF)
  else if b0 = 0xF4 then decide (0x80 ≤ b1 ∧ b1 ≤ 0x8F)
  else isContinuation b1

/-- What a `for range` over a Go string decodes at the head of the bytes `l`:
the rune and the number of bytes it takes.  A byte below `0x80` is its own
rune; a well-formed sequence of two, three or four bytes gives its code
point; anything else gives `utf8.RuneError` and takes one byte. -/
def decodeRune (l : List Nat) : Nat × Nat :=
  match l with
  | [] => (runeError, 1)
  | b0 :: rest =>
    if b0 < 0x80 then (b0, 1)
    else if 0xC2 ≤ b0 ∧ b0 ≤ 0xDF then
      match rest with
      | b1 :: _ =>
        if isContinuation b1 then ((b0 % 32) * 64 + b1 % 64, 2) else (runeError, 1)
      | _ => (runeError, 1)
    else if 0xE0 ≤ b0 ∧ b0 ≤ 0xEF then
      match rest with
      | b1 :: b2 :: _ =>
        if acceptsSecond b0 b1 && isContinuation b2 then
          ((b0 % 16) * 4096 + (b1 % 64) * 64 + b2 % 64, 3)
        else (runeError, 1)
      | _ => (runeError, 1)
    else if 0xF0 ≤ b0 ∧ b0 ≤ 0xF4 then
      match rest with
      | b1 :: b2 :: b3 :: _ =>
        if acceptsSecond b0 b1 && isContinuation b2 && isContinuation b3 then
          ((b0 % 8) * 262144 + (b1 % 64) * 4096 + (b2 % 64) * 64 + b3 % 64, 4)
        else (runeError, 1)
      | _ => (runeError, 1)
    else (runeError, 1)

/-- The loop `for _, r := range key` of `isValidAPIKey` on the bytes that are
left, of which the first `skip` belong to the rune decoded last: false as
soon as a rune is below 32 or above 126. -/
def validRunes : Nat → List Nat → Bool
  | _, [] => true
  | skip + 1, _ :: rest => validRunes skip rest
  | 0, b :: rest =>
    if (decodeRune (b :: rest)).1 < 32 ∨ (decodeRune (b :: rest)).1 > 126 then false
    else validRunes ((decodeRune (b :: rest)).2 - 1) rest

/-- The function `isValidAPIKey`, on the bytes of the key. -/
def isValidAPIKey (key : List Nat) : Bool :=
  if key.length < 8 then false else validRunes 0 key

/-- The runes that a `for range` over the bytes yields, the first `skip`
bytes belonging to the rune decoded last. -/
def rangeRunes : Nat → List Nat → List Nat
  | _, [] => []
  | skip + 1, _ :: rest => rangeRunes skip rest
  | 0, b :: rest => (decodeRune (b :: rest)).1 :: rangeRunes ((decodeRune (b :: rest)).2 - 1) rest

/-- The bytes of the key `sk_live_42`. -/
def sampleKey : List Nat := [115, 107, 95, 108, 105, 118, 101, 95, 52, 50]

/-- The bytes of the key `clé-2024`, whose third character takes two bytes. -/
def accentKey : List Nat := [99, 108, 195, 169, 45, 50, 48, 50, 52]

/-- A `Cargo.toml` that begins with a line that does not fit the scanner's
buffer, followed by the section `[dependencies]` with one dependency. -/
def longCargoHead : String :=
  ⟨longLine ++ "\n[dependencies]\nserde = \"1.0\"\n".data⟩

/-- A directory whose only file is the `Cargo.toml` that begins with the long
line. -/
def dirLongCargoHead : Dir := dirOf [("Cargo.toml", readable longCargoHead)]

/-- The pattern of `parseGemfile` and `parsePodfile` occurs in `line` right
after `pre`, with the name `name`, and `rest` follows its closing quote. -/
def depPatternAt (kw line pre name rest : List Char) : Prop :=
  ∃ sp ws q1 q2,
    line = pre ++ (kw ++ sp :: (ws ++ q1 :: (name ++ q2 :: rest))) ∧
    reSpace sp = true ∧ (∀ c ∈ ws, reSpace c = true) ∧ isQuote q1 = true ∧
    isQuote q2 = true ∧ name ≠ [] ∧ ∀ c ∈ name, isQuote c = false

/-- The leftmost occurrence of the pattern in `line` has the name `name` and
is followed by `rest`. -/
def firstDepMatch (kw line name rest : List Char) : Prop :=
  ∃ pre, depPatternAt kw line pre name rest ∧
    ∀ pre' name' rest', depPatternAt kw line pre' name' rest' → pre.length ≤ pre'.length

/-- The text `rest` after the name begins with the optional part of the
pattern, with the version `ver`: a comma, whitespace or none, a quote, the
non-empty version free of quotes, and a quote. -/
def versionAfter (rest ver : List Char) : Prop :=
  ∃ ws q3 q4 tail,
    rest = ',' :: (ws ++ q3 :: (ver ++ q4 :: tail)) ∧ (∀ c ∈ ws, reSpace c = true) ∧
    isQuote q3 = true ∧ isQuote q4 = true ∧ ver ≠ [] ∧ ∀ c ∈ ver, isQuote c = false

/-- The line `gem`, name `rails`, version `7.0`, followed by an option. -/
def optionGemLine : List Char :=
  "gem ".data ++ apostrophe :: ("rails".data ++ apostrophe :: ", ".data ++
    apostrophe :: ("7.0".data ++ apostrophe :: ", require: false".data))

/-- A key of the grammar: not empty, without double quote, and beginning
neither with `#` nor with `[`. -/
def isKey (k : List Char) : Bool :=
  !k.isEmpty && k.all (fun c => c != '"') && !startsWith k ['#'] && !startsWith k ['[']

/-- An assignment of the grammar: the line is split at its first ` = ` into
a key and a value. -/
def isAssignment (l : List Char) : Bool :=
  match splitFirst " = ".data l with
  | some (k, v) => isKey k && (isStringValue v || isBareValue v)
  | none => false

/-- A `#` comment of the grammar. -/
def isComment (l : List Char) : Bool := startsWith l ['#']

/-- A section header of the grammar: `[name]` with a name that is not empty
and has no square bracket. -/
def isHeader (l : List Char) : Bool :=
  match l with
  | '[' :: t =>
    t.getLast? == some ']' && !t.dropLast.isEmpty &&
      t.dropLast.all (fun c => c != '[' && c != ']')
  | _ => false

/-- A line of the grammar: blank, a `#` comment, a header `[name]`, or an
assignment. -/
def wellFormedLine (l : List Char) : Bool :=
  l.isEmpty || isComment l || isHeader l || isAssignment l

/-- The tag can stand in a header: it has no line break and no square
bracket. -/
def plainTag (s : String) : Bool :=
  s.data.all (fun c => c != '\n' && c != '[' && c != ']')

/-- The name can stand as a key before ` = `: it is a key of the grammar
without line break, and it is found again by splitting at the first ` = `. -/
def plainKey (s : String) : Bool := isKey s.data && oneLine s && nameSplits s

/-- Every tag can stand in a header, every name can stand as a key and every
version can stand between double quotes. -/
def depsPlain (allDeps : GoMap (GoMap String)) : Bool :=
  allDeps.all (fun e => plainTag e.1 && e.2.all (fun kv => plainKey kv.1 && plainString kv.2))

/-! ## Basic facts about the embedding -/

theorem mapGet_mapSet_same {α : Type} (m : GoMap α) (k : String) (v : α) :
    mapGet (mapSet m k v) k = some v := by
  induction m with
  | nil => simp [mapSet, mapGet]
  | cons e rest ih =>
    obtain ⟨k', v'⟩ := e
    by_cases h : k' = k
    · simp [mapSet, mapGet, h]
    · simp [mapSet, mapGet, h, ih]

theorem mapGet_mapSet_other {α : Type} (m : GoMap α) (k t : String) (v : α) (h : k ≠ t) :
    mapGet (mapSet m k v) t = mapGet m t := by
  induction m with
  | nil => simp [mapSet, mapGet, h]
  | cons e rest ih =>
    obtain ⟨k', v'⟩ := e
    by_cases h' : k' = k
    · subst h'
      simp [mapSet, mapGet, h]
    · simp only [mapSet, h', if_false, mapGet, ih]

theorem toLower_eq_empty (u : Char → Char) (s : String) : toLower u s = "" ↔ s = "" := by
  obtain ⟨l⟩ := s
  cases l with
  | nil => simp [toLower]
  | cons c cs =>
    constructor
    · intro h
      have h2 := congrArg String.data h
      simp [toLower] at h2
    · intro h
      have h2 := congrArg String.data h
      simp at h2

theorem Scan.rest_eq_iff (s t : Scan) :
    s.rest = t.rest ↔ s.entry = t.entry ∧ s.guessed = t.guessed ∧ s.allDeps = t.allDeps ∧
      s.secretsRuntime = t.secretsRuntime := by
  simp [Scan.rest]

/-! ### No block reads the language to decide anything else -/

theorem stepPackageJSON_rest (lib : Lib) (d : Dir) (s t : Scan) (h : s.rest = t.rest) :
    (stepPackageJSON lib d s).rest = (stepPackageJSON lib d t).rest := by
  rw [Scan.rest_eq_iff] at h
  obtain ⟨h1, h2, h3, h4⟩ := h
  simp only [stepPackageJSON]
  split_ifs <;> simp_all [Scan.rest]

theorem stepManifest_rest (d : Dir) (file lang dflt tag : String) (deps : GoMap String)
    (s t : Scan) (h : s.rest = t.rest) :
    (stepManifest d file lang dflt tag deps s).rest =
      (stepManifest d file lang dflt tag deps t).rest := by
  rw [Scan.rest_eq_iff] at h
  obtain ⟨h1, h2, h3, h4⟩ := h
  simp only [stepManifest]
  split_ifs <;> simp_all [Scan.rest]

theorem stepProcfile_rest (d : Dir) (s t : Scan) (h : s.rest = t.rest) :
    (stepProcfile d s).rest = (stepProcfile d t).rest := by
  rw [Scan.rest_eq_iff] at h
  obtain ⟨h1, h2, h3, h4⟩ := h
  simp only [stepProcfile]
  split_ifs <;> simp_all [Scan.rest]

theorem stepConfig_rest (d : Dir) (s t : Scan) (h : s.rest = t.rest) :
    (stepConfig d s).rest = (stepConfig d t).rest := by
  rw [Scan.rest_eq_iff] at h
  obtain ⟨h1, h2, h3, h4⟩ := h
  simp only [stepConfig]
  split_ifs <;> simp_all [Scan.rest]

theorem stepCandidates_rest (d : Dir) (s t : Scan) (h : s.rest = t.rest) :
    (stepCandidates d s).rest = (stepCandidates d t).rest := by
  rw [Scan.rest_eq_iff] at h
  obtain ⟨h1, h2, h3, h4⟩ := h
  simp only [stepCandidates]
  cases candidates.find? (fun c => fileExists d c) <;> split_ifs <;> simp_all [Scan.rest]

theorem stepLanguage_rest (s : Scan) : (stepLanguage s).rest = s.rest := by
  simp only [stepLanguage]
  split_ifs <;> simp [Scan.rest]

theorem stepDefault_rest (s t : Scan) (h : s.rest = t.rest) :
    (stepDefault s).rest = (stepDefault t).rest := by
  rw [Scan.rest_eq_iff] at h
  obtain ⟨h1, h2, h3, h4⟩ := h
  simp only [stepDefault]
  split_ifs <;> simp_all [Scan.rest]

theorem scanManifests_rest (lib : Lib) (d : Dir) (f g : String) :
    (scanManifests lib d f).rest = (scanManifests lib d g).rest := by
  simp only [scanManifests]
  repeat apply stepManifest_rest
  apply stepPackageJSON_rest
  rfl

theorem scanProject_rest (lib : Lib) (d : Dir) (f g : String) :
    (scanProject lib d f).rest = (scanProject lib d g).rest := by
  simp only [scanProject, scanEntry]
  apply stepDefault_rest
  rw [stepLanguage_rest, stepLanguage_rest]
  apply stepCandidates_rest
  apply stepConfig_rest
  apply stepProcfile_rest
  exact scanManifests_rest lib d f g

/-! ### What each block does to each variable -/

theorem stepManifest_allDeps (d : Dir) (file lang dflt tag : String) (deps : GoMap String)
    (s : Scan) :
    (stepManifest d file lang dflt tag deps s).allDeps =
      if fileExists d file = true then mapSet s.allDeps tag deps else s.allDeps := by
  simp only [stepManifest]
  split_ifs <;> rfl

theorem stepManifest_secrets (d : Dir) (file lang dflt tag : String) (deps : GoMap String)
    (s : Scan) :
    (stepManifest d file lang dflt tag deps s).secretsRuntime = s.secretsRuntime := by
  simp only [stepManifest]
  split_ifs <;> rfl

theorem stepManifest_language (d : Dir) (file lang dflt tag : String) (deps : GoMap String)
    (s : Scan) :
    (stepManifest d file lang dflt tag deps s).language =
      if fileExists d file = true ∧ s.language = "" then lang else s.language := by
  simp only [stepManifest]
  split_ifs <;> simp_all

theorem stepManifest_entry (d : Dir) (file lang dflt tag : String) (deps : GoMap String)
    (s : Scan) :
    (stepManifest d file lang dflt tag deps s).entry =
      if fileExists d file = true ∧ s.entry = "" then dflt else s.entry := by
  simp only [stepManifest]
  split_ifs <;> simp_all

theorem stepManifest_guessed (d : Dir) (file lang dflt tag : String) (deps : GoMap String)
    (s : Scan) :
    (stepManifest d file lang dflt tag deps s).guessed =
      if fileExists d file = true ∧ s.entry = "" then true else s.guessed := by
  simp only [stepManifest]
  split_ifs <;> simp_all

theorem stepPackageJSON_allDeps (lib : Lib) (d : Dir) (s : Scan) :
    (stepPackageJSON lib d s).allDeps =
      if fileExists d "package.json" = true then
        mapSet s.allDeps "node" (parsePackageJSON lib d "package.json").deps
      else s.allDeps := by
  simp only [stepPackageJSON]
  split_ifs <;> rfl

theorem stepPackageJSON_secrets (lib : Lib) (d : Dir) (s : Scan) :
    (stepPackageJSON lib d s).secretsRuntime =
      if fileExists d "package.json" = true ∧ (fileExists d ".env" = true ∨
          hasAnyDep (parsePackageJSON lib d "package.json").deps
            ["tauri", "electron", "next"] = true) then true
      else s.secretsRuntime := by
  simp only [stepPackageJSON]
  split_ifs <;> simp_all

theorem stepPackageJSON_language (lib : Lib) (d : Dir) (s : Scan) :
    (stepPackageJSON lib d s).language =
      if fileExists d "package.json" = true ∧ s.language = "" then
        (parsePackageJSON lib d "package.json").language
      else s.language := by
  simp only [stepPackageJSON]
  split_ifs <;> simp_all

theorem stepPackageJSON_entry (lib : Lib) (d : Dir) (s : Scan) :
    (stepPackageJSON lib d s).entry =
      if fileExists d "package.json" = true ∧ s.entry = "" then
        (parsePackageJSON lib d "package.json").entry
      else s.entry := by
  simp only [stepPackageJSON]
  split_ifs <;> simp_all

theorem stepPackageJSON_guessed (lib : Lib) (d : Dir) (s : Scan) :
    (stepPackageJSON lib d s).guessed = s.guessed := by
  simp only [stepPackageJSON]
  split_ifs <;> rfl

theorem scanEntry_frame (d : Dir) (s : Scan) :
    (scanEntry d s).language = s.language ∧ (scanEntry d s).allDeps = s.allDeps ∧
      (scanEntry d s).secretsRuntime = s.secretsRuntime := by
  simp only [scanEntry, stepCandidates, stepConfig, stepProcfile]
  cases candidates.find? (fun c => fileExists d c) <;> split_ifs <;> simp

theorem stepLanguage_language (s : Scan) :
    (stepLanguage s).language =
      if s.language = "" then
        if (endsWith s.entry ".ts" || endsWith s.entry ".tsx") = true then "ts"
        else if endsWith s.entry ".py" = true then "python"
        else if endsWith s.entry ".rs" = true then "rust"
        else "js"
      else s.language := by
  simp only [stepLanguage]
  split_ifs <;> rfl

theorem stepDefault_frame (s : Scan) :
    (stepDefault s).language = s.language ∧ (stepDefault s).allDeps = s.allDeps ∧
      (stepDefault s).secretsRuntime = s.secretsRuntime := by
  simp only [stepDefault]
  split_ifs <;> simp

theorem stepDefault_entry_ne (s : Scan) : (stepDefault s).entry ≠ "" := by
  simp only [stepDefault]
  split_ifs with h
  · show "src/main.tsx" ≠ ""
    decide
  · exact h

theorem scanProject_language (lib : Lib) (d : Dir) (f : String) :
    (scanProject lib d f).language =
      (stepLanguage (scanEntry d (scanManifests lib d f))).language := by
  rw [scanProject]
  exact (stepDefault_frame _).1

theorem scanProject_allDeps (lib : Lib) (d : Dir) (f : String) :
    (scanProject lib d f).allDeps = (scanManifests lib d f).allDeps := by
  rw [scanProject, (stepDefault_frame _).2.1]
  have h := stepLanguage_rest (scanEntry d (scanManifests lib d f))
  rw [Scan.rest_eq_iff] at h
  rw [h.2.2.1, (scanEntry_frame d _).2.1]

theorem scanProject_secrets (lib : Lib) (d : Dir) (f : String) :
    (scanProject lib d f).secretsRuntime = (scanManifests lib d f).secretsRuntime := by
  rw [scanProject, (stepDefault_frame _).2.2]
  have h := stepLanguage_rest (scanEntry d (scanManifests lib d f))
  rw [Scan.rest_eq_iff] at h
  rw [h.2.2.2, (scanEntry_frame d _).2.2]

theorem scanManifests_language_forced (lib : Lib) (d : Dir) (f : String)
    (h : toLower lib.unicodeLower (trimSpace f) ≠ "") :
    (scanManifests lib d f).language = toLower lib.unicodeLower (trimSpace f) := by
  simp [scanManifests, stepManifest_language, stepPackageJSON_language, h]

theorem parsePackageJSON_language (lib : Lib) (d : Dir) (path : String) :
    (parsePackageJSON lib d path).language = "js" ∨
      (parsePackageJSON lib d path).language = "ts" := by
  simp only [parsePackageJSON]
  cases readFile d path with
  | none => simp
  | some data =>
    simp only
    split_ifs <;> simp

theorem stepManifest_language_inv (d : Dir) (file lang dflt tag : String)
    (deps : GoMap String) (s : Scan) (l0 : String) (hl : lang ∈ manifestLanguages)
    (h : s.language = l0 ∨ (l0 = "" ∧ s.language ∈ manifestLanguages)) :
    (stepManifest d file lang dflt tag deps s).language = l0 ∨
      (l0 = "" ∧ (stepManifest d file lang dflt tag deps s).language ∈ manifestLanguages) := by
  rw [stepManifest_language]
  split_ifs with hc
  · right
    rcases h with h | h
    · exact ⟨h ▸ hc.2, hl⟩
    · exact ⟨h.1, hl⟩
  · exact h

theorem stepPackageJSON_language_inv (lib : Lib) (d : Dir) (s : Scan) (l0 : String)
    (h : s.language = l0) :
    (stepPackageJSON lib d s).language = l0 ∨
      (l0 = "" ∧ (stepPackageJSON lib d s).language ∈ manifestLanguages) := by
  rw [stepPackageJSON_language]
  split_ifs with hc
  · right
    refine ⟨h ▸ hc.2, ?_⟩
    rcases parsePackageJSON_language lib d "package.json" with e | e <;> rw [e] <;> decide
  · exact Or.inl h

theorem scanManifests_language_cases (lib : Lib) (d : Dir) (f : String) :
    (scanManifests lib d f).language = toLower lib.unicodeLower (trimSpace f) ∨
      (toLower lib.unicodeLower (trimSpace f) = "" ∧
        (scanManifests lib d f).language ∈ manifestLanguages) := by
  simp only [scanManifests]
  apply stepManifest_language_inv _ _ _ _ _ _ _ _ (by decide)
  apply stepManifest_language_inv _ _ _ _ _ _ _ _ (by decide)
  apply stepManifest_language_inv _ _ _ _ _ _ _ _ (by decide)
  apply stepManifest_language_inv _ _ _ _ _ _ _ _ (by decide)
  apply stepManifest_language_inv _ _ _ _ _ _ _ _ (by decide)
  apply stepManifest_language_inv _ _ _ _ _ _ _ _ (by decide)
  apply stepPackageJSON_language_inv
  rfl

theorem stepLanguage_language_ne (s : Scan) : (stepLanguage s).language ≠ "" := by
  rw [stepLanguage_language]
  split_ifs with h <;> first | exact h | decide

theorem stepLanguage_language_mem (s : Scan)
    (h : s.language = "" ∨ s.language ∈ languageEnum) :
    (stepLanguage s).language ∈ languageEnum := by
  rw [stepLanguage_language]
  split_ifs with h1
  · decide
  · decide
  · decide
  · decide
  · rcases h with h | h
    · exact absurd h h1
    · exact h

/-! ### The dependency maps after the manifest blocks -/

theorem mapGet_stepManifest (d : Dir) (file lang dflt tag : String) (deps : GoMap String)
    (s : Scan) (t : String) :
    mapGet (stepManifest d file lang dflt tag deps s).allDeps t =
      if fileExists d file = true ∧ tag = t then some deps else mapGet s.allDeps t := by
  rw [stepManifest_allDeps]
  by_cases h1 : fileExists d file = true
  · by_cases h2 : tag = t
    · subst h2
      simp [h1, mapGet_mapSet_same]
    · simp [h1, h2, mapGet_mapSet_other _ _ _ _ h2]
  · simp [h1]

theorem mapGet_stepPackageJSON (lib : Lib) (d : Dir) (s : Scan) (t : String) :
    mapGet (stepPackageJSON lib d s).allDeps t =
      if fileExists d "package.json" = true ∧ "node" = t then
        some (parsePackageJSON lib d "package.json").deps
      else mapGet s.allDeps t := by
  rw [stepPackageJSON_allDeps]
  by_cases h1 : fileExists d "package.json" = true
  · by_cases h2 : "node" = t
    · subst h2
      simp [h1, mapGet_mapSet_same]
    · simp [h1, h2, mapGet_mapSet_other _ _ _ _ h2]
  · simp [h1]

theorem scanProject_allDeps_node (lib : Lib) (d : Dir) (f : String) :
    mapGet (scanProject lib d f).allDeps "node" =
      if fileExists d "package.json" = true then
        some (parsePackageJSON lib d "package.json").deps
      else none := by
  rw [scanProject_allDeps]
  simp [scanManifests, mapGet_stepManifest, mapGet_stepPackageJSON, mapGet]

theorem scanProject_allDeps_rust (lib : Lib) (d : Dir) (f : String) :
    mapGet (scanProject lib d f).allDeps "rust" =
      if fileExists d "Cargo.toml" = true then some (parseCargoDependencies d "Cargo.toml")
      else none := by
  rw [scanProject_allDeps]
  simp [scanManifests, mapGet_stepManifest, mapGet_stepPackageJSON, mapGet]

theorem scanProject_allDeps_python (lib : Lib) (d : Dir) (f : String) :
    mapGet (scanProject lib d f).allDeps "python" =
      if fileExists d "requirements.txt" = true then
        some (parseRequirementsTxt d "requirements.txt")
      else none := by
  rw [scanProject_allDeps]
  simp [scanManifests, mapGet_stepManifest, mapGet_stepPackageJSON, mapGet]

theorem scanProject_allDeps_ruby (lib : Lib) (d : Dir) (f : String) :
    mapGet (scanProject lib d f).allDeps "ruby" =
      if fileExists d "Gemfile" = true then some (parseGemfile d "Gemfile") else none := by
  rw [scanProject_allDeps]
  simp [scanManifests, mapGet_stepManifest, mapGet_stepPackageJSON, mapGet]

theorem scanProject_allDeps_go (lib : Lib) (d : Dir) (f : String) :
    mapGet (scanProject lib d f).allDeps "go" =
      if fileExists d "go.mod" = true then some (parseGoMod d "go.mod") else none := by
  rw [scanProject_allDeps]
  simp [scanManifests, mapGet_stepManifest, mapGet_stepPackageJSON, mapGet]

theorem scanProject_allDeps_php (lib : Lib) (d : Dir) (f : String) :
    mapGet (scanProject lib d f).allDeps "php" =
      if fileExists d "composer.json" = true then
        some (parseComposerJSON lib d "composer.json")
      else none := by
  rw [scanProject_allDeps]
  simp [scanManifests, mapGet_stepManifest, mapGet_stepPackageJSON, mapGet]

theorem scanProject_allDeps_swift (lib : Lib) (d : Dir) (f : String) :
    mapGet (scanProject lib d f).allDeps "swift" =
      if fileExists d "Podfile" = true then some (parsePodfile d "Podfile") else none := by
  rw [scanProject_allDeps]
  simp [scanManifests, mapGet_stepManifest, mapGet_stepPackageJSON, mapGet]

theorem scanProject_secrets_eq (lib : Lib) (d : Dir) (f : String) :
    (scanProject lib d f).secretsRuntime =
      (fileExists d "package.json" && (fileExists d ".env" ||
        hasAnyDep (parsePackageJSON lib d "package.json").deps ["tauri", "electron", "next"])) := by
  rw [scanProject_secrets]
  simp only [scanManifests, stepManifest_secrets, stepPackageJSON_secrets]
  cases fileExists d "package.json" <;> cases fileExists d ".env" <;>
    cases hasAnyDep (parsePackageJSON lib d "package.json").deps ["tauri", "electron", "next"] <;>
    simp

theorem norm_empty (u : Char → Char) : toLower u (trimSpace "") = "" := by
  rw [toLower_eq_empty]
  decide

theorem scanManifests_language_node (lib : Lib) (d : Dir)
    (hp : fileExists d "package.json" = true) :
    (scanManifests lib d "").language = (parsePackageJSON lib d "package.json").language := by
  have hne : (parsePackageJSON lib d "package.json").language ≠ "" := by
    rcases parsePackageJSON_language lib d "package.json" with e | e <;> rw [e] <;> decide
  simp [scanManifests, stepManifest_language, stepPackageJSON_language, norm_empty, hp, hne]

/-! ### Where the entrypoint comes from -/

theorem stepManifest_explicit (d : Dir) (file lang dflt tag : String) (deps : GoMap String)
    (s : Scan) :
    ((stepManifest d file lang dflt tag deps s).entry ≠ "" ∧
        (stepManifest d file lang dflt tag deps s).guessed = false) ↔
      (s.entry ≠ "" ∧ s.guessed = false) := by
  rw [stepManifest_entry, stepManifest_guessed]
  split_ifs with h
  · simp [h.2]
  · rfl

theorem stepManifest_entry_empty (d : Dir) (file lang dflt tag : String)
    (deps : GoMap String) (s : Scan) (hd : dflt ≠ "") :
    (stepManifest d file lang dflt tag deps s).entry = "" ↔
      (s.entry = "" ∧ fileExists d file = false) := by
  rw [stepManifest_entry]
  split_ifs with h
  · simp [hd, h.1]
  · by_cases he : s.entry = ""
    · simp only [he, true_and]
      cases hf : fileExists d file
      · simp
      · exact absurd ⟨hf, he⟩ h
    · simp [he]

theorem scanManifests_explicit (lib : Lib) (d : Dir) (f : String) :
    ((scanManifests lib d f).entry ≠ "" ∧ (scanManifests lib d f).guessed = false) ↔
      (fileExists d "package.json" = true ∧
        (parsePackageJSON lib d "package.json").entry ≠ "") := by
  simp only [scanManifests, stepManifest_explicit]
  rw [stepPackageJSON_entry, stepPackageJSON_guessed]
  by_cases h : fileExists d "package.json" = true <;> simp [h]

theorem scanManifests_entry_empty (lib : Lib) (d : Dir) (f : String) :
    (scanManifests lib d f).entry = "" ↔
      (¬ (fileExists d "package.json" = true ∧
          (parsePackageJSON lib d "package.json").entry ≠ "") ∧
        fileExists d "Cargo.toml" = false ∧ fileExists d "requirements.txt" = false ∧
        fileExists d "Gemfile" = false ∧ fileExists d "go.mod" = false ∧
        fileExists d "composer.json" = false ∧ fileExists d "Podfile" = false) := by
  simp only [scanManifests]
  rw [stepManifest_entry_empty _ _ _ _ _ _ _ (by decide),
    stepManifest_entry_empty _ _ _ _ _ _ _ (by decide),
    stepManifest_entry_empty _ _ _ _ _ _ _ (by decide),
    stepManifest_entry_empty _ _ _ _ _ _ _ (by decide),
    stepManifest_entry_empty _ _ _ _ _ _ _ (by decide),
    stepManifest_entry_empty _ _ _ _ _ _ _ (by decide),
    stepPackageJSON_entry]
  by_cases h : fileExists d "package.json" = true <;> simp [h] <;> tauto

theorem stepProcfile_explicit (d : Dir) (s : Scan) :
    ((stepProcfile d s).entry ≠ "" ∧ (stepProcfile d s).guessed = false) ↔
      ((s.entry ≠ "" ∧ s.guessed = false) ∨
        (s.entry = "" ∧ fileExists d "Procfile" = true ∧
          parseProcfileEntrypoint d "Procfile" ≠ "")) := by
  simp only [stepProcfile]
  split_ifs with h1 h2
  · simp [h1, h2.1, h2.2]
  · simp only [h1, true_and]
    constructor
    · exact fun h => Or.inl h
    · rintro (h | h)
      · exact h
      · exact absurd ⟨h.2, h.1⟩ h2
  · simp [h1]

theorem tail_guessed (d : Dir) (s : Scan) :
    (stepDefault (stepLanguage (stepCandidates d (stepConfig d s)))).guessed = false ↔
      (s.entry ≠ "" ∧ s.guessed = false) := by
  have hl := stepDefault_rest _ _ (stepLanguage_rest (stepCandidates d (stepConfig d s)))
  rw [Scan.rest_eq_iff] at hl
  rw [hl.2.1]
  simp only [stepDefault, stepCandidates, stepConfig]
  cases candidates.find? (fun c => fileExists d c) <;> split_ifs <;> simp_all

/-! ### The scan reads the directory only through its lookups -/

theorem fileExists_put (d : Dir) (p q : String) (e : Option Entry) :
    fileExists (d.put p e) q = if q = p then fileExists (fun _ => e) q else fileExists d q := by
  simp only [fileExists, Dir.put]
  split_ifs <;> rfl

theorem readFile_put (d : Dir) (p q : String) (e : Option Entry) :
    readFile (d.put p e) q = if q = p then readFile (fun _ => e) q else readFile d q := by
  simp only [readFile, Dir.put]
  split_ifs <;> rfl

theorem stepManifest_congr (d d' : Dir) (file lang dflt tag : String) (deps : GoMap String)
    (s : Scan) (h : fileExists d file = fileExists d' file) :
    stepManifest d file lang dflt tag deps s = stepManifest d' file lang dflt tag deps s := by
  simp only [stepManifest, h]

theorem stepPackageJSON_congr (lib : Lib) (d d' : Dir) (s : Scan)
    (h1 : fileExists d "package.json" = fileExists d' "package.json")
    (h2 : fileExists d ".env" = fileExists d' ".env")
    (h3 : parsePackageJSON lib d "package.json" = parsePackageJSON lib d' "package.json") :
    stepPackageJSON lib d s = stepPackageJSON lib d' s := by
  simp only [stepPackageJSON, h1, h2, h3]

theorem stepProcfile_congr (d d' : Dir) (s : Scan)
    (h1 : fileExists d "Procfile" = fileExists d' "Procfile")
    (h2 : parseProcfileEntrypoint d "Procfile" = parseProcfileEntrypoint d' "Procfile") :
    stepProcfile d s = stepProcfile d' s := by
  simp only [stepProcfile, h1, h2]

theorem stepConfig_congr (d d' : Dir) (s : Scan)
    (h1 : parseConfigEntrypoint d ".config.ts" = parseConfigEntrypoint d' ".config.ts")
    (h2 : parseConfigEntrypoint d ".config.toml" = parseConfigEntrypoint d' ".config.toml") :
    stepConfig d s = stepConfig d' s := by
  simp only [stepConfig, h1, h2]

theorem stepCandidates_congr (d d' : Dir) (s : Scan)
    (h : ∀ c ∈ candidates, fileExists d c = fileExists d' c) :
    stepCandidates d s = stepCandidates d' s := by
  have hf : candidates.find? (fun c => fileExists d c) =
      candidates.find? (fun c => fileExists d' c) := by
    generalize candidates = l at h
    induction l with
    | nil => rfl
    | cons c cs ih =>
      simp only [List.find?, h c (List.mem_cons_self _ _)]
      rw [ih (fun x hx => h x (List.mem_cons_of_mem _ hx))]
  simp only [stepCandidates, hf]

/-- Two directories in which every lookup of the scan has the same outcome
give the same scan. -/
theorem scanProject_congr (lib : Lib) (d d' : Dir) (f : String)
    (hx : ∀ p ∈ probedFiles, fileExists d p = fileExists d' p)
    (hnode : parsePackageJSON lib d "package.json" = parsePackageJSON lib d' "package.json")
    (hrust : parseCargoDependencies d "Cargo.toml" = parseCargoDependencies d' "Cargo.toml")
    (hpython : parseRequirementsTxt d "requirements.txt" =
      parseRequirementsTxt d' "requirements.txt")
    (hruby : parseGemfile d "Gemfile" = parseGemfile d' "Gemfile")
    (hgo : parseGoMod d "go.mod" = parseGoMod d' "go.mod")
    (hphp : parseComposerJSON lib d "composer.json" = parseComposerJSON lib d' "composer.json")
    (hswift : parsePodfile d "Podfile" = parsePodfile d' "Podfile")
    (hproc : parseProcfileEntrypoint d "Procfile" = parseProcfileEntrypoint d' "Procfile")
    (hts : parseConfigEntrypoint d ".config.ts" = parseConfigEntrypoint d' ".config.ts")
    (htoml : parseConfigEntrypoint d ".config.toml" = parseConfigEntrypoint d' ".config.toml") :
    scanProject lib d f = scanProject lib d' f := by
  have hm : scanManifests lib d f = scanManifests lib d' f := by
    simp only [scanManifests, hrust, hpython, hruby, hgo, hphp, hswift]
    rw [stepPackageJSON_congr lib d d' _ (hx _ (by decide)) (hx _ (by decide)) hnode,
      stepManifest_congr d d' "Cargo.toml" _ _ _ _ _ (hx _ (by decide)),
      stepManifest_congr d d' "requirements.txt" _ _ _ _ _ (hx _ (by decide)),
      stepManifest_congr d d' "Gemfile" _ _ _ _ _ (hx _ (by decide)),
      stepManifest_congr d d' "go.mod" _ _ _ _ _ (hx _ (by decide)),
      stepManifest_congr d d' "composer.json" _ _ _ _ _ (hx _ (by decide)),
      stepManifest_congr d d' "Podfile" _ _ _ _ _ (hx _ (by decide))]
  have hc : ∀ c ∈ candidates, fileExists d c = fileExists d' c := by
    intro c hc
    apply hx
    simp only [probedFiles, List.mem_append]
    exact Or.inr hc
  rw [scanProject, scanProject, scanEntry, scanEntry, hm,
    stepProcfile_congr d d' _ (hx _ (by decide)) hproc, stepConfig_congr d d' _ hts htoml,
    stepCandidates_congr d d' _ hc]

/-! ### Replacing one file of the directory -/

theorem fileExists_put_file (d : Dir) (p : String) (c : Option String)
    (h : fileExists d p = true) (q : String) :
    fileExists d q = fileExists (d.put p (some (Entry.file c))) q := by
  rw [fileExists_put]
  split_ifs with hq
  · rw [hq, h]
    rfl
  · rfl

theorem fileExists_put_ne (d : Dir) (p q : String) (e : Option Entry) (h : q ≠ p) :
    fileExists (d.put p e) q = fileExists d q := by
  rw [fileExists_put, if_neg h]

theorem readFile_put_ne (d : Dir) (p q : String) (e : Option Entry) (h : q ≠ p) :
    readFile (d.put p e) q = readFile d q := by
  rw [readFile_put, if_neg h]

theorem readFile_put_same (d : Dir) (p : String) (c : Option String) :
    readFile (d.put p (some (Entry.file c))) p = c := by
  rw [readFile_put, if_pos rfl]
  rfl

theorem parsePackageJSON_put_ne (lib : Lib) (d : Dir) (p : String) (e : Option Entry)
    (h1 : "package.json" ≠ p) (h2 : "tsconfig.json" ≠ p) :
    parsePackageJSON lib d "package.json" = parsePackageJSON lib (d.put p e) "package.json" := by
  simp only [parsePackageJSON, readFile_put_ne _ _ _ _ h1, fileExists_put_ne _ _ _ _ h2]

theorem parseCargoDependencies_put_ne (d : Dir) (p q : String) (e : Option Entry)
    (h : q ≠ p) : parseCargoDependencies d q = parseCargoDependencies (d.put p e) q := by
  simp only [parseCargoDependencies, readFile_put_ne _ _ _ _ h]

theorem parseRequirementsTxt_put_ne (d : Dir) (p q : String) (e : Option Entry)
    (h : q ≠ p) : parseRequirementsTxt d q = parseRequirementsTxt (d.put p e) q := by
  simp only [parseRequirementsTxt, readFile_put_ne _ _ _ _ h]

theorem parseGemfile_put_ne (d : Dir) (p q : String) (e : Option Entry)
    (h : q ≠ p) : parseGemfile d q = parseGemfile (d.put p e) q := by
  simp only [parseGemfile, readFile_put_ne _ _ _ _ h]

theorem parseGoMod_put_ne (d : Dir) (p q : String) (e : Option Entry)
    (h : q ≠ p) : parseGoMod d q = parseGoMod (d.put p e) q := by
  simp only [parseGoMod, readFile_put_ne _ _ _ _ h]

theorem parseComposerJSON_put_ne (lib : Lib) (d : Dir) (p q : String) (e : Option Entry)
    (h : q ≠ p) : parseComposerJSON lib d q = parseComposerJSON lib (d.put p e) q := by
  simp only [parseComposerJSON, readFile_put_ne _ _ _ _ h]

theorem parsePodfile_put_ne (d : Dir) (p q : String) (e : Option Entry)
    (h : q ≠ p) : parsePodfile d q = parsePodfile (d.put p e) q := by
  simp only [parsePodfile, readFile_put_ne _ _ _ _ h]

theorem parseProcfileEntrypoint_put_ne (d : Dir) (p q : String) (e : Option Entry)
    (h : q ≠ p) : parseProcfileEntrypoint d q = parseProcfileEntrypoint (d.put p e) q := by
  simp only [parseProcfileEntrypoint, readFile_put_ne _ _ _ _ h]

theorem parseConfigEntrypoint_put_ne (d : Dir) (p q : String) (e : Option Entry)
    (h : q ≠ p) : parseConfigEntrypoint d q = parseConfigEntrypoint (d.put p e) q := by
  simp only [parseConfigEntrypoint, readFile_put_ne _ _ _ _ h, fileExists_put_ne _ _ _ _ h]

/-- Replacing an existing `Cargo.toml` by a file from which the parser
extracts the same map does not change the scan. -/
theorem scanProject_put_cargo (lib : Lib) (d : Dir) (f : String) (c : Option String)
    (hex : fileExists d "Cargo.toml" = true)
    (hp : parseCargoDependencies d "Cargo.toml" =
      parseCargoDependencies (d.put "Cargo.toml" (some (Entry.file c))) "Cargo.toml") :
    scanProject lib d f = scanProject lib (d.put "Cargo.toml" (some (Entry.file c))) f :=
  scanProject_congr lib d _ f (fun q _ => fileExists_put_file d _ c hex q)
    (parsePackageJSON_put_ne lib d _ _ (by decide) (by decide)) hp
    (parseRequirementsTxt_put_ne d _ _ _ (by decide)) (parseGemfile_put_ne d _ _ _ (by decide))
    (parseGoMod_put_ne d _ _ _ (by decide)) (parseComposerJSON_put_ne lib d _ _ _ (by decide))
    (parsePodfile_put_ne d _ _ _ (by decide))
    (parseProcfileEntrypoint_put_ne d _ _ _ (by decide))
    (parseConfigEntrypoint_put_ne d _ _ _ (by decide))
    (parseConfigEntrypoint_put_ne d _ _ _ (by decide))

theorem scanProject_put_requirements (lib : Lib) (d : Dir) (f : String) (c : Option String)
    (hex : fileExists d "requirements.txt" = true)
    (hp : parseRequirementsTxt d "requirements.txt" =
      parseRequirementsTxt (d.put "requirements.txt" (some (Entry.file c)))
        "requirements.txt") :
    scanProject lib d f = scanProject lib (d.put "requirements.txt" (some (Entry.file c))) f :=
  scanProject_congr lib d _ f (fun q _ => fileExists_put_file d _ c hex q)
    (parsePackageJSON_put_ne lib d _ _ (by decide) (by decide))
    (parseCargoDependencies_put_ne d _ _ _ (by decide)) hp
    (parseGemfile_put_ne d _ _ _ (by decide))
    (parseGoMod_put_ne d _ _ _ (by decide)) (parseComposerJSON_put_ne lib d _ _ _ (by decide))
    (parsePodfile_put_ne d _ _ _ (by decide))
    (parseProcfileEntrypoint_put_ne d _ _ _ (by decide))
    (parseConfigEntrypoint_put_ne d _ _ _ (by decide))
    (parseConfigEntrypoint_put_ne d _ _ _ (by decide))

theorem scanProject_put_gemfile (lib : Lib) (d : Dir) (f : String) (c : Option String)
    (hex : fileExists d "Gemfile" = true)
    (hp : parseGemfile d "Gemfile" =
      parseGemfile (d.put "Gemfile" (some (Entry.file c))) "Gemfile") :
    scanProject lib d f = scanProject lib (d.put "Gemfile" (some (Entry.file c))) f :=
  scanProject_congr lib d _ f (fun q _ => fileExists_put_file d _ c hex q)
    (parsePackageJSON_put_ne lib d _ _ (by decide) (by decide))
    (parseCargoDependencies_put_ne d _ _ _ (by decide))
    (parseRequirementsTxt_put_ne d _ _ _ (by decide)) hp
    (parseGoMod_put_ne d _ _ _ (by decide)) (parseComposerJSON_put_ne lib d _ _ _ (by decide))
    (parsePodfile_put_ne d _ _ _ (by decide))
    (parseProcfileEntrypoint_put_ne d _ _ _ (by decide))
    (parseConfigEntrypoint_put_ne d _ _ _ (by decide))
    (parseConfigEntrypoint_put_ne d _ _ _ (by decide))

theorem scanProject_put_gomod (lib : Lib) (d : Dir) (f : String) (c : Option String)
    (hex : fileExists d "go.mod" = true)
    (hp : parseGoMod d "go.mod" = parseGoMod (d.put "go.mod" (some (Entry.file c))) "go.mod") :
    scanProject lib d f = scanProject lib (d.put "go.mod" (some (Entry.file c))) f :=
  scanProject_congr lib d _ f (fun q _ => fileExists_put_file d _ c hex q)
    (parsePackageJSON_put_ne lib d _ _ (by decide) (by decide))
    (parseCargoDependencies_put_ne d _ _ _ (by decide))
    (parseRequirementsTxt_put_ne d _ _ _ (by decide))
    (parseGemfile_put_ne d _ _ _ (by decide)) hp
    (parseComposerJSON_put_ne lib d _ _ _ (by decide))
    (parsePodfile_put_ne d _ _ _ (by decide))
    (parseProcfileEntrypoint_put_ne d _ _ _ (by decide))
    (parseConfigEntrypoint_put_ne d _ _ _ (by decide))
    (parseConfigEntrypoint_put_ne d _ _ _ (by decide))

theorem scanProject_put_composer (lib : Lib) (d : Dir) (f : String) (c : Option String)
    (hex : fileExists d "composer.json" = true)
    (hp : parseComposerJSON lib d "composer.json" =
      parseComposerJSON lib (d.put "composer.json" (some (Entry.file c))) "composer.json") :
    scanProject lib d f = scanProject lib (d.put "composer.json" (some (Entry.file c))) f :=
  scanProject_congr lib d _ f (fun q _ => fileExists_put_file d _ c hex q)
    (parsePackageJSON_put_ne lib d _ _ (by decide) (by decide))
    (parseCargoDependencies_put_ne d _ _ _ (by decide))
    (parseRequirementsTxt_put_ne d _ _ _ (by decide))
    (parseGemfile_put_ne d _ _ _ (by decide)) (parseGoMod_put_ne d _ _ _ (by decide)) hp
    (parsePodfile_put_ne d _ _ _ (by decide))
    (parseProcfileEntrypoint_put_ne d _ _ _ (by decide))
    (parseConfigEntrypoint_put_ne d _ _ _ (by decide))
    (parseConfigEntrypoint_put_ne d _ _ _ (by decide))

theorem scanProject_put_podfile (lib : Lib) (d : Dir) (f : String) (c : Option String)
    (hex : fileExists d "Podfile" = true)
    (hp : parsePodfile d "Podfile" =
      parsePodfile (d.put "Podfile" (some (Entry.file c))) "Podfile") :
    scanProject lib d f = scanProject lib (d.put "Podfile" (some (Entry.file c))) f :=
  scanProject_congr lib d _ f (fun q _ => fileExists_put_file d _ c hex q)
    (parsePackageJSON_put_ne lib d _ _ (by decide) (by decide))
    (parseCargoDependencies_put_ne d _ _ _ (by decide))
    (parseRequirementsTxt_put_ne d _ _ _ (by decide))
    (parseGemfile_put_ne d _ _ _ (by decide)) (parseGoMod_put_ne d _ _ _ (by decide))
    (parseComposerJSON_put_ne lib d _ _ _ (by decide)) hp
    (parseProcfileEntrypoint_put_ne d _ _ _ (by decide))
    (parseConfigEntrypoint_put_ne d _ _ _ (by decide))
    (parseConfigEntrypoint_put_ne d _ _ _ (by decide))

/-! ### The entrypoint and its flag depend on nothing else -/

theorem stepManifest_origin (d d' : Dir) (file lang lang' dflt tag tag' : String)
    (deps deps' : GoMap String) (s t : Scan) (hf : fileExists d file = fileExists d' file)
    (h : s.entry = t.entry ∧ s.guessed = t.guessed) :
    (stepManifest d file lang dflt tag deps s).entry =
        (stepManifest d' file lang' dflt tag' deps' t).entry ∧
      (stepManifest d file lang dflt tag deps s).guessed =
        (stepManifest d' file lang' dflt tag' deps' t).guessed := by
  simp only [stepManifest_entry, stepManifest_guessed, hf, h.1, h.2, and_self]

theorem stepProcfile_origin (d : Dir) (s t : Scan)
    (h : s.entry = t.entry ∧ s.guessed = t.guessed) :
    (stepProcfile d s).entry = (stepProcfile d t).entry ∧
      (stepProcfile d s).guessed = (stepProcfile d t).guessed := by
  obtain ⟨h1, h2⟩ := h
  simp only [stepProcfile]
  split_ifs <;> simp_all

theorem stepConfig_origin (d : Dir) (s t : Scan)
    (h : s.entry = t.entry ∧ s.guessed = t.guessed) :
    (stepConfig d s).entry = (stepConfig d t).entry ∧
      (stepConfig d s).guessed = (stepConfig d t).guessed := by
  obtain ⟨h1, h2⟩ := h
  simp only [stepConfig]
  split_ifs <;> simp_all

theorem stepCandidates_origin (d : Dir) (s t : Scan)
    (h : s.entry = t.entry ∧ s.guessed = t.guessed) :
    (stepCandidates d s).entry = (stepCandidates d t).entry ∧
      (stepCandidates d s).guessed = (stepCandidates d t).guessed := by
  obtain ⟨h1, h2⟩ := h
  simp only [stepCandidates]
  cases candidates.find? (fun c => fileExists d c) <;> split_ifs <;> simp_all

theorem stepLanguage_origin (s : Scan) :
    (stepLanguage s).entry = s.entry ∧ (stepLanguage s).guessed = s.guessed := by
  have h := stepLanguage_rest s
  rw [Scan.rest_eq_iff] at h
  exact ⟨h.1, h.2.1⟩

theorem stepDefault_origin (s t : Scan) (h : s.entry = t.entry ∧ s.guessed = t.guessed) :
    (stepDefault s).entry = (stepDefault t).entry ∧
      (stepDefault s).guessed = (stepDefault t).guessed := by
  obtain ⟨h1, h2⟩ := h
  simp only [stepDefault]
  split_ifs <;> simp_all

/-- The scan after the manifests, continued in another directory that gives
the same answers about the `Procfile`, the config files and the candidates. -/
theorem tail_origin (d d' : Dir) (s t : Scan)
    (hx : ∀ p ∈ probedFiles, p ≠ "package.json" → fileExists d p = fileExists d' p)
    (hproc : parseProcfileEntrypoint d "Procfile" = parseProcfileEntrypoint d' "Procfile")
    (hts : parseConfigEntrypoint d ".config.ts" = parseConfigEntrypoint d' ".config.ts")
    (htoml : parseConfigEntrypoint d ".config.toml" = parseConfigEntrypoint d' ".config.toml")
    (h : s.entry = t.entry ∧ s.guessed = t.guessed) :
    (stepDefault (stepLanguage (scanEntry d s))).entry =
        (stepDefault (stepLanguage (scanEntry d' t))).entry ∧
      (stepDefault (stepLanguage (scanEntry d s))).guessed =
        (stepDefault (stepLanguage (scanEntry d' t))).guessed := by
  have hc : ∀ c ∈ candidates, fileExists d c = fileExists d' c := by
    intro c hc
    refine hx c ?_ ?_
    · simp only [probedFiles, List.mem_append]
      exact Or.inr hc
    · intro e
      rw [e] at hc
      revert hc
      decide
  rw [scanEntry, scanEntry, stepProcfile_congr d d' _ (hx _ (by decide) (by decide)) hproc,
    stepConfig_congr d d' _ hts htoml, stepCandidates_congr d d' _ hc]
  apply stepDefault_origin
  rw [(stepLanguage_origin _).1, (stepLanguage_origin _).2, (stepLanguage_origin _).1,
    (stepLanguage_origin _).2]
  apply stepCandidates_origin
  apply stepConfig_origin
  apply stepProcfile_origin
  exact h

/-- A `package.json` that yields no entrypoint leaves the entrypoint and the
guessed flag as they are without the file. -/
theorem scanProject_origin_without_package (lib : Lib) (d : Dir) (f : String)
    (he : (parsePackageJSON lib d "package.json").entry = "") :
    (scanProject lib d f).entry = (scanProject lib (d.put "package.json" none) f).entry ∧
      (scanProject lib d f).guessed =
        (scanProject lib (d.put "package.json" none) f).guessed := by
  rw [scanProject, scanProject]
  apply tail_origin
  · intro p _ hne
    rw [fileExists_put_ne _ _ _ _ hne]
  · exact parseProcfileEntrypoint_put_ne d _ _ _ (by decide)
  · exact parseConfigEntrypoint_put_ne d _ _ _ (by decide)
  · exact parseConfigEntrypoint_put_ne d _ _ _ (by decide)
  · simp only [scanManifests]
    apply stepManifest_origin _ _ _ _ _ _ _ _ _ _ _ _
      (fileExists_put_ne _ _ _ _ (by decide)).symm
    apply stepManifest_origin _ _ _ _ _ _ _ _ _ _ _ _
      (fileExists_put_ne _ _ _ _ (by decide)).symm
    apply stepManifest_origin _ _ _ _ _ _ _ _ _ _ _ _
      (fileExists_put_ne _ _ _ _ (by decide)).symm
    apply stepManifest_origin _ _ _ _ _ _ _ _ _ _ _ _
      (fileExists_put_ne _ _ _ _ (by decide)).symm
    apply stepManifest_origin _ _ _ _ _ _ _ _ _ _ _ _
      (fileExists_put_ne _ _ _ _ (by decide)).symm
    apply stepManifest_origin _ _ _ _ _ _ _ _ _ _ _ _
      (fileExists_put_ne _ _ _ _ (by decide)).symm
    rw [stepPackageJSON_entry, stepPackageJSON_guessed, stepPackageJSON_entry,
      stepPackageJSON_guessed, he]
    have hno : fileExists (d.put "package.json" none) "package.json" = false := by
      rw [fileExists_put, if_pos rfl]
      rfl
    simp [hno]

theorem scanManifests_language_unforced (lib : Lib) (d : Dir) (f : String)
    (hf : toLower lib.unicodeLower (trimSpace f) = "")
    (hp : fileExists d "package.json" = true) :
    (scanManifests lib d f).language = (parsePackageJSON lib d "package.json").language := by
  have hne : (parsePackageJSON lib d "package.json").language ≠ "" := by
    rcases parsePackageJSON_language lib d "package.json" with e | e <;> rw [e] <;> decide
  simp [scanManifests, stepManifest_language, stepPackageJSON_language, hf, hp, hne]

theorem scanProject_language_unforced (lib : Lib) (d : Dir) (f : String)
    (hf : toLower lib.unicodeLower (trimSpace f) = "")
    (hp : fileExists d "package.json" = true) :
    (scanProject lib d f).language = (parsePackageJSON lib d "package.json").language := by
  have hne : (parsePackageJSON lib d "package.json").language ≠ "" := by
    rcases parsePackageJSON_language lib d "package.json" with e | e <;> rw [e] <;> decide
  rw [scanProject_language, stepLanguage_language, (scanEntry_frame d _).1,
    scanManifests_language_unforced lib d f hf hp, if_neg hne]

/-- What `parsePackageJSON` returns for a file that cannot be read or is not
valid JSON. -/
theorem parsePackageJSON_failed (lib : Lib) (d : Dir) (path : String)
    (h : (readFile d path).bind lib.unmarshalPackage = none) :
    parsePackageJSON lib d path =
      { language :=
          if (readFile d path).isSome = true ∧ fileExists d "tsconfig.json" = true then "ts"
          else "js",
        entry := "", deps := [] } := by
  simp only [parsePackageJSON]
  cases hr : readFile d path with
  | none => simp
  | some data =>
    rw [hr] at h
    simp only [Option.some_bind] at h
    simp [h, copyInto, copyMissing]

theorem parseComposerJSON_failed (lib : Lib) (d : Dir) (path : String)
    (h : (readFile d path).bind lib.unmarshalComposer = none) :
    parseComposerJSON lib d path = [] := by
  simp only [parseComposerJSON]
  cases hr : readFile d path with
  | none => rfl
  | some data =>
    rw [hr] at h
    simp only [Option.some_bind] at h
    simp [h, copyInto]

/-! ## The claims about `scanProject` -/

/-- C1: for every directory and every forced language, the entrypoint that
`scanProject` returns is a non-empty string. -/
theorem scanProject_entry_nonempty (lib : Lib) (d : Dir) (forcedLang : String) :
    (scanProject lib d forcedLang).entry ≠ "" :=
  stepDefault_entry_ne _

/-- C2, as stated, fails: a forced language outside the enum is returned as
it is (the empty directory with forced language `cobol`). -/
theorem scanProject_language_outside_enum :
    (scanProject sampleLib emptyDir "cobol").language = "cobol" ∧
      (scanProject sampleLib emptyDir "cobol").language ∉ languageEnum := by
  decide

/-- C2, amended: the language that `scanProject` returns is never empty, and
it is one of the enum values whenever the forced language, trimmed and
lower-cased, is empty or is itself one of the enum values. -/
theorem scanProject_language_enum (lib : Lib) (d : Dir) (forcedLang : String) :
    (scanProject lib d forcedLang).language ≠ "" ∧
      (toLower lib.unicodeLower (trimSpace forcedLang) = "" ∨
          toLower lib.unicodeLower (trimSpace forcedLang) ∈ languageEnum →
        (scanProject lib d forcedLang).language ∈ languageEnum) := by
  rw [scanProject_language]
  refine ⟨stepLanguage_language_ne _, fun h => ?_⟩
  apply stepLanguage_language_mem
  rw [(scanEntry_frame d _).1]
  rcases scanManifests_language_cases lib d forcedLang with h1 | ⟨_, h1⟩
  · rw [h1]
    exact h
  · right
    revert h1
    generalize (scanManifests lib d forcedLang).language = l
    intro h1
    simp only [manifestLanguages, List.mem_cons, List.mem_singleton, List.not_mem_nil,
      or_false] at h1
    simp only [languageEnum, List.mem_cons, List.mem_singleton, List.not_mem_nil, or_false]
    tauto

/-- Witness of C2 amended: a forced language of the enum, in another letter case. -/
theorem scanProject_language_enum_witness :
    (scanProject sampleLib dirNodeRust " PyThon").language ∈ languageEnum :=
  (scanProject_language_enum sampleLib dirNodeRust " PyThon").2 (by decide)

/-- C3: when the forced language is non-empty after trimming, `scanProject`
returns it, trimmed and lower-cased, whatever the directory contains. -/
theorem scanProject_language_forced (lib : Lib) (d : Dir) (forcedLang : String)
    (h : trimSpace forcedLang ≠ "") :
    (scanProject lib d forcedLang).language =
      toLower lib.unicodeLower (trimSpace forcedLang) := by
  have h0 : toLower lib.unicodeLower (trimSpace forcedLang) ≠ "" :=
    fun e => h ((toLower_eq_empty _ _).1 e)
  rw [scanProject_language, stepLanguage_language, (scanEntry_frame d _).1,
    scanManifests_language_forced lib d forcedLang h0, if_neg h0]

/-- Witness of C3: a directory with a Node and a Rust manifest, language
forced to `PyThon` with surrounding blanks. -/
theorem scanProject_language_forced_witness :
    trimSpace " PyThon " ≠ "" ∧
      (scanProject sampleLib dirNodeRust " PyThon ").language =
        toLower sampleLib.unicodeLower (trimSpace " PyThon ") :=
  ⟨by decide, scanProject_language_forced sampleLib dirNodeRust " PyThon " (by decide)⟩

/-- C4: for every directory and any two forced languages, `scanProject`
returns the same entrypoint, guessed flag, dependency maps and secrets flag. -/
theorem scanProject_forced_changes_language_only (lib : Lib) (d : Dir)
    (forcedA forcedB : String) :
    (scanProject lib d forcedA).entry = (scanProject lib d forcedB).entry ∧
      (scanProject lib d forcedA).guessed = (scanProject lib d forcedB).guessed ∧
      (scanProject lib d forcedA).allDeps = (scanProject lib d forcedB).allDeps ∧
      (scanProject lib d forcedA).secretsRuntime =
        (scanProject lib d forcedB).secretsRuntime :=
  (Scan.rest_eq_iff _ _).1 (scanProject_rest lib d forcedA forcedB)

/-- C5: in a directory with both `package.json` and `Cargo.toml` and an empty
forced language, the language is the hint of the Node parser (`js` or `ts`,
never `rust`), and both the Node and the Rust dependency maps are in the
result, as their parsers return them. -/
theorem scanProject_node_before_rust (lib : Lib) (d : Dir)
    (hp : fileExists d "package.json" = true) (hc : fileExists d "Cargo.toml" = true) :
    (scanProject lib d "").language = (parsePackageJSON lib d "package.json").language ∧
      ((scanProject lib d "").language = "js" ∨ (scanProject lib d "").language = "ts") ∧
      (scanProject lib d "").language ≠ "rust" ∧
      mapGet (scanProject lib d "").allDeps "node" =
        some (parsePackageJSON lib d "package.json").deps ∧
      mapGet (scanProject lib d "").allDeps "rust" =
        some (parseCargoDependencies d "Cargo.toml") := by
  have hl : (scanProject lib d "").language =
      (parsePackageJSON lib d "package.json").language := by
    have hne : (parsePackageJSON lib d "package.json").language ≠ "" := by
      rcases parsePackageJSON_language lib d "package.json" with e | e <;> rw [e] <;> decide
    rw [scanProject_language, stepLanguage_language, (scanEntry_frame d _).1,
      scanManifests_language_node lib d hp, if_neg hne]
  refine ⟨hl, ?_, ?_, ?_, ?_⟩
  · rw [hl]
    exact parsePackageJSON_language lib d "package.json"
  · rw [hl]
    rcases parsePackageJSON_language lib d "package.json" with e | e <;> rw [e] <;> decide
  · rw [scanProject_allDeps_node, if_pos hp]
  · rw [scanProject_allDeps_rust, if_pos hc]

/-- Witness of C5: the sample directory with a Node and a Rust manifest. -/
theorem scanProject_node_before_rust_witness :
    (scanProject sampleLib dirNodeRust "").language = "js" ∧
      mapGet (scanProject sampleLib dirNodeRust "").allDeps "node" =
        some [("serde", "0.1.0"), ("next", "14.0.0")] ∧
      mapGet (scanProject sampleLib dirNodeRust "").allDeps "rust" = some [("serde", "1.0")] := by
  have h := scanProject_node_before_rust sampleLib dirNodeRust (by decide) (by decide)
  refine ⟨h.1.trans (by decide), h.2.2.2.1.trans (by decide), h.2.2.2.2.trans (by decide)⟩

/-- C6: for each ecosystem tag whose manifest file is present, the map stored
under the tag is the one its own parser returns for its own file, whatever
other manifests are present. -/
theorem scanProject_deps_per_ecosystem (lib : Lib) (d : Dir) (forcedLang : String) :
    (fileExists d "package.json" = true →
        mapGet (scanProject lib d forcedLang).allDeps "node" =
          some (parsePackageJSON lib d "package.json").deps) ∧
      (fileExists d "Cargo.toml" = true →
        mapGet (scanProject lib d forcedLang).allDeps "rust" =
          some (parseCargoDependencies d "Cargo.toml")) ∧
      (fileExists d "requirements.txt" = true →
        mapGet (scanProject lib d forcedLang).allDeps "python" =
          some (parseRequirementsTxt d "requirements.txt")) ∧
      (fileExists d "Gemfile" = true →
        mapGet (scanProject lib d forcedLang).allDeps "ruby" =
          some (parseGemfile d "Gemfile")) ∧
      (fileExists d "go.mod" = true →
        mapGet (scanProject lib d forcedLang).allDeps "go" = some (parseGoMod d "go.mod")) ∧
      (fileExists d "composer.json" = true →
        mapGet (scanProject lib d forcedLang).allDeps "php" =
          some (parseComposerJSON lib d "composer.json")) ∧
      (fileExists d "Podfile" = true →
        mapGet (scanProject lib d forcedLang).allDeps "swift" =
          some (parsePodfile d "Podfile")) := by
  refine ⟨fun h => ?_, fun h => ?_, fun h => ?_, fun h => ?_, fun h => ?_, fun h => ?_,
    fun h => ?_⟩
  · rw [scanProject_allDeps_node, if_pos h]
  · rw [scanProject_allDeps_rust, if_pos h]
  · rw [scanProject_allDeps_python, if_pos h]
  · rw [scanProject_allDeps_ruby, if_pos h]
  · rw [scanProject_allDeps_go, if_pos h]
  · rw [scanProject_allDeps_php, if_pos h]
  · rw [scanProject_allDeps_swift, if_pos h]

/-- Witness of C6: the Node and the Rust manifest both declare `serde`, and
each tag keeps its own version. -/
theorem scanProject_deps_per_ecosystem_witness :
    (mapGet (scanProject sampleLib dirNodeRust "").allDeps "node").bind
        (fun m => mapGet m "serde") = some "0.1.0" ∧
      (mapGet (scanProject sampleLib dirNodeRust "").allDeps "rust").bind
        (fun m => mapGet m "serde") = some "1.0" := by
  have h := scanProject_deps_per_ecosystem sampleLib dirNodeRust ""
  rw [h.1 (by decide), h.2.1 (by decide)]
  decide

/-- C8, as stated, fails: a directory that contains `.env` and no
`package.json` gets `secretsRuntime = false`. -/
theorem scanProject_env_without_package :
    fileExists dirEnvOnly ".env" = true ∧
      (scanProject sampleLib dirEnvOnly "").secretsRuntime = false := by
  decide

/-- C8, amended: `secretsRuntime` is true for every directory that contains
`package.json` and `.env`, and for every directory whose Node dependency map
contains `tauri`, `electron` or `next`. -/
theorem scanProject_secrets_sufficient (lib : Lib) (d : Dir) (forcedLang : String) :
    (fileExists d "package.json" = true → fileExists d ".env" = true →
        (scanProject lib d forcedLang).secretsRuntime = true) ∧
      (∀ m, mapGet (scanProject lib d forcedLang).allDeps "node" = some m →
        hasAnyDep m ["tauri", "electron", "next"] = true →
        (scanProject lib d forcedLang).secretsRuntime = true) := by
  constructor
  · intro hp he
    rw [scanProject_secrets_eq, hp, he]
    rfl
  · intro m hm hd
    rw [scanProject_allDeps_node] at hm
    by_cases hp : fileExists d "package.json" = true
    · rw [if_pos hp] at hm
      cases hm
      rw [scanProject_secrets_eq, hp, hd]
      simp
    · rw [if_neg hp] at hm
      cases hm

/-- Witness of C8 amended: the sample Node manifest depends on `next`. -/
theorem scanProject_secrets_sufficient_witness :
    (scanProject sampleLib dirNodeRust "").secretsRuntime = true :=
  (scanProject_secrets_sufficient sampleLib dirNodeRust "").2
    [("serde", "0.1.0"), ("next", "14.0.0")] (by decide) (by decide)

/-- C10: for a directory with none of the files the resolver looks for and an
empty forced language, `scanProject` returns language `js`, entrypoint
`src/main.tsx`, guessed, no dependency maps and no secrets. -/
theorem scanProject_empty_directory (lib : Lib) (d : Dir)
    (h : ∀ p ∈ probedFiles, fileExists d p = false) :
    scanProject lib d "" =
      { language := "js", entry := "src/main.tsx", guessed := true, allDeps := [],
        secretsRuntime := false } := by
  simp only [probedFiles, candidates, List.cons_append, List.nil_append, List.forall_mem_cons,
    List.not_mem_nil, false_implies, implies_true, and_true] at h
  obtain ⟨h1, h2, h3, h4, h5, h6, h7, h8, h9, h10, h11, h12, c1, c2, c3, c4, c5, c6, c7, c8⟩ := h
  have hm : scanManifests lib d "" =
      { language := "", entry := "", guessed := false, allDeps := [],
        secretsRuntime := false } := by
    simp [scanManifests, stepPackageJSON, stepManifest, h1, h4, h5, h6, h7, h8, h9, norm_empty]
  have he : scanEntry d (scanManifests lib d "") = scanManifests lib d "" := by
    rw [hm]
    simp [scanEntry, stepProcfile, stepConfig, stepCandidates, parseConfigEntrypoint,
      candidates, h10, h11, h12, c1, c2, c3, c4, c5, c6, c7, c8]
  rw [scanProject, he, hm]
  decide

/-- Witness of C10: the empty directory. -/
theorem scanProject_empty_directory_witness :
    scanProject sampleLib emptyDir "" =
      { language := "js", entry := "src/main.tsx", guessed := true, allDeps := [],
        secretsRuntime := false } :=
  scanProject_empty_directory sampleLib emptyDir (by decide)

/-- C9, as stated, fails: a directory with a `Cargo.toml` and a `Procfile`
that names an entrypoint contains an explicit declaration, and yet the
default entrypoint of the Rust manifest is kept and flagged as guessed. -/
theorem scanProject_guessed_despite_procfile :
    parseProcfileEntrypoint dirRustProcfile "Procfile" = "src/index.js" ∧
      (scanProject sampleLib dirRustProcfile "").entry = "src/main.rs" ∧
      (scanProject sampleLib dirRustProcfile "").guessed = true := by
  decide

/-- C9, amended: the guessed flag is false exactly when the entrypoint was
adopted from an explicit declaration, namely from `package.json` (a non-empty
`main` or `module`), or from the `Procfile` when `package.json` gives none and
none of the six other manifests is present; in every other case it is true. -/
theorem scanProject_guessed_iff (lib : Lib) (d : Dir) (forcedLang : String) :
    (scanProject lib d forcedLang).guessed = false ↔
      ((fileExists d "package.json" = true ∧
          (parsePackageJSON lib d "package.json").entry ≠ "") ∨
        ((¬ (fileExists d "package.json" = true ∧
              (parsePackageJSON lib d "package.json").entry ≠ "") ∧
            fileExists d "Cargo.toml" = false ∧ fileExists d "requirements.txt" = false ∧
            fileExists d "Gemfile" = false ∧ fileExists d "go.mod" = false ∧
            fileExists d "composer.json" = false ∧ fileExists d "Podfile" = false) ∧
          fileExists d "Procfile" = true ∧ parseProcfileEntrypoint d "Procfile" ≠ "")) := by
  rw [scanProject, scanEntry, tail_guessed, stepProcfile_explicit, scanManifests_explicit,
    scanManifests_entry_empty]

/-- C7, as stated, fails: a `Cargo.toml` that exists and cannot be read still
makes the language `rust` and the entrypoint `src/main.rs`, which the same
directory without the file does not get. -/
theorem scanProject_unreadable_manifest_counts :
    fileExists dirUnreadableCargo "Cargo.toml" = true ∧
      readFile dirUnreadableCargo "Cargo.toml" = none ∧
      (scanProject sampleLib dirUnreadableCargo "").language = "rust" ∧
      (scanProject sampleLib (dirUnreadableCargo.put "Cargo.toml" none) "").language = "js" ∧
      (scanProject sampleLib dirUnreadableCargo "").entry = "src/main.rs" ∧
      (scanProject sampleLib (dirUnreadableCargo.put "Cargo.toml" none) "").entry =
        "src/main.tsx" := by
  decide

/-- C7, amended: a manifest that exists but cannot be read (or, for the two
JSON manifests, is not valid JSON) gets an empty dependency map under its
tag, and its presence still counts.  A failing `package.json` gives no
entrypoint, so entrypoint and guessed flag are those of the directory without
it, but it still gives the language hint `js` (`ts` when it can be read and
`tsconfig.json` exists).  For each other manifest the whole result is the one
of the same directory with that file readable and declaring nothing. -/
theorem scanProject_failed_manifest (lib : Lib) (d : Dir) (forcedLang : String) :
    (fileExists d "package.json" = true →
      (readFile d "package.json").bind lib.unmarshalPackage = none →
        mapGet (scanProject lib d forcedLang).allDeps "node" = some [] ∧
        (scanProject lib d forcedLang).entry =
          (scanProject lib (d.put "package.json" none) forcedLang).entry ∧
        (scanProject lib d forcedLang).guessed =
          (scanProject lib (d.put "package.json" none) forcedLang).guessed ∧
        (toLower lib.unicodeLower (trimSpace forcedLang) = "" →
          (scanProject lib d forcedLang).language =
            if (readFile d "package.json").isSome = true ∧
                fileExists d "tsconfig.json" = true then "ts"
            else "js")) ∧
      (∀ m ∈ lineManifests, fileExists d m.1 = true → readFile d m.1 = none →
        mapGet (scanProject lib d forcedLang).allDeps m.2 = some [] ∧
        scanProject lib d forcedLang =
          scanProject lib (d.put m.1 (some (readable ""))) forcedLang) ∧
      (fileExists d "composer.json" = true →
        (readFile d "composer.json").bind lib.unmarshalComposer = none →
          mapGet (scanProject lib d forcedLang).allDeps "php" = some [] ∧
          ∀ data, ((lib.unmarshalComposer data).getD { Require := [] }).Require = [] →
            scanProject lib d forcedLang =
              scanProject lib (d.put "composer.json" (some (readable data))) forcedLang) := by
  refine ⟨fun hex hr => ?_, ?_, fun hex hr => ?_⟩
  · have hp := parsePackageJSON_failed lib d "package.json" hr
    refine ⟨?_, ?_, ?_, fun hf => ?_⟩
    · rw [scanProject_allDeps_node, if_pos hex, hp]
    · exact (scanProject_origin_without_package lib d forcedLang (by rw [hp])).1
    · exact (scanProject_origin_without_package lib d forcedLang (by rw [hp])).2
    · rw [scanProject_language_unforced lib d forcedLang hf hex, hp]
  · simp only [lineManifests, List.forall_mem_cons, List.not_mem_nil, false_implies,
      implies_true, and_true]
    refine ⟨fun hex hr => ?_, fun hex hr => ?_, fun hex hr => ?_, fun hex hr => ?_,
      fun hex hr => ?_⟩
    · have hp : parseCargoDependencies d "Cargo.toml" = [] := by
        simp only [parseCargoDependencies, hr]
      refine ⟨by rw [scanProject_allDeps_rust, if_pos hex, hp], ?_⟩
      apply scanProject_put_cargo lib d forcedLang (some "") hex
      rw [hp]
      simp only [parseCargoDependencies, readFile_put_same]
      decide
    · have hp : parseRequirementsTxt d "requirements.txt" = [] := by
        simp only [parseRequirementsTxt, hr]
      refine ⟨by rw [scanProject_allDeps_python, if_pos hex, hp], ?_⟩
      apply scanProject_put_requirements lib d forcedLang (some "") hex
      rw [hp]
      simp only [parseRequirementsTxt, readFile_put_same]
      decide
    · have hp : parseGemfile d "Gemfile" = [] := by
        simp only [parseGemfile, hr]
      refine ⟨by rw [scanProject_allDeps_ruby, if_pos hex, hp], ?_⟩
      apply scanProject_put_gemfile lib d forcedLang (some "") hex
      rw [hp]
      simp only [parseGemfile, readFile_put_same]
      decide
    · have hp : parseGoMod d "go.mod" = [] := by
        simp only [parseGoMod, hr]
      refine ⟨by rw [scanProject_allDeps_go, if_pos hex, hp], ?_⟩
      apply scanProject_put_gomod lib d forcedLang (some "") hex
      rw [hp]
      simp only [parseGoMod, readFile_put_same]
      decide
    · have hp : parsePodfile d "Podfile" = [] := by
        simp only [parsePodfile, hr]
      refine ⟨by rw [scanProject_allDeps_swift, if_pos hex, hp], ?_⟩
      apply scanProject_put_podfile lib d forcedLang (some "") hex
      rw [hp]
      simp only [parsePodfile, readFile_put_same]
      decide
  · have hp := parseComposerJSON_failed lib d "composer.json" hr
    refine ⟨by rw [scanProject_allDeps_php, if_pos hex, hp], fun data hd => ?_⟩
    apply scanProject_put_composer lib d forcedLang (some data) hex
    rw [hp]
    simp only [parseComposerJSON, readFile_put_same, hd]
    rfl

/-- Witness of C7 amended: the directory whose `Cargo.toml` cannot be read
scans like the one whose `Cargo.toml` is empty. -/
theorem scanProject_failed_manifest_witness :
    mapGet (scanProject sampleLib dirUnreadableCargo "").allDeps "rust" = some [] ∧
      scanProject sampleLib dirUnreadableCargo "" =
        scanProject sampleLib (dirUnreadableCargo.put "Cargo.toml" (some (readable ""))) "" :=
  (scanProject_failed_manifest sampleLib dirUnreadableCargo "").2.1 ("Cargo.toml", "rust")
    (by decide) (by decide) (by decide)

/-! ## The claims about `parsePackageJSON` -/

theorem mapGet_copyInto (m acc : GoMap String) (k : String)
    (h : (m.map Prod.fst).Nodup) :
    mapGet (copyInto acc m) k = (mapGet m k).orElse (fun _ => mapGet acc k) := by
  induction m generalizing acc with
  | nil => rfl
  | cons e rest ih =>
    obtain ⟨k1, v1⟩ := e
    simp only [List.map_cons, List.nodup_cons] at h
    have hstep : copyInto acc ((k1, v1) :: rest) = copyInto (mapSet acc k1 v1) rest := rfl
    rw [hstep, ih _ h.2]
    by_cases hk : k1 = k
    · subst hk
      have hnone : mapGet rest k1 = none := by
        have hnot := h.1
        clear ih hstep h
        induction rest with
        | nil => rfl
        | cons e2 r2 ih2 =>
          obtain ⟨k2, v2⟩ := e2
          simp only [List.map_cons, List.mem_cons, not_or] at hnot
          simp only [mapGet, if_neg (Ne.symm hnot.1)]
          exact ih2 hnot.2
      simp [mapGet, hnone, mapGet_mapSet_same]
    · simp [mapGet, hk, mapGet_mapSet_other _ _ _ _ hk]

theorem mapGet_copyMissing (m acc : GoMap String) (k : String) :
    mapGet (copyMissing acc m) k = (mapGet acc k).orElse (fun _ => mapGet m k) := by
  induction m generalizing acc with
  | nil =>
    show mapGet acc k = (mapGet acc k).orElse (fun _ => mapGet [] k)
    cases mapGet acc k <;> rfl
  | cons e rest ih =>
    obtain ⟨k1, v1⟩ := e
    have hstep : copyMissing acc ((k1, v1) :: rest) =
        copyMissing (if mapHas acc k1 = true then acc else mapSet acc k1 v1) rest := rfl
    rw [hstep, ih]
    by_cases hh : mapHas acc k1 = true
    · rw [if_pos hh]
      by_cases hk : k1 = k
      · subst hk
        simp only [mapHas, Option.isSome_iff_exists] at hh
        obtain ⟨v, hv⟩ := hh
        simp [hv]
      · simp [mapGet, hk]
    · rw [if_neg hh]
      by_cases hk : k1 = k
      · subst hk
        have hn : mapGet acc k1 = none := by
          simpa [mapHas] using hh
        simp [mapGet, hn, mapGet_mapSet_same]
      · simp [mapGet, hk, mapGet_mapSet_other _ _ _ _ hk]

/-- C12: for a `package.json` that is read and decoded, with dependencies `D`
and devDependencies `V`, the map returned by `parsePackageJSON` gives every
name of `D` its value in `D`, every name only in `V` its value in `V`, and has
no other name. -/
theorem parsePackageJSON_deps_union (lib : Lib) (d : Dir) (path data : String)
    (pkg : PackageJSON) (hr : readFile d path = some data)
    (hu : lib.unmarshalPackage data = some pkg)
    (hD : (pkg.Dependencies.map Prod.fst).Nodup) (k : String) :
    mapGet (parsePackageJSON lib d path).deps k =
      match mapGet pkg.Dependencies k with
      | some v => some v
      | none => mapGet pkg.DevDependencies k := by
  simp only [parsePackageJSON, hr, hu, Option.getD_some]
  rw [mapGet_copyMissing, mapGet_copyInto _ _ _ hD]
  cases mapGet pkg.Dependencies k <;> simp [mapGet]

/-- Witness of C12: `both` is declared in the two maps and keeps the version
of `dependencies`; `right` is only in `devDependencies`. -/
theorem parsePackageJSON_deps_union_witness :
    mapGet (parsePackageJSON libBoth dirNodeAll "package.json").deps "both" = some "2.0.0" ∧
      mapGet (parsePackageJSON libBoth dirNodeAll "package.json").deps "right" =
        some "3.0.0" ∧
      mapGet (parsePackageJSON libBoth dirNodeAll "package.json").deps "absent" = none :=
  ⟨parsePackageJSON_deps_union libBoth dirNodeAll "package.json" "main and module"
      samplePackageBoth (by decide) (by decide) (by decide) "both",
    parsePackageJSON_deps_union libBoth dirNodeAll "package.json" "main and module"
      samplePackageBoth (by decide) (by decide) (by decide) "right",
    parsePackageJSON_deps_union libBoth dirNodeAll "package.json" "main and module"
      samplePackageBoth (by decide) (by decide) (by decide) "absent"⟩

/-- C13, as stated, fails: with a `package.json` that cannot be read the
language is `js` although a sibling `tsconfig.json` exists. -/
theorem scanProject_unreadable_package_js :
    fileExists dirUnreadablePackageTs "package.json" = true ∧
      fileExists dirUnreadablePackageTs "tsconfig.json" = true ∧
      (scanProject sampleLib dirUnreadablePackageTs "").language = "js" := by
  decide

/-- C13, amended: in a directory with `package.json` and an empty forced
language, the language is `js` when `package.json` cannot be read; when it is
read, the language is `ts` if its `types` field is non-empty or a sibling
`tsconfig.json` exists, and `js` otherwise. -/
theorem scanProject_language_node (lib : Lib) (d : Dir)
    (hp : fileExists d "package.json" = true) :
    (scanProject lib d "").language =
      match readFile d "package.json" with
      | none => "js"
      | some data =>
        if ((lib.unmarshalPackage data).getD zeroPackage).Types ≠ "" ∨
            fileExists d "tsconfig.json" = true then "ts"
        else "js" := by
  rw [scanProject_language_unforced lib d "" (norm_empty _) hp]
  simp only [parsePackageJSON, zeroPackage]
  cases readFile d "package.json" <;> rfl

/-- Witness of C13 amended: the sample `package.json` has no `types` and no
`tsconfig.json` beside it. -/
theorem scanProject_language_node_witness :
    (scanProject sampleLib dirNodeRust "").language = "js" :=
  (scanProject_language_node sampleLib dirNodeRust (by decide)).trans (by decide)

theorem scanEntry_keep (d : Dir) (s : Scan) (h : s.entry ≠ "") : scanEntry d s = s := by
  have h1 : stepProcfile d s = s := by
    simp only [stepProcfile]
    split_ifs with a b
    · exact absurd b.2 h
    · rfl
    · rfl
  have h2 : stepConfig d s = s := by
    simp only [stepConfig, if_neg h]
  have h3 : stepCandidates d s = s := by
    simp only [stepCandidates, if_neg h]
  rw [scanEntry, h1, h2, h3]

theorem tail_keep (d : Dir) (s : Scan) (h : s.entry ≠ "") :
    (stepDefault (stepLanguage (scanEntry d s))).entry = s.entry ∧
      (stepDefault (stepLanguage (scanEntry d s))).guessed = s.guessed := by
  have hl := stepDefault_rest _ _ (stepLanguage_rest (scanEntry d s))
  rw [Scan.rest_eq_iff] at hl
  rw [hl.1, hl.2.1, scanEntry_keep d s h]
  simp only [stepDefault, if_neg h, and_self]

theorem stepManifest_keep (d : Dir) (file lang dflt tag : String) (deps : GoMap String)
    (s : Scan) (e : String) (h : s.entry = e ∧ s.guessed = false ∧ e ≠ "") :
    (stepManifest d file lang dflt tag deps s).entry = e ∧
      (stepManifest d file lang dflt tag deps s).guessed = false ∧ e ≠ "" := by
  obtain ⟨h1, h2, h3⟩ := h
  have hne : s.entry ≠ "" := h1 ▸ h3
  rw [stepManifest_entry, stepManifest_guessed]
  simp [hne, h1, h2, h3]

/-- C14: when `package.json` is read and decoded with a non-empty `main` (or,
`main` being empty, a non-empty `module`), `scanProject` returns that value as
entrypoint with `guessed = false`, whatever else the directory contains. -/
theorem scanProject_entry_from_package (lib : Lib) (d : Dir) (forcedLang data : String)
    (pkg : PackageJSON) (hp : fileExists d "package.json" = true)
    (hr : readFile d "package.json" = some data)
    (hu : lib.unmarshalPackage data = some pkg) :
    (pkg.Main ≠ "" →
        (scanProject lib d forcedLang).entry = pkg.Main ∧
        (scanProject lib d forcedLang).guessed = false) ∧
      (pkg.Main = "" → pkg.Module ≠ "" →
        (scanProject lib d forcedLang).entry = pkg.Module ∧
        (scanProject lib d forcedLang).guessed = false) := by
  have key : ∀ e, (parsePackageJSON lib d "package.json").entry = e → e ≠ "" →
      (scanProject lib d forcedLang).entry = e ∧
        (scanProject lib d forcedLang).guessed = false := by
    intro e he hne
    have hm : (scanManifests lib d forcedLang).entry = e ∧
        (scanManifests lib d forcedLang).guessed = false ∧ e ≠ "" := by
      simp only [scanManifests]
      apply stepManifest_keep
      apply stepManifest_keep
      apply stepManifest_keep
      apply stepManifest_keep
      apply stepManifest_keep
      apply stepManifest_keep
      rw [stepPackageJSON_entry, stepPackageJSON_guessed]
      simp [hp, he, hne]
    have ht := tail_keep d (scanManifests lib d forcedLang) (hm.1 ▸ hne)
    rw [scanProject, ht.1, ht.2]
    exact ⟨hm.1, hm.2.1⟩
  constructor
  · intro hmain
    apply key _ _ hmain
    simp [parsePackageJSON, hr, hu, hmain]
  · intro hmain hmod
    apply key _ _ hmod
    simp [parsePackageJSON, hr, hu, hmain, hmod]

/-- Witness of C14: `main` and `module` are both set, a Rust manifest and a
`Procfile` are present, and `main` is returned. -/
theorem scanProject_entry_from_package_witness :
    (scanProject libBoth dirNodeAll "").entry = "lib/main.js" ∧
      (scanProject libBoth dirNodeAll "").guessed = false :=
  (scanProject_entry_from_package libBoth dirNodeAll "" "main and module" samplePackageBoth
    (by decide) (by decide) (by decide)).1 (by decide)

/-! ## The claims about the `Procfile` and the manifest defaults -/

theorem splitWhere_ne_nil (p : Char → Bool) (l : List Char) : splitWhere p l ≠ [] := by
  cases l with
  | nil => simp [splitWhere]
  | cons c cs =>
    simp only [splitWhere]
    split_ifs
    · simp
    · cases splitWhere p cs <;> simp

theorem splitWhere_cons_neg (p : Char → Bool) (c : Char) (cs : List Char) (h : p c = false) :
    splitWhere p (c :: cs) =
      (c :: (splitWhere p cs).headD []) :: (splitWhere p cs).tail := by
  simp only [splitWhere, h]
  cases hs : splitWhere p cs with
  | nil => exact absurd hs (splitWhere_ne_nil p cs)
  | cons a t => simp

theorem splitWhere_cons_pos (p : Char → Bool) (c : Char) (cs : List Char) (h : p c = true) :
    splitWhere p (c :: cs) = [] :: splitWhere p cs := by
  simp only [splitWhere, h, if_true]

theorem splitWhere_headD (p : Char → Bool) (l : List Char) :
    (splitWhere p l).headD [] = l.takeWhile (fun c => !p c) := by
  induction l with
  | nil => rfl
  | cons c cs ih =>
    cases h : p c
    · rw [splitWhere_cons_neg p c cs h]
      show c :: (splitWhere p cs).headD [] = _
      rw [ih]
      simp [List.takeWhile, h]
    · rw [splitWhere_cons_pos p c cs h]
      simp [List.takeWhile, h]

theorem fieldsFunc_cons_pos (p : Char → Bool) (c : Char) (cs : List Char) (h : p c = true) :
    fieldsFunc p (c :: cs) = fieldsFunc p cs := by
  simp [fieldsFunc, splitWhere_cons_pos p c cs h]

theorem fieldsFunc_dropWhile (p : Char → Bool) (l : List Char) :
    fieldsFunc p (l.dropWhile p) = fieldsFunc p l := by
  induction l with
  | nil => rfl
  | cons c cs ih =>
    cases h : p c
    · simp [List.dropWhile, h]
    · simp only [List.dropWhile, h]
      rw [ih, fieldsFunc_cons_pos p c cs h]

theorem splitWhere_append_sep (p : Char → Bool) (l : List Char) (c : Char) (h : p c = true) :
    splitWhere p (l ++ [c]) = splitWhere p l ++ [[]] := by
  induction l with
  | nil => simp [splitWhere, h]
  | cons x xs ih =>
    cases hx : p x
    · rw [List.cons_append, splitWhere_cons_neg p x _ hx, splitWhere_cons_neg p x _ hx, ih]
      cases hs : splitWhere p xs with
      | nil => exact absurd hs (splitWhere_ne_nil p xs)
      | cons a t => simp
    · rw [List.cons_append, splitWhere_cons_pos p x _ hx, splitWhere_cons_pos p x _ hx, ih]
      simp

theorem fieldsFunc_append_sep (p : Char → Bool) (l : List Char) (c : Char) (h : p c = true) :
    fieldsFunc p (l ++ [c]) = fieldsFunc p l := by
  simp [fieldsFunc, splitWhere_append_sep p l c h]

theorem fieldsFunc_rdropWhile (p : Char → Bool) (l : List Char) :
    fieldsFunc p (l.rdropWhile p) = fieldsFunc p l := by
  induction l using List.reverseRecOn with
  | nil => rfl
  | append_singleton xs x ih =>
    cases h : p x
    · rw [List.rdropWhile_concat_neg _ _ _ (by simp [h])]
    · rw [List.rdropWhile_concat_pos _ _ _ h, ih, fieldsFunc_append_sep p xs x h]

theorem fields_trimSpaceChars (l : List Char) : fields (trimSpaceChars l) = fields l := by
  simp only [fields, trimSpaceChars]
  rw [fieldsFunc_rdropWhile, fieldsFunc_dropWhile]

theorem fieldsFunc_ne_nil (p : Char → Bool) (l f : List Char) (h : f ∈ fieldsFunc p l) :
    f ≠ [] := by
  simp only [fieldsFunc, List.mem_filter] at h
  intro e
  rw [e] at h
  simp at h

theorem parseProcfileEntrypoint_eq (d : Dir) (path content : String)
    (hr : readFile d path = some content) :
    parseProcfileEntrypoint d path =
      if (fields (firstLine content)).length ≥ 2 then
        ⟨(fields (firstLine content)).getLastD []⟩
      else "" := by
  simp only [parseProcfileEntrypoint, hr, splitWhere_headD, fields_trimSpaceChars, firstLine]
  have hf : (fun c : Char => !(c == '\n')) = (fun c : Char => c != '\n') := rfl
  rw [hf]

theorem getLastD_mem_ne_nil (p : Char → Bool) (l : List Char)
    (h : 2 ≤ (fieldsFunc p l).length) : (fieldsFunc p l).getLastD [] ≠ [] := by
  have hne : fieldsFunc p l ≠ [] := by
    intro e
    rw [e] at h
    simp at h
  have hm : (fieldsFunc p l).getLastD [] ∈ fieldsFunc p l := by
    rw [List.getLastD_eq_getLast?, List.getLast?_eq_getLast _ hne]
    exact List.getLast_mem hne
  exact fieldsFunc_ne_nil p l _ hm

theorem string_mk_ne_empty (l : List Char) (h : l ≠ []) : String.mk l ≠ "" := by
  intro e
  apply h
  have := congrArg String.data e
  simpa using this

theorem scanManifests_congr (lib : Lib) (d d' : Dir) (f : String)
    (hx : ∀ p ∈ ["package.json", ".env", "Cargo.toml", "requirements.txt", "Gemfile",
      "go.mod", "composer.json", "Podfile"], fileExists d p = fileExists d' p)
    (hnode : parsePackageJSON lib d "package.json" = parsePackageJSON lib d' "package.json")
    (hrust : parseCargoDependencies d "Cargo.toml" = parseCargoDependencies d' "Cargo.toml")
    (hpython : parseRequirementsTxt d "requirements.txt" =
      parseRequirementsTxt d' "requirements.txt")
    (hruby : parseGemfile d "Gemfile" = parseGemfile d' "Gemfile")
    (hgo : parseGoMod d "go.mod" = parseGoMod d' "go.mod")
    (hphp : parseComposerJSON lib d "composer.json" = parseComposerJSON lib d' "composer.json")
    (hswift : parsePodfile d "Podfile" = parsePodfile d' "Podfile") :
    scanManifests lib d f = scanManifests lib d' f := by
  simp only [scanManifests, hrust, hpython, hruby, hgo, hphp, hswift]
  rw [stepPackageJSON_congr lib d d' _ (hx _ (by decide)) (hx _ (by decide)) hnode,
    stepManifest_congr d d' "Cargo.toml" _ _ _ _ _ (hx _ (by decide)),
    stepManifest_congr d d' "requirements.txt" _ _ _ _ _ (hx _ (by decide)),
    stepManifest_congr d d' "Gemfile" _ _ _ _ _ (hx _ (by decide)),
    stepManifest_congr d d' "go.mod" _ _ _ _ _ (hx _ (by decide)),
    stepManifest_congr d d' "composer.json" _ _ _ _ _ (hx _ (by decide)),
    stepManifest_congr d d' "Podfile" _ _ _ _ _ (hx _ (by decide))]

theorem stepConfig_keep (d : Dir) (s : Scan) (h : s.entry ≠ "") : stepConfig d s = s := by
  simp only [stepConfig, if_neg h]

theorem stepCandidates_keep (d : Dir) (s : Scan) (h : s.entry ≠ "") :
    stepCandidates d s = s := by
  simp only [stepCandidates, if_neg h]

theorem stepDefault_keep (s : Scan) (h : s.entry ≠ "") : stepDefault s = s := by
  simp only [stepDefault, if_neg h]

theorem fileExists_of_readFile (d : Dir) (p content : String)
    (h : readFile d p = some content) : fileExists d p = true := by
  simp only [readFile] at h
  simp only [fileExists]
  split at h
  · rfl
  · cases h

theorem scanProject_allDeps_put_procfile (lib : Lib) (d : Dir) (f : String)
    (e : Option Entry) :
    (scanProject lib d f).allDeps = (scanProject lib (d.put "Procfile" e) f).allDeps := by
  rw [scanProject_allDeps, scanProject_allDeps]
  have hm : scanManifests lib d f = scanManifests lib (d.put "Procfile" e) f := by
    apply scanManifests_congr
    · intro p hp
      rw [fileExists_put_ne]
      intro e
      rw [e] at hp
      revert hp
      decide
    · exact parsePackageJSON_put_ne lib d "Procfile" e (by decide) (by decide)
    · exact parseCargoDependencies_put_ne d "Procfile" _ e (by decide)
    · exact parseRequirementsTxt_put_ne d "Procfile" _ e (by decide)
    · exact parseGemfile_put_ne d "Procfile" _ e (by decide)
    · exact parseGoMod_put_ne d "Procfile" _ e (by decide)
    · exact parseComposerJSON_put_ne lib d "Procfile" _ e (by decide)
    · exact parsePodfile_put_ne d "Procfile" _ e (by decide)
  rw [hm]

theorem stepLanguage_language_infer (s : Scan) :
    (stepLanguage s).language =
      if s.language = "" then inferLanguage s.entry else s.language := by
  rw [stepLanguage_language]
  rfl

/-- C19, as stated, fails: a `Procfile` whose first line is the single word
`./start.sh` is present and no manifest has set the entrypoint, and yet the
entrypoint is the default path, flagged as guessed. -/
theorem scanProject_one_word_procfile :
    fileExists dirOneWordProcfile "Procfile" = true ∧
      fields (firstLine "./start.sh\n") = ["./start.sh".data] ∧
      (scanProject sampleLib dirOneWordProcfile "").entry = "src/main.tsx" ∧
      (scanProject sampleLib dirOneWordProcfile "").guessed = true := by
  decide

/-- C19, amended: when no manifest has set the entrypoint and the `Procfile`
can be read and its first line has at least two whitespace-delimited tokens,
`scanProject` returns the last of these tokens as entrypoint with
`guessed = false`; the dependency maps are those of the directory without the
`Procfile`, and the language is the one the forced language or a manifest has
set, or else the one inferred from the suffix of the entrypoint. -/
theorem scanProject_entry_from_procfile (lib : Lib) (d : Dir) (forcedLang content : String)
    (hpkg : ¬ (fileExists d "package.json" = true ∧
      (parsePackageJSON lib d "package.json").entry ≠ ""))
    (hnone : ∀ m ∈ manifestDefaults, fileExists d m.1 = false)
    (hread : readFile d "Procfile" = some content)
    (htok : 2 ≤ (fields (firstLine content)).length) :
    (scanProject lib d forcedLang).entry = ⟨(fields (firstLine content)).getLastD []⟩ ∧
      (scanProject lib d forcedLang).guessed = false ∧
      (scanProject lib d forcedLang).allDeps =
        (scanProject lib (d.put "Procfile" none) forcedLang).allDeps ∧
      (scanProject lib d forcedLang).language =
        if (scanManifests lib d forcedLang).language = "" then
          inferLanguage (scanProject lib d forcedLang).entry
        else (scanManifests lib d forcedLang).language := by
  have hE : (scanManifests lib d forcedLang).entry = "" := by
    rw [scanManifests_entry_empty]
    simp only [manifestDefaults, List.forall_mem_cons, List.not_mem_nil, false_implies,
      implies_true, and_true] at hnone
    exact ⟨hpkg, hnone⟩
  have hex := fileExists_of_readFile d "Procfile" content hread
  have he : parseProcfileEntrypoint d "Procfile" =
      ⟨(fields (firstLine content)).getLastD []⟩ := by
    rw [parseProcfileEntrypoint_eq d "Procfile" content hread, if_pos htok]
  have hne : (⟨(fields (firstLine content)).getLastD []⟩ : String) ≠ "" :=
    string_mk_ne_empty _ (getLastD_mem_ne_nil isSpace _ htok)
  have hP : stepProcfile d (scanManifests lib d forcedLang) =
      { scanManifests lib d forcedLang with
        entry := ⟨(fields (firstLine content)).getLastD []⟩, guessed := false } := by
    simp only [stepProcfile, hex, if_true, he]
    rw [if_pos ⟨hne, hE⟩]
  have hS : scanEntry d (scanManifests lib d forcedLang) =
      { scanManifests lib d forcedLang with
        entry := ⟨(fields (firstLine content)).getLastD []⟩, guessed := false } := by
    rw [scanEntry, hP, stepConfig_keep _ _ hne, stepCandidates_keep _ _ hne]
  have hO := stepLanguage_origin (scanEntry d (scanManifests lib d forcedLang))
  have hD : stepDefault (stepLanguage (scanEntry d (scanManifests lib d forcedLang))) =
      stepLanguage (scanEntry d (scanManifests lib d forcedLang)) := by
    apply stepDefault_keep
    rw [hO.1, hS]
    exact hne
  have hentry : (scanProject lib d forcedLang).entry =
      ⟨(fields (firstLine content)).getLastD []⟩ := by
    rw [scanProject, hD, hO.1, hS]
  refine ⟨hentry, ?_, scanProject_allDeps_put_procfile lib d forcedLang none, ?_⟩
  · rw [scanProject, hD, hO.2, hS]
  · rw [hentry, scanProject_language, stepLanguage_language_infer, hS]

/-- Witness of C19 amended: the `Procfile` line `web: python app.py` gives
the entrypoint `app.py`. -/
theorem scanProject_entry_from_procfile_witness :
    (scanProject sampleLib dirProcfile "").entry = "app.py" ∧
      (scanProject sampleLib dirProcfile "").guessed = false :=
  have h := scanProject_entry_from_procfile sampleLib dirProcfile ""
    "web: python app.py\nworker: x\n" (by decide) (by decide) (by decide) (by decide)
  ⟨h.1.trans (by decide), h.2.1⟩

theorem stepManifest_absent (d : Dir) (file lang dflt tag : String) (deps : GoMap String)
    (s : Scan) (h : fileExists d file = false) :
    stepManifest d file lang dflt tag deps s = s := by
  simp [stepManifest, h]

theorem stepPackageJSON_absent (lib : Lib) (d : Dir) (s : Scan)
    (h : fileExists d "package.json" = false) : stepPackageJSON lib d s = s := by
  simp [stepPackageJSON, h]

theorem stepManifest_first (d : Dir) (file lang dflt tag : String) (deps : GoMap String)
    (s : Scan) (hex : fileExists d file = true) (hs : s.language = "" ∧ s.entry = "")
    (hl : lang ≠ "") (hd : dflt ≠ "") :
    (stepManifest d file lang dflt tag deps s).language = lang ∧
      (stepManifest d file lang dflt tag deps s).entry = dflt ∧
      (stepManifest d file lang dflt tag deps s).guessed = true ∧ lang ≠ "" ∧ dflt ≠ "" := by
  rw [stepManifest_language, stepManifest_entry, stepManifest_guessed]
  simp [hex, hs.1, hs.2, hl, hd]

theorem stepManifest_settled (d : Dir) (file lang dflt tag : String) (deps : GoMap String)
    (s : Scan) (l e : String)
    (h : s.language = l ∧ s.entry = e ∧ s.guessed = true ∧ l ≠ "" ∧ e ≠ "") :
    (stepManifest d file lang dflt tag deps s).language = l ∧
      (stepManifest d file lang dflt tag deps s).entry = e ∧
      (stepManifest d file lang dflt tag deps s).guessed = true ∧ l ≠ "" ∧ e ≠ "" := by
  obtain ⟨h1, h2, h3, h4, h5⟩ := h
  have hl : s.language ≠ "" := h1 ▸ h4
  have he : s.entry ≠ "" := h2 ▸ h5
  rw [stepManifest_language, stepManifest_entry, stepManifest_guessed]
  simp [hl, he, h1, h2, h3, h4, h5]

/-- After the manifest blocks, in a directory without `package.json` and with
an empty forced language, the variables are those set by the first of the six
other manifests that is present. -/
theorem scanManifests_first (lib : Lib) (d : Dir)
    (hp : fileExists d "package.json" = false) (m : String × String × String)
    (hm : manifestDefaults.find? (fun m => fileExists d m.1) = some m) :
    (scanManifests lib d "").language = m.2.1 ∧ (scanManifests lib d "").entry = m.2.2 ∧
      (scanManifests lib d "").guessed = true ∧ m.2.1 ≠ "" ∧ m.2.2 ≠ "" := by
  simp only [scanManifests, stepPackageJSON_absent lib d _ hp]
  simp only [manifestDefaults, List.find?] at hm
  cases h1 : fileExists d "Cargo.toml"
  case true =>
    rw [h1] at hm
    cases hm
    iterate 5 apply stepManifest_settled
    exact stepManifest_first _ _ _ _ _ _ _ h1 ⟨norm_empty _, rfl⟩ (by decide) (by decide)
  rw [h1] at hm
  rw [stepManifest_absent _ "Cargo.toml" _ _ _ _ _ h1]
  cases h2 : fileExists d "requirements.txt"
  case true =>
    rw [h2] at hm
    cases hm
    iterate 4 apply stepManifest_settled
    exact stepManifest_first _ _ _ _ _ _ _ h2 ⟨norm_empty _, rfl⟩ (by decide) (by decide)
  rw [h2] at hm
  rw [stepManifest_absent _ "requirements.txt" _ _ _ _ _ h2]
  cases h3 : fileExists d "Gemfile"
  case true =>
    rw [h3] at hm
    cases hm
    iterate 3 apply stepManifest_settled
    exact stepManifest_first _ _ _ _ _ _ _ h3 ⟨norm_empty _, rfl⟩ (by decide) (by decide)
  rw [h3] at hm
  rw [stepManifest_absent _ "Gemfile" _ _ _ _ _ h3]
  cases h4 : fileExists d "go.mod"
  case true =>
    rw [h4] at hm
    cases hm
    iterate 2 apply stepManifest_settled
    exact stepManifest_first _ _ _ _ _ _ _ h4 ⟨norm_empty _, rfl⟩ (by decide) (by decide)
  rw [h4] at hm
  rw [stepManifest_absent _ "go.mod" _ _ _ _ _ h4]
  cases h5 : fileExists d "composer.json"
  case true =>
    rw [h5] at hm
    cases hm
    iterate 1 apply stepManifest_settled
    exact stepManifest_first _ _ _ _ _ _ _ h5 ⟨norm_empty _, rfl⟩ (by decide) (by decide)
  rw [h5] at hm
  rw [stepManifest_absent _ "composer.json" _ _ _ _ _ h5]
  cases h6 : fileExists d "Podfile"
  case true =>
    rw [h6] at hm
    cases hm
    exact stepManifest_first _ _ _ _ _ _ _ h6 ⟨norm_empty _, rfl⟩ (by decide) (by decide)
  rw [h6] at hm
  cases hm

/-- C20: in a directory without `package.json` that contains at least one of
`Cargo.toml`, `requirements.txt`, `Gemfile`, `go.mod`, `composer.json`,
`Podfile`, with an empty forced language, `scanProject` returns the language
tag and the default entrypoint of the first of these files that is present,
with `guessed = true`. -/
theorem scanProject_first_manifest (lib : Lib) (d : Dir)
    (hp : fileExists d "package.json" = false) (m : String × String × String)
    (hm : manifestDefaults.find? (fun m => fileExists d m.1) = some m) :
    (scanProject lib d "").language = m.2.1 ∧ (scanProject lib d "").entry = m.2.2 ∧
      (scanProject lib d "").guessed = true := by
  obtain ⟨h1, h2, h3, h4, h5⟩ := scanManifests_first lib d hp m hm
  have hne : (scanManifests lib d "").entry ≠ "" := h2 ▸ h5
  have ht := tail_keep d (scanManifests lib d "") hne
  refine ⟨?_, ?_, ?_⟩
  · rw [scanProject_language, stepLanguage_language, (scanEntry_frame d _).1, h1, if_neg h4]
  · rw [scanProject, ht.1, h2]
  · rw [scanProject, ht.2, h3]

/-- Witness of C20: `requirements.txt` comes before `go.mod`, and the
`Procfile` does not replace the default entrypoint. -/
theorem scanProject_first_manifest_witness :
    (scanProject sampleLib dirPythonGo "").language = "python" ∧
      (scanProject sampleLib dirPythonGo "").entry = "main.py" ∧
      (scanProject sampleLib dirPythonGo "").guessed = true :=
  scanProject_first_manifest sampleLib dirPythonGo (by decide)
    ("requirements.txt", "python", "main.py") (by decide)

/-! ## Lines: what the scanner delivers -/

theorem splitWhere_append_cons (p : Char → Bool) (l rest : List Char) (c : Char)
    (hl : ∀ x ∈ l, p x = false) (hc : p c = true) :
    splitWhere p (l ++ c :: rest) = l :: splitWhere p rest := by
  induction l with
  | nil => exact splitWhere_cons_pos p c rest hc
  | cons x xs ih =>
    have hx : p x = false := hl x (List.mem_cons_self _ _)
    rw [List.cons_append, splitWhere_cons_neg p x _ hx,
      ih (fun y hy => hl y (List.mem_cons_of_mem _ hy))]
    rfl

theorem splitWhere_no_sep (p : Char → Bool) (l : List Char) (hl : ∀ x ∈ l, p x = false) :
    splitWhere p l = [l] := by
  induction l with
  | nil => rfl
  | cons x xs ih =>
    have hx : p x = false := hl x (List.mem_cons_self _ _)
    rw [splitWhere_cons_neg p x _ hx, ih (fun y hy => hl y (List.mem_cons_of_mem _ hy))]
    rfl

theorem rawLines_eq (l : List Char) :
    rawLines l = dropEmptyLast (splitWhere (fun c => c == '\n') l) := rfl

theorem dropEmptyLast_cases (ps : List (List Char)) :
    ps = dropEmptyLast ps ++ [[]] ∨ ps = dropEmptyLast ps := by
  unfold dropEmptyLast
  cases h : ps.reverse with
  | nil =>
    right
    simpa using h
  | cons y r =>
    have hps : ps = r.reverse ++ [y] := by
      have := congrArg List.reverse h
      simpa using this
    cases y with
    | nil =>
      left
      exact hps
    | cons c y =>
      right
      simpa using hps

theorem dropEmptyLast_cons (a : List Char) (ps : List (List Char)) (h : ps ≠ []) :
    dropEmptyLast (a :: ps) = a :: dropEmptyLast ps := by
  unfold dropEmptyLast
  cases hr : ps.reverse with
  | nil =>
    exfalso
    apply h
    simpa using hr
  | cons y r =>
    rw [List.reverse_cons, hr]
    cases y <;> simp

theorem mem_of_mem_dropEmptyLast (ps : List (List Char)) (t : List Char)
    (h : t ∈ dropEmptyLast ps) : t ∈ ps := by
  rcases dropEmptyLast_cases ps with e | e
  · rw [e]
    exact List.mem_append_left _ h
  · rw [e]
    exact h

theorem foldl_dropEmptyLast {σ : Type} (step : σ → List Char → σ) (st : σ)
    (ps : List (List Char)) (hempty : ∀ s, step s [] = s) :
    (dropEmptyLast ps).foldl step st = ps.foldl step st := by
  rcases dropEmptyLast_cases ps with e | e
  · conv_rhs => rw [e]
    rw [List.foldl_append]
    simp [hempty]
  · conv_rhs => rw [e]

theorem scanLines_of_short (l : List Char)
    (h : ∀ t ∈ splitWhere (fun c => c == '\n') l, byteLen t < maxScanTokenSize) :
    scanLines l = (rawLines l).map dropCR := by
  unfold scanLines
  congr 1
  rw [List.takeWhile_eq_self_iff]
  intro t ht
  have := h t (mem_of_mem_dropEmptyLast _ _ (by rw [← rawLines_eq]; exact ht))
  simpa using this

theorem rdropWhile_cons (p : Char → Bool) (x : Char) (xs : List Char) :
    (x :: xs).rdropWhile p =
      if xs.rdropWhile p = [] then (if p x = true then [] else [x])
      else x :: xs.rdropWhile p := by
  induction xs using List.reverseRecOn with
  | nil =>
    cases h : p x
    · simp [List.rdropWhile, h]
    · simp [List.rdropWhile, h]
  | append_singleton ys y ih =>
    cases h : p y
    · have e1 : (x :: (ys ++ [y])).rdropWhile p = x :: (ys ++ [y]) := by
        rw [← List.cons_append, List.rdropWhile_concat_neg _ _ _ (by simp [h])]
      have e2 : (ys ++ [y]).rdropWhile p = ys ++ [y] :=
        List.rdropWhile_concat_neg _ _ _ (by simp [h])
      rw [e1, e2]
      simp
    · have e1 : (x :: (ys ++ [y])).rdropWhile p = (x :: ys).rdropWhile p := by
        rw [← List.cons_append, List.rdropWhile_concat_pos _ _ _ h]
      have e2 : (ys ++ [y]).rdropWhile p = ys.rdropWhile p :=
        List.rdropWhile_concat_pos _ _ _ h
      rw [e1, e2, ih]

theorem dropWhile_rdropWhile_comm (p : Char → Bool) (l : List Char) :
    (l.dropWhile p).rdropWhile p = (l.rdropWhile p).dropWhile p := by
  induction l with
  | nil => rfl
  | cons x xs ih =>
    cases h : p x
    · have e1 : (x :: xs).dropWhile p = x :: xs :=
        List.dropWhile_cons_of_neg (by simp [h])
      have e2 : ∃ ys, (x :: xs).rdropWhile p = x :: ys := by
        rw [rdropWhile_cons]
        by_cases e : xs.rdropWhile p = []
        · exact ⟨[], by simp [e, h]⟩
        · exact ⟨xs.rdropWhile p, by simp [e]⟩
      obtain ⟨ys, hy⟩ := e2
      rw [e1, hy, List.dropWhile_cons_of_neg (by simp [h])]
    · rw [List.dropWhile_cons_of_pos h, ih, rdropWhile_cons]
      by_cases e : xs.rdropWhile p = []
      · rw [if_pos e, if_pos h, e]
      · rw [if_neg e, List.dropWhile_cons_of_pos h]

theorem trimSpaceChars_concat_space (l : List Char) (c : Char) (h : isSpace c = true) :
    trimSpaceChars (l ++ [c]) = trimSpaceChars l := by
  unfold trimSpaceChars
  rw [dropWhile_rdropWhile_comm, List.rdropWhile_concat_pos _ _ _ h,
    ← dropWhile_rdropWhile_comm]

theorem trimSpaceChars_dropCR (l : List Char) :
    trimSpaceChars (dropCR l) = trimSpaceChars l := by
  unfold dropCR
  split
  · rename_i r hr
    have hl : l = r.reverse ++ ['\r'] := by
      have := congrArg List.reverse hr
      simpa using this
    rw [hl, trimSpaceChars_concat_space _ _ (by decide)]
  · rfl

/-- Folding a loop body over the scanned lines is folding it over all the
lines of the text, when every line fits the buffer and the body looks at its
line only after trimming and does nothing on an empty line. -/
theorem foldl_scanLines {σ : Type} (step : σ → List Char → σ) (st : σ) (content : String)
    (hshort : shortLines content = true)
    (htrim : ∀ s raw raw', trimSpaceChars raw = trimSpaceChars raw' → step s raw = step s raw')
    (hempty : ∀ s, step s [] = s) :
    (scanLines content.data).foldl step st = (textLines content).foldl step st := by
  have hs : ∀ t ∈ splitWhere (fun c => c == '\n') content.data,
      byteLen t < maxScanTokenSize := by
    intro t ht
    have := List.all_eq_true.1 hshort t ht
    simpa using this
  rw [scanLines_of_short _ hs, List.foldl_map]
  have hstep : (fun s raw => step s (dropCR raw)) = step := by
    funext s raw
    exact htrim s _ _ (trimSpaceChars_dropCR raw)
  rw [hstep, rawLines_eq, foldl_dropEmptyLast step st _ hempty]
  rfl

theorem byteLen_replicate (n : Nat) : byteLen (List.replicate n 'x') = n := by
  induction n with
  | zero => rfl
  | succ k ih =>
    rw [List.replicate_succ]
    simp only [byteLen, List.map_cons, List.sum_cons] at ih ⊢
    rw [ih]
    have : Char.utf8Size 'x' = 1 := by decide
    omega

theorem longLine_no_newline : ∀ x ∈ longLine, (fun c : Char => c == '\n') x = false := by
  intro x hx
  rw [longLine, List.mem_replicate] at hx
  rw [hx.2]
  decide

theorem longLine_too_long : ¬ byteLen longLine < maxScanTokenSize := by
  rw [longLine, byteLen_replicate]
  exact Nat.lt_irrefl _

theorem scanLines_long_first (rest : List Char) : scanLines (longLine ++ '\n' :: rest) = [] := by
  have hsplit := splitWhere_append_cons (fun c => c == '\n') longLine rest '\n'
    longLine_no_newline (by decide)
  unfold scanLines
  rw [rawLines_eq, hsplit, dropEmptyLast_cons _ _ (splitWhere_ne_nil _ _),
    List.takeWhile_cons_of_neg (by simpa using longLine_too_long)]
  rfl

/-! ## The claims about `parseGoMod` -/

/-- C18, as stated, fails: in a `go.mod` whose first line is 64 KiB long the
scanner stops at that line, and the `require` line after it contributes
nothing. -/
theorem parseGoMod_after_long_line :
    textLines longGoModText = [longLine, "require example.com/m v1.0.0".data, []] ∧
      parseGoMod dirLongGoMod "go.mod" = [] := by
  constructor
  · show splitWhere _ (longLine ++ '\n' :: "require example.com/m v1.0.0\n".data) = _
    rw [splitWhere_append_cons _ _ _ _ longLine_no_newline (by decide)]
    congr 1
  · have hr : readFile dirLongGoMod "go.mod" = some longGoModText := rfl
    simp only [parseGoMod, hr]
    show (scanLines (longLine ++ '\n' :: "require example.com/m v1.0.0\n".data)).foldl _ _ = _
    rw [scanLines_long_first]
    rfl

/-- C18, amended: for every `go.mod` content whose lines are all shorter than
64 KiB, `parseGoMod` returns exactly the map that sends, for each line
beginning with `require ` after trimming, the second whitespace-delimited
token of the line to the third one; other lines contribute nothing. -/
theorem parseGoMod_spec (d : Dir) (path content : String)
    (hr : readFile d path = some content) (hs : shortLines content = true) :
    parseGoMod d path = specGoMod content := by
  simp only [parseGoMod, hr]
  rw [foldl_scanLines goModLine [] content hs]
  · unfold specGoMod
    congr 1
    funext deps raw
    simp only [goModLine, fields_trimSpaceChars]
    split_ifs
    · rcases fields raw with _ | ⟨a, _ | ⟨b, _ | ⟨c, t⟩⟩⟩ <;> rfl
    · rfl
  · intro s raw raw' h
    simp only [goModLine, h]
  · intro s
    rfl

/-- Witness of C18 amended: a `module` line and a `require` line. -/
theorem parseGoMod_spec_witness :
    parseGoMod dirPythonGo "go.mod" = [("example.com/m", "v1.0.0")] :=
  (parseGoMod_spec dirPythonGo "go.mod" "module demo\nrequire example.com/m v1.0.0\n"
    (by decide) (by decide)).trans (by decide)

/-! ## The claims about `parseRequirementsTxt` -/

theorem dropWhile_head_false (q : Char → Bool) (l : List Char) (c : Char) (cs : List Char)
    (h : l.dropWhile q = c :: cs) : q c = false := by
  induction l with
  | nil => cases h
  | cons x xs ih =>
    cases hx : q x
    · rw [List.dropWhile_cons_of_neg (by simp [hx])] at h
      cases h
      exact hx
    · rw [List.dropWhile_cons_of_pos hx] at h
      exact ih h

theorem fieldsFunc_run (p : Char → Bool) (r rest : List Char)
    (hr : ∀ x ∈ r, p x = false) (hne : r ≠ [])
    (hrest : rest = [] ∨ ∃ c t, rest = c :: t ∧ p c = true) :
    fieldsFunc p (r ++ rest) = r :: fieldsFunc p rest := by
  rcases hrest with e | ⟨c, t, e, hc⟩
  · subst e
    rw [List.append_nil]
    simp only [fieldsFunc, splitWhere_no_sep p r hr, splitWhere]
    cases r with
    | nil => exact absurd rfl hne
    | cons a b => rfl
  · subst e
    rw [fieldsFunc_cons_pos p c t hc]
    simp only [fieldsFunc, splitWhere_append_cons p r t c hr hc]
    cases r with
    | nil => exact absurd rfl hne
    | cons a b => rfl

/-- The fields of a text: skip the separators it begins with, take the run
of other characters, and go on after that run. -/
theorem fieldsFunc_unfold (p : Char → Bool) (l : List Char) :
    fieldsFunc p l =
      if l.dropWhile p = [] then []
      else (l.dropWhile p).takeWhile (fun c => !p c) ::
        fieldsFunc p ((l.dropWhile p).dropWhile (fun c => !p c)) := by
  rw [← fieldsFunc_dropWhile p l]
  generalize hm : l.dropWhile p = m
  cases m with
  | nil => rfl
  | cons c cs =>
    have hc : p c = false := dropWhile_head_false p l c cs hm
    rw [if_neg (by simp)]
    have hsplit := (List.takeWhile_append_dropWhile (fun c => !p c) (c :: cs)).symm
    conv_lhs => rw [hsplit]
    apply fieldsFunc_run
    · intro x hx
      have := List.mem_takeWhile_imp hx
      simpa using this
    · rw [List.takeWhile_cons_of_pos (by simp [hc])]
      simp
    · cases hd : (c :: cs).dropWhile (fun c => !p c) with
      | nil => exact Or.inl rfl
      | cons y t =>
        right
        refine ⟨y, t, rfl, ?_⟩
        have := dropWhile_head_false _ _ _ _ hd
        simpa using this

theorem startsWith_one (l : List Char) (c : Char) :
    startsWith l [c] = true ↔ l.head? = some c := by
  cases l with
  | nil => simp [startsWith]
  | cons x xs => simp [startsWith]

theorem requirementsLine_spec (deps : GoMap String) (raw : List Char) :
    requirementsLine deps raw =
      if trimSpaceChars raw ≠ [] ∧ (trimSpaceChars raw).head? ≠ some '#' then
        match specRequirement (trimSpaceChars raw) with
        | some (name, version) => mapSet deps name version
        | none => deps
      else deps := by
  simp only [requirementsLine]
  generalize trimSpaceChars raw = line
  have hguard : (line != [] && !startsWith line ['#']) = true ↔
      (line ≠ [] ∧ line.head? ≠ some '#') := by
    rw [Bool.and_eq_true, bne_iff_ne, Bool.not_eq_true', ← Bool.not_eq_true, startsWith_one]
  by_cases hg : line ≠ [] ∧ line.head? ≠ some '#'
  · rw [if_pos (hguard.2 hg), if_pos hg]
    rw [fieldsFunc_unfold isSpecChar line]
    simp only [specRequirement]
    by_cases hb : line.dropWhile isSpecChar = []
    · rw [if_pos hb, if_pos hb]
    · rw [if_neg hb, if_neg hb]
      rw [fieldsFunc_unfold isSpecChar]
      by_cases ha : ((line.dropWhile isSpecChar).dropWhile (fun c => !isSpecChar c)).dropWhile
          isSpecChar = []
      · rw [if_pos ha, if_pos ha]
      · rw [if_neg ha, if_neg ha]
  · rw [if_neg (fun h => hg (hguard.1 h)), if_neg hg]

/-- C11, as stated, fails: the line `==1.0` has nothing before its first
specifier character, and yet `1.0` is recorded as a package name with the
version `latest`; the line `b==` contains specifier characters, and yet its
version is `latest`. -/
theorem parseRequirementsTxt_odd_lines :
    "==1.0".data.takeWhile (fun c => !isSpecChar c) = [] ∧
      "b==".data.any isSpecChar = true ∧
      parseRequirementsTxt dirOddRequirements "requirements.txt" =
        [("1.0", "latest"), ("b", "latest")] := by
  decide

/-- C11, amended: for every `requirements.txt` content whose lines are all
shorter than 64 KiB, `parseRequirementsTxt` returns the map built from exactly
the lines that after trimming are non-empty and do not start with `#`, each
read as `specRequirement` says. -/
theorem parseRequirementsTxt_spec (d : Dir) (path content : String)
    (hr : readFile d path = some content) (hs : shortLines content = true) :
    parseRequirementsTxt d path = specRequirements content := by
  simp only [parseRequirementsTxt, hr]
  rw [foldl_scanLines requirementsLine [] content hs]
  · unfold specRequirements
    congr 1
    funext deps raw
    exact requirementsLine_spec deps raw
  · intro s raw raw' h
    simp only [requirementsLine, h]
  · intro s
    rfl

/-- Witness of C11 amended: the scenario of the specification. -/
theorem parseRequirementsTxt_spec_witness :
    parseRequirementsTxt dirPythonGo "requirements.txt" =
      [("flask", "2.0.1"), ("requests", "latest")] :=
  (parseRequirementsTxt_spec dirPythonGo "requirements.txt"
    "flask==2.0.1\n# comment\nrequests" (by decide) (by decide)).trans (by decide)

/-! ## The claims about `parseCargoDependencies` -/

theorem takeWhile_append_stop (q : Char → Bool) (a b : List Char) (c : Char)
    (ha : ∀ x ∈ a, q x = true) (hc : q c = false) :
    (a ++ c :: b).takeWhile q = a ∧ (a ++ c :: b).dropWhile q = c :: b := by
  induction a with
  | nil =>
    simp [List.takeWhile, List.dropWhile, hc]
  | cons x xs ih =>
    have hx : q x = true := ha x (List.mem_cons_self _ _)
    have := ih (fun y hy => ha y (List.mem_cons_of_mem _ hy))
    simp [List.takeWhile, List.dropWhile, hx, this.1, this.2]

theorem dropWhile_ne_cons (sep x : Char) (xs : List Char) (hx : x ≠ sep) :
    (x :: xs).dropWhile (fun c => c != sep) = xs.dropWhile (fun c => c != sep) := by
  have hx' : (x != sep) = true := by simpa using hx
  simp only [List.dropWhile, hx']

theorem dropWhile_ne_eq_nil (sep : Char) (l : List Char)
    (h : l.dropWhile (fun c => c != sep) = []) : l.any (fun c => c == sep) = false := by
  induction l with
  | nil => rfl
  | cons x xs ih =>
    by_cases hx : x = sep
    · subst hx
      simp [List.dropWhile] at h
    · rw [dropWhile_ne_cons sep x xs hx] at h
      simp [List.any, hx, ih h]

theorem dropWhile_ne_eq_cons (sep : Char) (l : List Char) (c : Char) (t : List Char)
    (h : l.dropWhile (fun c => c != sep) = c :: t) : l.any (fun c => c == sep) = true := by
  induction l with
  | nil => cases h
  | cons x xs ih =>
    by_cases hx : x = sep
    · subst hx
      simp [List.any]
    · rw [dropWhile_ne_cons sep x xs hx] at h
      simp [List.any, ih h]

/-- The call `strings.SplitN(l, sep, 2)` cuts at the first separator. -/
theorem splitN2_eq (sep : Char) (l : List Char) :
    splitN2 sep l =
      if l.any (fun c => c == sep) = true then
        (l.takeWhile (fun c => c != sep), some ((l.dropWhile (fun c => c != sep)).drop 1))
      else (l, none) := by
  unfold splitN2
  cases h : l.dropWhile (fun c => c != sep) with
  | nil => simp [dropWhile_ne_eq_nil sep l h]
  | cons c t => simp [dropWhile_ne_eq_cons sep l c t h]

theorem cargoLine_header (st : Bool × GoMap String) (raw : List Char)
    (h : isSectionHeader raw = true) :
    cargoLine st raw = (trimSpaceChars raw == "[dependencies]".data, st.2) := by
  have hs : startsWith (trimSpaceChars raw) ['['] = true := by
    rw [startsWith_one]
    simpa [isSectionHeader] using h
  simp only [cargoLine, hs, if_true]

theorem cargoLine_entry (b : Bool) (deps : GoMap String) (raw : List Char)
    (h : isSectionHeader raw = false) :
    cargoLine (b, deps) raw =
      if (isKeyValueLine raw && b) = true then
        (b, mapSet deps (cargoEntry raw).1 (cargoEntry raw).2)
      else (b, deps) := by
  have hs : startsWith (trimSpaceChars raw) ['['] = false := by
    rw [← Bool.not_eq_true, startsWith_one]
    simpa [isSectionHeader] using h
  simp only [cargoLine, hs, Bool.false_eq_true, if_false, splitN2_eq, splitWhere_headD,
    isKeyValueLine, cargoEntry]
  generalize trimSpaceChars raw = line at hs ⊢
  have hc : startsWith line ['#'] = true ↔ line.head? = some '#' := startsWith_one line '#'
  by_cases hk : ((line.head? != some '[' && line.head? != some '#' &&
      line.any (fun c => c == '=')) && b) = true
  · rw [if_pos hk]
    simp only [Bool.and_eq_true, bne_iff_ne] at hk
    obtain ⟨⟨⟨_, h2⟩, h3⟩, hb⟩ := hk
    have hne : line ≠ [] := by
      intro e
      rw [e] at h3
      simp at h3
    have hcf : startsWith line ['#'] = false := by
      rw [← Bool.not_eq_true, hc]
      exact h2
    have hg : (b && line != [] && !startsWith line ['#']) = true := by
      simp [hb, hne, hcf]
    rw [if_pos hg, if_pos h3]
    rfl
  · rw [if_neg hk]
    by_cases hg : (b && line != [] && !startsWith line ['#']) = true
    · rw [if_pos hg]
      have h3 : ¬ line.any (fun c => c == '=') = true := by
        intro h3
        apply hk
        simp only [Bool.and_eq_true, bne_iff_ne, Bool.not_eq_true'] at hg ⊢
        obtain ⟨⟨hb, _⟩, hcf⟩ := hg
        refine ⟨⟨⟨?_, ?_⟩, h3⟩, hb⟩
        · intro e
          rw [← Bool.not_eq_true, startsWith_one] at hs
          exact hs e
        · intro e
          rw [← Bool.not_eq_true, hc] at hcf
          exact hcf e
      rw [if_neg h3]
    · rw [if_neg hg]

theorem specInDependencies_snoc (before : List (List Char)) (l : List Char) :
    specInDependencies (before ++ [l]) =
      if isSectionHeader l = true then trimSpaceChars l == "[dependencies]".data
      else specInDependencies before := by
  unfold specInDependencies
  rw [List.reverse_append, List.reverse_singleton, List.singleton_append, List.find?]
  cases h : isSectionHeader l <;> simp

theorem isKeyValueLine_header (raw : List Char) (h : isSectionHeader raw = true) :
    isKeyValueLine raw = false := by
  have hh : (trimSpaceChars raw).head? = some '[' := by
    simpa [isSectionHeader] using h
  simp [isKeyValueLine, hh]

/-- The loop of `parseCargoDependencies` with its flag is the selection of
the lines by their nearest preceding header. -/
theorem foldl_cargoLine (lines before : List (List Char)) (deps : GoMap String) :
    lines.foldl cargoLine (specInDependencies before, deps) =
      (specInDependencies (before ++ lines),
        (specCargoSelect before lines).foldl
          (fun deps l => mapSet deps (cargoEntry l).1 (cargoEntry l).2) deps) := by
  induction lines generalizing before deps with
  | nil => simp [specCargoSelect]
  | cons l rest ih =>
    rw [List.foldl_cons]
    have happ : before ++ l :: rest = (before ++ [l]) ++ rest := by simp
    cases hh : isSectionHeader l
    · rw [cargoLine_entry _ _ _ hh]
      have hsn : specInDependencies (before ++ [l]) = specInDependencies before := by
        rw [specInDependencies_snoc, hh]
        rfl
      by_cases hk : (isKeyValueLine l && specInDependencies before) = true
      · rw [if_pos hk, ← hsn, ih, happ]
        simp only [specCargoSelect, hk, if_true, List.foldl_cons]
      · rw [if_neg hk, ← hsn, ih, happ]
        simp only [specCargoSelect, hk, if_false]
        rfl
    · rw [cargoLine_header _ _ hh]
      have hsn : specInDependencies (before ++ [l]) =
          (trimSpaceChars l == "[dependencies]".data) := by
        rw [specInDependencies_snoc, hh]
        rfl
      rw [← hsn, ih, happ]
      simp only [specCargoSelect, isKeyValueLine_header l hh, Bool.false_and,
        Bool.false_eq_true, if_false]

theorem trimSpaceChars_cons_head (c : Char) (l : List Char) (h : isSpace c = false) :
    (trimSpaceChars (c :: l)).head? = some c := by
  unfold trimSpaceChars
  rw [List.dropWhile_cons_of_neg (by simp [h]), rdropWhile_cons]
  by_cases e : l.rdropWhile isSpace = []
  · simp [e, h]
  · simp [e]

theorem longLine_not_header : isSectionHeader longLine = false := by
  have hl : longLine = 'x' :: List.replicate 65535 'x' := rfl
  rw [isSectionHeader, hl, trimSpaceChars_cons_head 'x' _ (by decide)]
  decide

theorem parseCargoDependencies_of_read (d : Dir) (path content : String)
    (hr : readFile d path = some content) :
    parseCargoDependencies d path =
      ((scanLines content.data).foldl cargoLine (false, [])).2 := by
  simp only [parseCargoDependencies, hr]

/-- C15, as stated, fails: under `[dependencies]` a line of 64 KiB stops the
scanner, and the `key = value` line after it, whose nearest preceding header
is `[dependencies]`, contributes nothing. -/
theorem parseCargoDependencies_after_long_line :
    textLines longCargoText =
        ["[dependencies]".data, longLine, "serde = \"1.0\"".data, []] ∧
      specInDependencies ["[dependencies]".data, longLine] = true ∧
      isKeyValueLine "serde = \"1.0\"".data = true ∧
      parseCargoDependencies dirLongCargo "Cargo.toml" = [] := by
  have hsplit : splitWhere (fun c => c == '\n') longCargoText.data =
      "[dependencies]".data :: longLine ::
        splitWhere (fun c => c == '\n') "serde = \"1.0\"\n".data := by
    show splitWhere _ ("[dependencies]".data ++ '\n' ::
      (longLine ++ '\n' :: "serde = \"1.0\"\n".data)) = _
    rw [splitWhere_append_cons _ _ _ _ (by decide) (by decide),
      splitWhere_append_cons _ _ _ _ longLine_no_newline (by decide)]
  refine ⟨?_, ?_, by decide, ?_⟩
  · rw [textLines, hsplit]
    congr 2
  · have h := specInDependencies_snoc ["[dependencies]".data] longLine
    rw [longLine_not_header] at h
    exact h.trans (by decide)
  · have hr : readFile dirLongCargo "Cargo.toml" = some longCargoText := rfl
    have hscan : scanLines longCargoText.data = ["[dependencies]".data] := by
      unfold scanLines
      rw [rawLines_eq, hsplit, dropEmptyLast_cons _ _ (by simp),
        dropEmptyLast_cons _ _ (splitWhere_ne_nil _ _),
        List.takeWhile_cons_of_pos (by decide),
        List.takeWhile_cons_of_neg (by simpa using longLine_too_long)]
      decide
    rw [parseCargoDependencies_of_read dirLongCargo "Cargo.toml" longCargoText hr, hscan]
    rfl

/-- C15, amended: for every `Cargo.toml` content whose lines are all shorter
than 64 KiB, the map returned by `parseCargoDependencies` is built from
exactly the `key = value` lines whose nearest preceding section header is
exactly `[dependencies]`; lines before any header and lines under any other
header contribute nothing. -/
theorem parseCargoDependencies_spec (d : Dir) (path content : String)
    (hr : readFile d path = some content) (hs : shortLines content = true) :
    parseCargoDependencies d path = specCargo content := by
  simp only [parseCargoDependencies, hr]
  rw [foldl_scanLines cargoLine (false, []) content hs]
  · have h := foldl_cargoLine (textLines content) [] []
    have h0 : specInDependencies [] = false := rfl
    rw [h0] at h
    rw [h]
    rfl
  · intro s raw raw' h
    simp only [cargoLine, h]
  · intro s
    obtain ⟨b, deps⟩ := s
    cases b <;> rfl

/-- Witness of C15 amended: entries before any header, under `[package]`,
under `[dev-dependencies]` and under `[dependencies.foo]` are left out. -/
theorem parseCargoDependencies_spec_witness :
    parseCargoDependencies dirSectionsCargo "Cargo.toml" =
      [("serde", "1.0"), ("tokio", "\x7b")] :=
  (parseCargoDependencies_spec dirSectionsCargo "Cargo.toml" sectionsCargoText
    rfl (by decide)).trans (by decide)

/-- The loop body of `parseCargoDependencies` on a `key = value` line when
the flag of the loop is set: the line is split at its first `=`, the name is
the left part without surrounding whitespace and double quotes, the version
the right part without surrounding whitespace and double quotes, cut down to
its first space-separated token. -/
theorem cargoLine_key_value (deps : GoMap String) (raw left right : List Char)
    (hline : trimSpaceChars raw = left ++ '=' :: right) (hleft : ∀ c ∈ left, c ≠ '=')
    (hhead : (trimSpaceChars raw).head? ≠ some '[')
    (hcomment : (trimSpaceChars raw).head? ≠ some '#') :
    cargoLine (true, deps) raw =
      (true, mapSet deps ⟨trimChar '"' (trimSpaceChars left)⟩
        ⟨(trimChar '"' (trimSpaceChars right)).takeWhile (fun c => c != ' ')⟩) := by
  have hh : isSectionHeader raw = false := by
    simpa [isSectionHeader] using hhead
  have hsplit := takeWhile_append_stop (fun c => c != '=') left right '='
    (fun c hc => by simpa using hleft c hc) (by decide)
  have hk : isKeyValueLine raw = true := by
    simp only [isKeyValueLine, Bool.and_eq_true, bne_iff_ne]
    refine ⟨⟨hhead, hcomment⟩, ?_⟩
    rw [hline]
    simp
  rw [cargoLine_entry true deps raw hh, hk]
  simp only [Bool.and_self, if_true, cargoEntry, hline, hsplit.1, hsplit.2]
  rfl

theorem cargoLine_key_value_sample :
    cargoLine (true, []) "  serde = \"1.0\"".data = (true, [("serde", "1.0")]) :=
  (cargoLine_key_value [] "  serde = \"1.0\"".data "serde ".data " \"1.0\"".data
    (by decide) (by decide) (by decide) (by decide)).trans (by decide)

theorem cargoEntry_key_value (raw left right : List Char)
    (hline : trimSpaceChars raw = left ++ '=' :: right) (hleft : ∀ c ∈ left, c ≠ '=') :
    cargoEntry raw = (⟨trimChar '"' (trimSpaceChars left)⟩,
      ⟨(trimChar '"' (trimSpaceChars right)).takeWhile (fun c => c != ' ')⟩) := by
  have hsplit := takeWhile_append_stop (fun c => c != '=') left right '='
    (fun c hc => by simpa using hleft c hc) (by decide)
  simp only [cargoEntry, hline, hsplit.1, hsplit.2]
  rfl

theorem specCargoSelect_append (b x y : List (List Char)) :
    specCargoSelect b (x ++ y) = specCargoSelect b x ++ specCargoSelect (b ++ x) y := by
  induction x generalizing b with
  | nil => simp [specCargoSelect]
  | cons l rest ih =>
    have happ : b ++ l :: rest = (b ++ [l]) ++ rest := by simp
    simp only [List.cons_append, specCargoSelect]
    split_ifs
    · rw [happ]
      exact congrArg (List.cons l) (ih (b ++ [l]))
    · rw [happ]
      exact ih (b ++ [l])

theorem mapGet_foldl_entries (ls : List (List Char)) (m : GoMap String) (k : String)
    (h : ∀ l ∈ ls, (cargoEntry l).1 ≠ k) :
    mapGet (ls.foldl (fun deps l => mapSet deps (cargoEntry l).1 (cargoEntry l).2) m) k =
      mapGet m k := by
  induction ls generalizing m with
  | nil => rfl
  | cons l rest ih =>
    rw [List.foldl_cons, ih _ (fun x hx => h x (List.mem_cons_of_mem _ hx)),
      mapGet_mapSet_other _ _ _ _ (h l (List.mem_cons_self _ _))]

theorem mapHas_foldl_entries (ls : List (List Char)) (m : GoMap String) (k : String)
    (h : mapHas m k = true) :
    mapHas (ls.foldl (fun deps l => mapSet deps (cargoEntry l).1 (cargoEntry l).2) m) k =
      true := by
  induction ls generalizing m with
  | nil => exact h
  | cons l rest ih =>
    rw [List.foldl_cons]
    apply ih
    rw [mapHas]
    by_cases e : (cargoEntry l).1 = k
    · rw [← e, mapGet_mapSet_same]
      rfl
    · rw [mapGet_mapSet_other _ _ _ _ e]
      exact h

/-- C16, as stated, fails: in a `Cargo.toml` whose first line is 64 KiB long
the scanner delivers nothing, and the line `serde = "1.0"` inside the section
`[dependencies]` is not recorded. -/
theorem parseCargoDependencies_line_not_recorded :
    textLines longCargoHead =
        [longLine, "[dependencies]".data, "serde = \"1.0\"".data, []] ∧
      specInDependencies [longLine, "[dependencies]".data] = true ∧
      isKeyValueLine "serde = \"1.0\"".data = true ∧
      cargoEntry "serde = \"1.0\"".data = ("serde", "1.0") ∧
      mapGet (parseCargoDependencies dirLongCargoHead "Cargo.toml") "serde" = none := by
  refine ⟨?_, ?_, by decide, by decide, ?_⟩
  · show splitWhere _ (longLine ++ '\n' :: "[dependencies]\nserde = \"1.0\"\n".data) = _
    rw [splitWhere_append_cons _ _ _ _ longLine_no_newline (by decide)]
    congr 1
  · have h := specInDependencies_snoc [longLine] "[dependencies]".data
    exact h.trans (by decide)
  · have hr : readFile dirLongCargoHead "Cargo.toml" = some longCargoHead := rfl
    rw [parseCargoDependencies_of_read dirLongCargoHead "Cargo.toml" longCargoHead hr]
    show mapGet ((scanLines (longLine ++ '\n' ::
      "[dependencies]\nserde = \"1.0\"\n".data)).foldl cargoLine (false, [])).2 "serde" = none
    rw [scanLines_long_first]
    rfl

/-- C16, amended: for every `Cargo.toml` content whose lines are all shorter
than 64 KiB and every `key = value` line inside the section `[dependencies]`,
`parseCargoDependencies` splits the line at its first `=` and records, in the
map built from the lines before it, as name the left part without surrounding
whitespace and double quotes and as version the right part without
surrounding whitespace and double quotes, cut down to its first
space-separated token; the lines after it are recorded on top.  So the
returned map has the name, and it gives this version for it unless a later
line of the section declares the name again. -/
theorem parseCargoDependencies_key_value (d : Dir) (path content : String)
    (before after : List (List Char)) (raw left right : List Char)
    (hr : readFile d path = some content) (hs : shortLines content = true)
    (hlines : textLines content = before ++ raw :: after)
    (hsec : specInDependencies before = true)
    (hline : trimSpaceChars raw = left ++ '=' :: right) (hleft : ∀ c ∈ left, c ≠ '=')
    (hhead : (trimSpaceChars raw).head? ≠ some '[')
    (hcomment : (trimSpaceChars raw).head? ≠ some '#') :
    parseCargoDependencies d path =
        (specCargoSelect (before ++ [raw]) after).foldl
          (fun deps l => mapSet deps (cargoEntry l).1 (cargoEntry l).2)
          (mapSet ((specCargoSelect [] before).foldl
              (fun deps l => mapSet deps (cargoEntry l).1 (cargoEntry l).2) [])
            ⟨trimChar '"' (trimSpaceChars left)⟩
            ⟨(trimChar '"' (trimSpaceChars right)).takeWhile (fun c => c != ' ')⟩) ∧
      mapHas (parseCargoDependencies d path) ⟨trimChar '"' (trimSpaceChars left)⟩ = true ∧
      ((∀ l ∈ specCargoSelect (before ++ [raw]) after,
          (cargoEntry l).1 ≠ ⟨trimChar '"' (trimSpaceChars left)⟩) →
        mapGet (parseCargoDependencies d path) ⟨trimChar '"' (trimSpaceChars left)⟩ =
          some ⟨(trimChar '"' (trimSpaceChars right)).takeWhile (fun c => c != ' ')⟩) := by
  have hk : isKeyValueLine raw = true := by
    simp only [isKeyValueLine, Bool.and_eq_true, bne_iff_ne]
    refine ⟨⟨hhead, hcomment⟩, ?_⟩
    rw [hline]
    simp
  have he := cargoEntry_key_value raw left right hline hleft
  have hsel : specCargoSelect [] (before ++ raw :: after) =
      specCargoSelect [] before ++ raw :: specCargoSelect (before ++ [raw]) after := by
    rw [specCargoSelect_append, List.nil_append]
    simp only [specCargoSelect, hk, hsec, Bool.and_self, if_true]
  have hmain : parseCargoDependencies d path =
      (specCargoSelect (before ++ [raw]) after).foldl
        (fun deps l => mapSet deps (cargoEntry l).1 (cargoEntry l).2)
        (mapSet ((specCargoSelect [] before).foldl
            (fun deps l => mapSet deps (cargoEntry l).1 (cargoEntry l).2) [])
          ⟨trimChar '"' (trimSpaceChars left)⟩
          ⟨(trimChar '"' (trimSpaceChars right)).takeWhile (fun c => c != ' ')⟩) := by
    have h1 : parseCargoDependencies d path = specCargo content := by
      simp only [parseCargoDependencies, hr]
      rw [foldl_scanLines cargoLine (false, []) content hs]
      · have h := foldl_cargoLine (textLines content) [] []
        have h0 : specInDependencies [] = false := rfl
        rw [h0] at h
        rw [h]
        rfl
      · intro s raw raw' h
        simp only [cargoLine, h]
      · intro s
        obtain ⟨b, deps⟩ := s
        cases b <;> rfl
    rw [h1, specCargo, hlines, hsel, List.foldl_append, List.foldl_cons, he]
  refine ⟨hmain, ?_, ?_⟩
  · rw [hmain]
    apply mapHas_foldl_entries
    rw [mapHas, mapGet_mapSet_same]
    rfl
  · intro hlater
    rw [hmain, mapGet_foldl_entries _ _ _ hlater, mapGet_mapSet_same]

/-- Witness of C16 amended: under `[dependencies]` the line with an inline
table gives `tokio` the version `\x7b`, the first token of the table. -/
theorem parseCargoDependencies_key_value_witness :
    mapGet (parseCargoDependencies dirSectionsCargo "Cargo.toml") "tokio" = some "\x7b" :=
  (parseCargoDependencies_key_value dirSectionsCargo "Cargo.toml" sectionsCargoText
    ["early = \"0\"".data, "[package]".data, "name = \"demo\"".data, "[dependencies]".data,
      "serde = \"1.0\"".data]
    ["# note = \"x\"".data, "[dev-dependencies]".data, "rand = \"0.8\"".data,
      "[dependencies.foo]".data, "version = \"2\"".data, []]
    "tokio = \x7b version = \"1\" \x7d".data "tokio ".data " \x7b version = \"1\" \x7d".data
    rfl (by decide) (by decide) (by decide) (by decide) (by decide) (by decide)
    (by decide)).2.2 (by decide)

/-! ## The claims about `parseGemfile` and `parsePodfile` -/

theorem reSpace_of_isQuote (c : Char) (h : isQuote c = true) : reSpace c = false := by
  simp only [isQuote, Bool.or_eq_true, beq_iff_eq] at h
  rcases h with h | h <;> rw [h] <;> decide

theorem matchQuoted_quoted (q : Char → Bool) (q1 q2 : Char) (name rest : List Char)
    (h1 : q q1 = true) (h2 : q q2 = true) (hne : name ≠ [])
    (hn : ∀ c ∈ name, q c = false) :
    matchQuoted q (q1 :: (name ++ q2 :: rest)) = some (name, rest) := by
  have hs := takeWhile_append_stop (fun x => !q x) name rest q2
    (fun c hc => by simp [hn c hc]) (by simp [h2])
  simp only [matchQuoted, h1, if_true, hs.1, hs.2]
  cases name with
  | nil => exact absurd rfl hne
  | cons a b => rfl

theorem matchQuoted_some (q : Char → Bool) (l n rest : List Char)
    (h : matchQuoted q l = some (n, rest)) :
    ∃ q1 q2, l = q1 :: (n ++ q2 :: rest) ∧ q q1 = true ∧ q q2 = true ∧ n ≠ [] ∧
      ∀ c ∈ n, q c = false := by
  cases l with
  | nil => simp [matchQuoted] at h
  | cons c r =>
    simp only [matchQuoted] at h
    split_ifs at h with hc
    have hsplit := (List.takeWhile_append_dropWhile (fun x => !q x) r).symm
    have hmem : ∀ x ∈ r.takeWhile (fun x => !q x), q x = false := by
      intro x hx
      have := List.mem_takeWhile_imp hx
      simpa using this
    cases ht : r.takeWhile (fun x => !q x) with
    | nil => simp [ht] at h
    | cons b body =>
      cases hd : r.dropWhile (fun x => !q x) with
      | nil => simp [ht, hd] at h
      | cons y after =>
        rw [ht, hd] at h
        simp only [Option.some.injEq, Prod.mk.injEq] at h
        obtain ⟨hn, hr⟩ := h
        have hy : q y = true := by
          have := dropWhile_head_false _ _ _ _ hd
          simpa using this
        refine ⟨c, y, ?_, hc, hy, ?_, ?_⟩
        · rw [hsplit, ht, hd, ← hn, ← hr]
        · rw [← hn]
          simp
        · rw [← hn, ← ht]
          exact hmem

theorem startsWith_append (kw x : List Char) : startsWith (kw ++ x) kw = true := by
  simp [startsWith]

theorem startsWith_eq (l kw : List Char) (h : startsWith l kw = true) :
    l = kw ++ l.drop kw.length := by
  simp only [startsWith, beq_iff_eq] at h
  conv_lhs => rw [← List.take_append_drop kw.length l, h]

theorem matchDepAt_name_only (kw name : List Char) (q1 q2 : Char)
    (h1 : isQuote q1 = true) (h2 : isQuote q2 = true) (hne : name ≠ [])
    (hn : ∀ c ∈ name, isQuote c = false) :
    matchDepAt kw (kw ++ ' ' :: q1 :: (name ++ [q2])) = some (name, []) := by
  have hd : (q1 :: (name ++ [q2])).dropWhile reSpace = q1 :: (name ++ [q2]) :=
    List.dropWhile_cons_of_neg (by simp [reSpace_of_isQuote q1 h1])
  have hsp : reSpace ' ' = true := by decide
  simp only [matchDepAt, startsWith_append, if_true, List.drop_left, hsp, hd,
    matchQuoted_quoted isQuote q1 q2 name [] h1 h2 hne hn]

theorem matchDepAt_name_version (kw name version : List Char) (q1 q2 q3 q4 : Char)
    (h1 : isQuote q1 = true) (h2 : isQuote q2 = true) (h3 : isQuote q3 = true)
    (h4 : isQuote q4 = true) (hne : name ≠ []) (hn : ∀ c ∈ name, isQuote c = false)
    (hve : version ≠ []) (hv : ∀ c ∈ version, isQuote c = false) :
    matchDepAt kw (kw ++ ' ' :: q1 :: (name ++ q2 :: ',' :: ' ' :: q3 :: (version ++ [q4]))) =
      some (name, version) := by
  have hd : (q1 :: (name ++ q2 :: ',' :: ' ' :: q3 :: (version ++ [q4]))).dropWhile reSpace =
      q1 :: (name ++ q2 :: ',' :: ' ' :: q3 :: (version ++ [q4])) :=
    List.dropWhile_cons_of_neg (by simp [reSpace_of_isQuote q1 h1])
  have hd2 : (' ' :: q3 :: (version ++ [q4])).dropWhile reSpace = q3 :: (version ++ [q4]) := by
    rw [List.dropWhile_cons_of_pos (by decide),
      List.dropWhile_cons_of_neg (by simp [reSpace_of_isQuote q3 h3])]
  have hsp : reSpace ' ' = true := by decide
  simp only [matchDepAt, startsWith_append, if_true, List.drop_left, hsp, hd,
    matchQuoted_quoted isQuote q1 q2 name _ h1 h2 hne hn, hd2,
    matchQuoted_quoted isQuote q3 q4 version [] h3 h4 hve hv]

theorem findDep_head (kw l : List Char) (m : List Char × List Char)
    (h : matchDepAt kw l = some m) : findDep kw l = some m := by
  cases l with
  | nil => simp [matchDepAt, startsWith] at h
  | cons c cs => simp only [findDep, h]

theorem matchDepAt_some (kw l n v : List Char) (h : matchDepAt kw l = some (n, v)) :
    ∃ sp ws q1 q2 rest, l = kw ++ sp :: (ws ++ q1 :: (n ++ q2 :: rest)) ∧
      reSpace sp = true ∧ (∀ c ∈ ws, reSpace c = true) ∧ isQuote q1 = true ∧
      isQuote q2 = true ∧ n ≠ [] ∧ ∀ c ∈ n, isQuote c = false := by
  simp only [matchDepAt] at h
  split_ifs at h with hk
  have hl := startsWith_eq l kw hk
  cases hdrop : l.drop kw.length with
  | nil => simp [hdrop] at h
  | cons c r =>
    rw [hdrop] at h hl
    simp only at h
    split_ifs at h with hc
    cases hm : matchQuoted isQuote (r.dropWhile reSpace) with
    | none => simp [hm] at h
    | some w =>
      obtain ⟨name, rest⟩ := w
      rw [hm] at h
      have hname : name = n := by
        simp only at h
        split at h
        · split at h
          · simp only [Option.some.injEq, Prod.mk.injEq] at h
            exact h.1
          · simp only [Option.some.injEq, Prod.mk.injEq] at h
            exact h.1
        · simp only [Option.some.injEq, Prod.mk.injEq] at h
          exact h.1
      obtain ⟨q1, q2, e, hq1, hq2, hne, hfree⟩ := matchQuoted_some isQuote _ _ _ hm
      refine ⟨c, r.takeWhile reSpace, q1, q2, rest, ?_, hc, ?_, hq1, hq2, hname ▸ hne,
        hname ▸ hfree⟩
      · rw [hl]
        congr 2
        rw [← hname, ← e, List.takeWhile_append_dropWhile]
      · intro x hx
        exact List.mem_takeWhile_imp hx

theorem findDep_some (kw l n v : List Char) (h : findDep kw l = some (n, v)) :
    depPattern kw l n := by
  induction l with
  | nil => simp [findDep] at h
  | cons c cs ih =>
    simp only [findDep] at h
    cases hm : matchDepAt kw (c :: cs) with
    | some m =>
      rw [hm] at h
      simp only [Option.some.injEq] at h
      rw [h] at hm
      obtain ⟨sp, ws, q1, q2, rest, e, h1, h2, h3, h4, h5, h6⟩ := matchDepAt_some kw _ n v hm
      exact ⟨[], sp, ws, q1, q2, rest, by simpa using e, h1, h2, h3, h4, h5, h6⟩
    | none =>
      rw [hm] at h
      obtain ⟨pre, sp, ws, q1, q2, rest, e, h1, h2, h3, h4, h5, h6⟩ := ih h
      exact ⟨c :: pre, sp, ws, q1, q2, rest, by rw [e]; rfl, h1, h2, h3, h4, h5, h6⟩

theorem findDep_none (kw l : List Char) (h : ¬ ∃ name, depPattern kw l name) :
    findDep kw l = none := by
  cases hf : findDep kw l with
  | none => rfl
  | some m =>
    obtain ⟨n, v⟩ := m
    exact absurd ⟨n, findDep_some kw l n v hf⟩ h

theorem depLine_name_only (kw kwsp name : List Char) (q1 q2 : Char)
    (hk : kwsp = kw ++ [' ']) (h1 : isQuote q1 = true) (h2 : isQuote q2 = true)
    (hne : name ≠ []) (hn : ∀ c ∈ name, isQuote c = false) :
    startsWith (kwsp ++ q1 :: (name ++ [q2])) kwsp = true ∧
      findDep kw (kwsp ++ q1 :: (name ++ [q2])) = some (name, []) := by
  refine ⟨startsWith_append _ _, ?_⟩
  apply findDep_head
  rw [hk, List.append_assoc]
  exact matchDepAt_name_only kw name q1 q2 h1 h2 hne hn

theorem depLine_name_version (kw kwsp name version : List Char) (q1 q2 q3 q4 : Char)
    (hk : kwsp = kw ++ [' ']) (h1 : isQuote q1 = true) (h2 : isQuote q2 = true)
    (h3 : isQuote q3 = true) (h4 : isQuote q4 = true) (hne : name ≠ [])
    (hn : ∀ c ∈ name, isQuote c = false) (hve : version ≠ [])
    (hv : ∀ c ∈ version, isQuote c = false) :
    startsWith (kwsp ++ q1 :: (name ++ q2 :: ',' :: ' ' :: q3 :: (version ++ [q4]))) kwsp =
        true ∧
      findDep kw (kwsp ++ q1 :: (name ++ q2 :: ',' :: ' ' :: q3 :: (version ++ [q4]))) =
        some (name, version) := by
  refine ⟨startsWith_append _ _, ?_⟩
  apply findDep_head
  rw [hk, List.append_assoc]
  exact matchDepAt_name_version kw name version q1 q2 q3 q4 h1 h2 h3 h4 hne hn hve hv

theorem matchDepAt_pattern (kw ws name rest : List Char) (sp q1 q2 : Char)
    (hsp : reSpace sp = true) (hws : ∀ c ∈ ws, reSpace c = true) (h1 : isQuote q1 = true)
    (h2 : isQuote q2 = true) (hne : name ≠ []) (hn : ∀ c ∈ name, isQuote c = false) :
    matchDepAt kw (kw ++ sp :: (ws ++ q1 :: (name ++ q2 :: rest))) =
      match rest with
      | ',' :: r2 =>
        match matchQuoted isQuote (r2.dropWhile reSpace) with
        | some (ver, _) => some (name, ver)
        | none => some (name, [])
      | _ => some (name, []) := by
  have hd := (takeWhile_append_stop reSpace ws (name ++ q2 :: rest) q1 hws
    (reSpace_of_isQuote q1 h1)).2
  simp only [matchDepAt, startsWith_append, if_true, List.drop_left, hsp, hd,
    matchQuoted_quoted isQuote q1 q2 name rest h1 h2 hne hn]

theorem matchDepAt_version (kw line name rest ver : List Char)
    (hp : depPatternAt kw line [] name rest) (hv : versionAfter rest ver) :
    matchDepAt kw line = some (name, ver) := by
  obtain ⟨sp, ws, q1, q2, e, hsp, hws, h1, h2, hne, hn⟩ := hp
  obtain ⟨ws', q3, q4, tail, er, hws', h3, h4, hve, hvn⟩ := hv
  rw [List.nil_append] at e
  rw [e, matchDepAt_pattern kw ws name rest sp q1 q2 hsp hws h1 h2 hne hn, er]
  have hd := (takeWhile_append_stop reSpace ws' (ver ++ q4 :: tail) q3 hws'
    (reSpace_of_isQuote q3 h3)).2
  simp only [hd, matchQuoted_quoted isQuote q3 q4 ver tail h3 h4 hve hvn]

theorem matchDepAt_no_version (kw line name rest : List Char)
    (hp : depPatternAt kw line [] name rest) (hv : ¬ ∃ ver, versionAfter rest ver) :
    matchDepAt kw line = some (name, []) := by
  obtain ⟨sp, ws, q1, q2, e, hsp, hws, h1, h2, hne, hn⟩ := hp
  rw [List.nil_append] at e
  rw [e, matchDepAt_pattern kw ws name rest sp q1 q2 hsp hws h1 h2 hne hn]
  split
  · rename_i r2
    cases hm : matchQuoted isQuote (r2.dropWhile reSpace) with
    | none => rfl
    | some w =>
      obtain ⟨ver, tail⟩ := w
      obtain ⟨q3, q4, e3, h3, h4, hve, hvn⟩ := matchQuoted_some isQuote _ _ _ hm
      exfalso
      apply hv
      refine ⟨ver, r2.takeWhile reSpace, q3, q4, tail, ?_, ?_, h3, h4, hve, hvn⟩
      · rw [← e3, List.takeWhile_append_dropWhile]
      · intro x hx
        exact List.mem_takeWhile_imp hx
  · rfl

theorem depPatternAt_drop (kw line pre name rest : List Char)
    (hp : depPatternAt kw line pre name rest) :
    depPatternAt kw (line.drop pre.length) [] name rest := by
  obtain ⟨sp, ws, q1, q2, e, h⟩ := hp
  exact ⟨sp, ws, q1, q2, by rw [e, List.drop_left]; rfl, h⟩

theorem findDep_first (kw line pre name rest : List Char)
    (hp : depPatternAt kw line pre name rest)
    (hmin : ∀ pre' name' rest', depPatternAt kw line pre' name' rest' →
      pre.length ≤ pre'.length) :
    findDep kw line = matchDepAt kw (line.drop pre.length) := by
  induction pre generalizing line with
  | nil =>
    rw [List.length_nil, List.drop_zero]
    obtain ⟨sp, ws, q1, q2, e, hsp, hws, h1, h2, hne, hn⟩ := hp
    have hsome : ∃ m, matchDepAt kw line = some m := by
      rw [List.nil_append] at e
      rw [e, matchDepAt_pattern kw ws name rest sp q1 q2 hsp hws h1 h2 hne hn]
      split
      · split
        · exact ⟨_, rfl⟩
        · exact ⟨_, rfl⟩
      · exact ⟨_, rfl⟩
    obtain ⟨m, hm⟩ := hsome
    rw [hm]
    exact findDep_head kw line m hm
  | cons c pre' ih =>
    obtain ⟨sp, ws, q1, q2, e, hr⟩ := hp
    have hnone : matchDepAt kw line = none := by
      cases hm : matchDepAt kw line with
      | none => rfl
      | some m =>
        obtain ⟨n, v⟩ := m
        obtain ⟨sp', ws', q1', q2', rest', e', hr'⟩ := matchDepAt_some kw line n v hm
        have := hmin [] n rest' ⟨sp', ws', q1', q2', by rw [List.nil_append]; exact e', hr'⟩
        simp at this
    have hline : line = c :: (pre' ++ (kw ++ sp :: (ws ++ q1 :: (name ++ q2 :: rest)))) := by
      rw [e]
      rfl
    have hf : findDep kw line =
        findDep kw (pre' ++ (kw ++ sp :: (ws ++ q1 :: (name ++ q2 :: rest)))) := by
      rw [hline] at hnone ⊢
      rw [findDep, hnone]
    rw [hf, hline, List.length_cons, List.drop_succ_cons]
    apply ih
    · exact ⟨sp, ws, q1, q2, rfl, hr⟩
    · intro pre'' name'' rest'' hp''
      obtain ⟨sp', ws', q1', q2', e', hr'⟩ := hp''
      have := hmin (c :: pre'') name'' rest'' ⟨sp', ws', q1', q2',
        by rw [hline, e']; rfl, hr'⟩
      simpa using this

theorem findDep_first_match (kw line name rest : List Char)
    (hm : firstDepMatch kw line name rest) :
    (∀ ver, versionAfter rest ver → findDep kw line = some (name, ver) ∧ ver ≠ []) ∧
      ((¬ ∃ ver, versionAfter rest ver) → findDep kw line = some (name, [])) := by
  obtain ⟨pre, hp, hmin⟩ := hm
  have hf := findDep_first kw line pre name rest hp hmin
  have hd := depPatternAt_drop kw line pre name rest hp
  constructor
  · intro ver hv
    rw [hf, matchDepAt_version kw _ name rest ver hd hv]
    obtain ⟨_, _, _, _, _, _, _, _, hve, _⟩ := hv
    exact ⟨rfl, hve⟩
  · intro hv
    rw [hf, matchDepAt_no_version kw _ name rest hd hv]

/-- C17, as stated, fails: the line `gem tool # gem 'rake'` is not of the
form `gem '<name>'` (no quote follows `gem `), and yet it contributes `rake`:
the pattern is searched for anywhere in a line that begins with `gem `. -/
theorem parseGemfile_odd_line :
    oddGemLine.take 5 = "gem t".data ∧
      parseGemfile dirOddGemfile "Gemfile" = [("rake", "latest")] := by
  decide

/-- C17, amended: for a line delivered by the scanner that after trimming is
`gem `, a quoted non-empty name free of quotes, optionally followed by `, `
and a quoted non-empty version free of quotes, the loop of `parseGemfile`
maps the name to the version, and to `latest` when the version is missing.
A line contributes nothing when it does not begin with `gem ` or when the
pattern (`gem`, whitespace, quoted name) occurs nowhere in it; a line that
begins with `gem ` and contains the pattern contributes its leftmost
occurrence: the name of that occurrence, with the version that follows it
after a comma, and with `latest` when none follows.  The loop of
`parsePodfile` does the same with `pod`; the two functions run their loops
over the lines that the scanner delivers. -/
theorem gemfileLine_podfileLine_spec (deps : GoMap String) (raw : List Char) :
    (∀ name q1 q2, isQuote q1 = true → isQuote q2 = true → name ≠ [] →
        (∀ c ∈ name, isQuote c = false) →
        trimSpaceChars raw = "gem ".data ++ q1 :: (name ++ [q2]) →
        gemfileLine deps raw = mapSet deps ⟨name⟩ "latest") ∧
      (∀ name version q1 q2 q3 q4, isQuote q1 = true → isQuote q2 = true →
        isQuote q3 = true → isQuote q4 = true → name ≠ [] →
        (∀ c ∈ name, isQuote c = false) → version ≠ [] →
        (∀ c ∈ version, isQuote c = false) →
        trimSpaceChars raw =
          "gem ".data ++ q1 :: (name ++ q2 :: ',' :: ' ' :: q3 :: (version ++ [q4])) →
        gemfileLine deps raw = mapSet deps ⟨name⟩ ⟨version⟩) ∧
      (startsWith (trimSpaceChars raw) "gem ".data = false ∨
          (¬ ∃ name, depPattern "gem".data (trimSpaceChars raw) name) →
        gemfileLine deps raw = deps) ∧
      (∀ name q1 q2, isQuote q1 = true → isQuote q2 = true → name ≠ [] →
        (∀ c ∈ name, isQuote c = false) →
        trimSpaceChars raw = "pod ".data ++ q1 :: (name ++ [q2]) →
        podfileLine deps raw = mapSet deps ⟨name⟩ "latest") ∧
      (∀ name version q1 q2 q3 q4, isQuote q1 = true → isQuote q2 = true →
        isQuote q3 = true → isQuote q4 = true → name ≠ [] →
        (∀ c ∈ name, isQuote c = false) → version ≠ [] →
        (∀ c ∈ version, isQuote c = false) →
        trimSpaceChars raw =
          "pod ".data ++ q1 :: (name ++ q2 :: ',' :: ' ' :: q3 :: (version ++ [q4])) →
        podfileLine deps raw = mapSet deps ⟨name⟩ ⟨version⟩) ∧
      (startsWith (trimSpaceChars raw) "pod ".data = false ∨
          (¬ ∃ name, depPattern "pod".data (trimSpaceChars raw) name) →
        podfileLine deps raw = deps) ∧
      (∀ name rest, startsWith (trimSpaceChars raw) "gem ".data = true →
        firstDepMatch "gem".data (trimSpaceChars raw) name rest →
        (∀ ver, versionAfter rest ver → gemfileLine deps raw = mapSet deps ⟨name⟩ ⟨ver⟩) ∧
          ((¬ ∃ ver, versionAfter rest ver) →
            gemfileLine deps raw = mapSet deps ⟨name⟩ "latest")) ∧
      (∀ name rest, startsWith (trimSpaceChars raw) "pod ".data = true →
        firstDepMatch "pod".data (trimSpaceChars raw) name rest →
        (∀ ver, versionAfter rest ver → podfileLine deps raw = mapSet deps ⟨name⟩ ⟨ver⟩) ∧
          ((¬ ∃ ver, versionAfter rest ver) →
            podfileLine deps raw = mapSet deps ⟨name⟩ "latest")) ∧
      (∀ (d : Dir) (path content : String), readFile d path = some content →
        parseGemfile d path = (scanLines content.data).foldl gemfileLine [] ∧
          parsePodfile d path = (scanLines content.data).foldl podfileLine []) := by
  refine ⟨?_, ?_, ?_, ?_, ?_, ?_, ?_, ?_, ?_⟩
  · intro name q1 q2 h1 h2 hne hn hline
    have h := depLine_name_only "gem".data "gem ".data name q1 q2 rfl h1 h2 hne hn
    simp only [gemfileLine, hline, h.1, h.2, if_true]
    rfl
  · intro name version q1 q2 q3 q4 h1 h2 h3 h4 hne hn hve hv hline
    have h := depLine_name_version "gem".data "gem ".data name version q1 q2 q3 q4 rfl
      h1 h2 h3 h4 hne hn hve hv
    have hb : (version != []) = true := by simpa using hve
    simp only [gemfileLine, hline, h.1, h.2, if_true, hb]
  · rintro (h | h)
    · simp only [gemfileLine, h, Bool.false_eq_true, if_false]
    · simp only [gemfileLine, findDep_none _ _ h]
      split_ifs <;> rfl
  · intro name q1 q2 h1 h2 hne hn hline
    have h := depLine_name_only "pod".data "pod ".data name q1 q2 rfl h1 h2 hne hn
    simp only [podfileLine, hline, h.1, h.2, if_true]
    rfl
  · intro name version q1 q2 q3 q4 h1 h2 h3 h4 hne hn hve hv hline
    have h := depLine_name_version "pod".data "pod ".data name version q1 q2 q3 q4 rfl
      h1 h2 h3 h4 hne hn hve hv
    have hb : (version != []) = true := by simpa using hve
    simp only [podfileLine, hline, h.1, h.2, if_true, hb]
  · rintro (h | h)
    · simp only [podfileLine, h, Bool.false_eq_true, if_false]
    · simp only [podfileLine, findDep_none _ _ h]
      split_ifs <;> rfl
  · intro name rest hst hm
    have h := findDep_first_match "gem".data _ name rest hm
    constructor
    · intro ver hv
      have hb : (ver != []) = true := by simpa using (h.1 ver hv).2
      simp only [gemfileLine, hst, if_true, (h.1 ver hv).1, hb]
    · intro hv
      simp only [gemfileLine, hst, if_true, h.2 hv]
      rfl
  · intro name rest hst hm
    have h := findDep_first_match "pod".data _ name rest hm
    constructor
    · intro ver hv
      have hb : (ver != []) = true := by simpa using (h.1 ver hv).2
      simp only [podfileLine, hst, if_true, (h.1 ver hv).1, hb]
    · intro hv
      simp only [podfileLine, hst, if_true, h.2 hv]
      rfl
  · intro d path content hr
    simp only [parseGemfile, parsePodfile, hr, and_self]

/-- Witness of C17 amended: the indented line `gem 'rails', '7.0'`, the line
`pod 'Alamofire'`, and the line `gem 'rails', '7.0', require: false`, whose
leftmost occurrence of the pattern is at its beginning. -/
theorem gemfileLine_podfileLine_spec_witness :
    gemfileLine [] sampleGemLine = [("rails", "7.0")] ∧
      podfileLine [] samplePodLine = [("Alamofire", "latest")] ∧
      gemfileLine [] optionGemLine = [("rails", "7.0")] :=
  ⟨((gemfileLine_podfileLine_spec [] sampleGemLine).2.1 "rails".data "7.0".data apostrophe
      apostrophe apostrophe apostrophe (by decide) (by decide) (by decide) (by decide)
      (by decide) (by decide) (by decide) (by decide) (by decide)).trans (by decide),
    ((gemfileLine_podfileLine_spec [] samplePodLine).2.2.2.1 "Alamofire".data apostrophe
      apostrophe (by decide) (by decide) (by decide) (by decide) (by decide)).trans
      (by decide),
    (((gemfileLine_podfileLine_spec [] optionGemLine).2.2.2.2.2.2.1 "rails".data
      (',' :: ' ' :: apostrophe :: ("7.0".data ++ apostrophe :: ", require: false".data))
      (by decide)
      ⟨[], ⟨' ', [], apostrophe, apostrophe, by decide, by decide, by decide, by decide,
        by decide, by decide, by decide⟩, fun _ _ _ _ => Nat.zero_le _⟩).1 "7.0".data
      ⟨[' '], apostrophe, apostrophe, ", require: false".data, rfl, by decide, by decide,
        by decide, by decide, by decide⟩).trans (by decide)⟩

/-! ## The claims about the inferred language and the config files -/

theorem scanManifests_none (lib : Lib) (d : Dir)
    (hpkg : fileExists d "package.json" = false)
    (hnone : ∀ m ∈ manifestDefaults, fileExists d m.1 = false) :
    scanManifests lib d "" = initialScan := by
  simp only [manifestDefaults, List.forall_mem_cons, List.not_mem_nil, false_implies,
    implies_true, and_true] at hnone
  obtain ⟨h1, h2, h3, h4, h5, h6⟩ := hnone
  simp only [scanManifests]
  rw [stepPackageJSON_absent lib d _ hpkg, stepManifest_absent d _ _ _ _ _ _ h1,
    stepManifest_absent d _ _ _ _ _ _ h2, stepManifest_absent d _ _ _ _ _ _ h3,
    stepManifest_absent d _ _ _ _ _ _ h4, stepManifest_absent d _ _ _ _ _ _ h5,
    stepManifest_absent d _ _ _ _ _ _ h6, norm_empty]
  rfl

/-- C21: in a directory without any manifest file and with an empty forced
language, no manifest block changes the variables, and the language that
`scanProject` returns is determined by the suffix of the entrypoint that the
`Procfile`, the two config files and the candidate search have adopted: `ts`
for `.ts` or `.tsx`, `python` for `.py`, `rust` for `.rs`, and `js` otherwise;
an adopted entrypoint is the one returned, and when none was adopted the
language is `js`. -/
theorem scanProject_language_inferred (lib : Lib) (d : Dir)
    (hpkg : fileExists d "package.json" = false)
    (hnone : ∀ m ∈ manifestDefaults, fileExists d m.1 = false) :
    scanManifests lib d "" = initialScan ∧
      (scanProject lib d "").language =
        (if endsWith (scanEntry d initialScan).entry ".ts" ||
            endsWith (scanEntry d initialScan).entry ".tsx" then "ts"
        else if endsWith (scanEntry d initialScan).entry ".py" then "python"
        else if endsWith (scanEntry d initialScan).entry ".rs" then "rust"
        else "js") ∧
      ((scanEntry d initialScan).entry ≠ "" →
        (scanProject lib d "").entry = (scanEntry d initialScan).entry) ∧
      ((scanEntry d initialScan).entry = "" → (scanProject lib d "").language = "js") := by
  have h0 := scanManifests_none lib d hpkg hnone
  have hl : (scanProject lib d "").language = inferLanguage (scanEntry d initialScan).entry := by
    rw [scanProject_language, stepLanguage_language_infer, h0, (scanEntry_frame d _).1]
    rfl
  refine ⟨h0, hl, ?_, ?_⟩
  · intro hne
    have hO := stepLanguage_origin (scanEntry d initialScan)
    rw [scanProject, h0, stepDefault_keep _ (by rw [hO.1]; exact hne), hO.1]
  · intro he
    rw [hl, he]
    decide

/-- Witness of C21: a directory whose only file is a `Procfile` with the line
`web: node src/index.js` gives the language `js`. -/
theorem scanProject_language_inferred_witness :
    (scanProject sampleLib dirNodeProcfile "").language = "js" ∧
      (scanProject sampleLib dirNodeProcfile "").entry = "src/index.js" :=
  have h := scanProject_language_inferred sampleLib dirNodeProcfile (by decide) (by decide)
  ⟨h.2.1.trans (by decide), (h.2.2.1 (by decide)).trans (by decide)⟩

/-! ## The texts of the synthesizer -/

theorem foldl_append_data {α : Type} (f : α → String) (l : List α) (b : String) :
    (l.foldl (fun b x => b ++ f x) b).data = b.data ++ (l.map (fun x => (f x).data)).flatten := by
  induction l generalizing b with
  | nil => simp
  | cons x xs ih => simp [ih, String.data_append]

theorem unlines_append (a b : List (List Char)) : unlines (a ++ b) = unlines a ++ unlines b := by
  simp [unlines]

theorem unlines_cons (l : List Char) (ls : List (List Char)) :
    unlines (l :: ls) = l ++ '\n' :: unlines ls := by
  simp [unlines]

theorem unlines_nil : unlines [] = [] := rfl

theorem unlines_cons_append (l : List Char) (ls : List (List Char)) :
    unlines (l :: ls) = l ++ (['\n'] ++ unlines ls) := by
  simp [unlines]

theorem sections_data (allDeps : GoMap (GoMap String)) (b : String) :
    (allDeps.foldl (fun b e =>
      if e.2.length > 0 then
        e.2.foldl (fun b kv => b ++ (kv.1 ++ " = \"" ++ kv.2 ++ "\"\n"))
          (b ++ ("[dependencies." ++ e.1 ++ "]\n")) ++ "\n"
      else b) b).data = b.data ++ unlines (dependencyLines allDeps) := by
  induction allDeps generalizing b with
  | nil => simp [dependencyLines, unlines]
  | cons e es ih =>
    rw [List.foldl_cons, ih]
    simp only [dependencyLines, List.map_cons, List.flatten_cons, unlines_append, sectionLines]
    split_ifs with h
    · simp only [String.data_append, foldl_append_data, unlines_cons, unlines_append,
        List.append_assoc, headerLine, dependencyLine]
      simp [unlines, List.append_assoc, Function.comp_def, dependencyLine]
    · simp [unlines]

theorem generatePhantomToml_data (created project language entry : String) (guessed : Bool)
    (allDeps : GoMap (GoMap String)) (secretsRuntime : Bool) :
    (generatePhantomToml created project language entry guessed allDeps secretsRuntime).data =
      unlines (repositoryLines created project language entry guessed ++
        (dependencyLines allDeps ++ (runtimeLines language ++ secretsLines secretsRuntime))) := by
  cases guessed <;> cases secretsRuntime <;>
  · simp only [generatePhantomToml, unlines_append, String.data_append, sections_data,
      repositoryLines, runtimeLines, secretsLines, unlines_cons_append, unlines_nil, if_true,
      Bool.false_eq_true, if_false, List.append_assoc]
    rfl

set_option maxRecDepth 4000 in
theorem generatePhantomLock_data (generated project language : String)
    (allDeps : GoMap (GoMap String)) :
    (generatePhantomLock generated project language allDeps).data =
      unlines (preambleLines generated project language ++
        (environmentLines (specSetup language) (lockRuntime language) ++
          dependencyLines allDeps)) := by
  simp only [generatePhantomLock, unlines_append, sections_data, specSetup, lockRuntime,
    environmentLines]
  split_ifs <;>
  · simp only [String.data_append, preambleLines, unlines_cons_append, unlines_nil,
      List.append_assoc]
    rfl

theorem lines_unlines (ls : List (List Char)) (rest : List Char)
    (h : ls.all lineChars = true) :
    splitWhere (fun c => c == '\n') (unlines ls ++ rest) =
      ls ++ splitWhere (fun c => c == '\n') rest := by
  induction ls with
  | nil => rfl
  | cons l ls ih =>
    rw [List.all_cons, Bool.and_eq_true] at h
    rw [unlines_cons, List.append_assoc, List.cons_append,
      splitWhere_append_cons _ l _ '\n' _ (by decide), ih h.2]
    · rfl
    · intro x hx
      have := List.all_eq_true.mp h.1 x hx
      simpa using this

theorem textLines_unlines (ls : List (List Char)) (h : ls.all lineChars = true) :
    splitWhere (fun c => c == '\n') (unlines ls) = ls ++ [[]] := by
  have := lines_unlines ls [] h
  rw [List.append_nil] at this
  exact this

theorem dependencyLines_lineChars (allDeps : GoMap (GoMap String))
    (h : depsOneLine allDeps = true) : (dependencyLines allDeps).all lineChars = true := by
  induction allDeps with
  | nil => rfl
  | cons e es ih =>
    rw [depsOneLine, List.all_cons, Bool.and_eq_true, Bool.and_eq_true] at h
    obtain ⟨⟨ht, he⟩, hes⟩ := h
    rw [dependencyLines, List.map_cons, List.flatten_cons, List.all_append, Bool.and_eq_true]
    refine ⟨?_, ih hes⟩
    rw [sectionLines]
    split_ifs
    · rw [List.all_cons, List.all_append, Bool.and_eq_true, Bool.and_eq_true]
      refine ⟨?_, ?_, by decide⟩
      · simp only [oneLine, lineChars] at ht
        simp only [headerLine, lineChars, List.all_append, ht, Bool.and_eq_true]
        decide
      · rw [List.all_eq_true]
        intro l hl
        obtain ⟨kv, hkv, rfl⟩ := List.mem_map.mp hl
        have := List.all_eq_true.mp he kv hkv
        simp only [oneLine, lineChars, Bool.and_eq_true] at this
        simp only [dependencyLine, lineChars, List.all_append, this.1, this.2,
          Bool.and_eq_true]
        decide
    · rfl

theorem tomlLines_lineChars (created project language entry : String) (guessed : Bool)
    (secretsRuntime : Bool) (h1 : oneLine created = true) (h2 : oneLine project = true)
    (h3 : oneLine language = true) (h4 : oneLine entry = true) :
    (repositoryLines created project language entry guessed).all lineChars = true ∧
      (runtimeLines language ++ secretsLines secretsRuntime).all lineChars = true := by
  simp only [oneLine, lineChars] at h1 h2 h3 h4
  cases guessed <;> cases secretsRuntime <;>
  · simp only [repositoryLines, runtimeLines, secretsLines, lineChars, List.all_cons,
      List.all_append, List.all_nil, h1, h2, h3, h4, List.cons_append, List.nil_append,
      if_true, Bool.false_eq_true, if_false]
    decide

theorem textLines_generatePhantomToml (created project language entry : String)
    (guessed : Bool) (allDeps : GoMap (GoMap String)) (secretsRuntime : Bool)
    (h1 : oneLine created = true) (h2 : oneLine project = true)
    (h3 : oneLine language = true) (h4 : oneLine entry = true)
    (h5 : depsOneLine allDeps = true) :
    textLines (generatePhantomToml created project language entry guessed allDeps
        secretsRuntime) =
      repositoryLines created project language entry guessed ++
        (dependencyLines allDeps ++ (runtimeLines language ++ secretsLines secretsRuntime)) ++
        [[]] := by
  have h := tomlLines_lineChars created project language entry guessed secretsRuntime
    h1 h2 h3 h4
  rw [textLines, generatePhantomToml_data]
  apply textLines_unlines _
  rw [List.all_append, List.all_append, h.1, h.2, dependencyLines_lineChars allDeps h5]
  rfl

/-! ## The claims about the fixed parts of the two texts -/

/-- C25: the text of `generatePhantomToml` begins with the header
`[repository]`, the project line, the line `version = "0.1.0"` and the entry
line; the entry line is `entry = "<entrypoint>"` followed by the suffix
` # please update to correct entrypoint` when `guessed` is true, and is
`entry = "<entrypoint>"` alone when `guessed` is false, so that it carries the
suffix if and only if `guessed` is true. -/
theorem generatePhantomToml_repository (created project language entry : String)
    (guessed : Bool) (allDeps : GoMap (GoMap String)) (secretsRuntime : Bool) :
    ∃ line rest,
      (generatePhantomToml created project language entry guessed allDeps
          secretsRuntime).data =
        unlines ["[repository]".data, "project = \"".data ++ project.data ++ "\"".data,
          "version = \"0.1.0\"".data] ++ (line ++ '\n' :: rest) ∧
      (guessed = true → line = "entry = \"".data ++ entry.data ++
        "\" # please update to correct entrypoint".data) ∧
      (guessed = false → line = "entry = \"".data ++ entry.data ++ "\"".data) ∧
      (line = "entry = \"".data ++ entry.data ++ "\"".data ++
        " # please update to correct entrypoint".data ↔ guessed = true) := by
  refine ⟨"entry = \"".data ++ entry.data ++ "\"".data ++
      (if guessed then " # please update to correct entrypoint".data else []),
    unlines (["language = \"".data ++ language.data ++ "\"".data,
      "created_at = \"".data ++ created.data ++ "\"".data, []] ++
      (dependencyLines allDeps ++ (runtimeLines language ++ secretsLines secretsRuntime))),
    ?_, ?_, ?_, ?_⟩
  · rw [generatePhantomToml_data]
    simp only [repositoryLines, unlines_cons, unlines_nil, List.cons_append, List.nil_append,
      List.append_assoc, List.append_nil]
  · intro h
    rw [h, if_pos rfl, List.append_assoc]
    rfl
  · intro h
    rw [h]
    simp
  · cases guessed
    · simp
    · simp

/-- C26: the text of `generatePhantomLock` is its preamble, the section
`[environment]` with the setup command that the table of the specification
gives for the language and a runtime name, and the dependency snapshot; for a
language outside the table the setup command is the placeholder
`# install dependencies for your runtime` and the runtime is `custom`. -/
theorem generatePhantomLock_environment (generated project language : String)
    (allDeps : GoMap (GoMap String)) :
    (generatePhantomLock generated project language allDeps).data =
        unlines (preambleLines generated project language) ++
          (unlines ["[environment]".data,
            "setup = \"".data ++ (specSetup language).data ++ "\"".data,
            "runtime = \"".data ++ (lockRuntime language).data ++ "\"".data, []] ++
          unlines ("[dependencies]".data :: dependencyLines allDeps)) ∧
      (language ∉ setupLanguages →
        specSetup language = "# install dependencies for your runtime" ∧
          lockRuntime language = "custom") := by
  constructor
  · rw [generatePhantomLock_data]
    simp only [environmentLines, unlines_append, unlines_cons, unlines_nil, List.cons_append,
      List.nil_append, List.append_assoc, List.append_nil]
  · intro h
    simp only [setupLanguages, List.mem_cons, List.mem_singleton, List.not_mem_nil, or_false,
      not_or] at h
    obtain ⟨h1, h2, h3, h4, h5, h6, h7, h8⟩ := h
    simp [specSetup, lockRuntime, h1, h2, h3, h4, h5, h6, h7, h8]

theorem dependencyLines_cases (allDeps : GoMap (GoMap String)) (l : List Char)
    (hl : l ∈ dependencyLines allDeps) :
    l = [] ∨ (∃ e ∈ allDeps, ∃ kv ∈ e.2, l = dependencyLine kv) ∨
      ∃ e ∈ allDeps, e.2.length > 0 ∧ l = headerLine e.1 := by
  simp only [dependencyLines, List.mem_flatten, List.mem_map] at hl
  obtain ⟨ls, ⟨e, he, rfl⟩, hl⟩ := hl
  simp only [sectionLines] at hl
  split_ifs at hl with hpos
  · simp only [List.mem_cons, List.mem_append, List.mem_map, List.mem_singleton,
      List.not_mem_nil, or_false] at hl
    rcases hl with h | ⟨kv, hkv, h⟩ | h
    · exact Or.inr (Or.inr ⟨e, he, hpos, h⟩)
    · exact Or.inr (Or.inl ⟨e, he, kv, hkv, h.symm⟩)
    · exact Or.inl h
  · simp at hl

theorem dependencyLine_getLast (kv : String × String) :
    (dependencyLine kv).getLast? = some '"' := by
  show (kv.1.data ++ " = \"".data ++ kv.2.data ++ ['"']).getLast? = some '"'
  exact List.getLast?_concat _

theorem headerLine_take (tag : String) : (headerLine tag).take 2 = ['[', 'd'] := rfl

theorem dependencyLines_ne (allDeps : GoMap (GoMap String)) (m : List Char)
    (h1 : m ≠ []) (h2 : m.getLast? ≠ some '"') (h3 : m.take 2 ≠ ['[', 'd']) :
    ∀ l ∈ dependencyLines allDeps, (l != m) = true := by
  intro l hl
  rw [bne_iff_ne]
  rcases dependencyLines_cases allDeps l hl with h | ⟨_, _, kv, _, h⟩ | ⟨e, _, _, h⟩
  · rw [h]
    exact fun h => h1 h.symm
  · intro hm
    rw [← hm, h, dependencyLine_getLast] at h2
    exact h2 rfl
  · intro hm
    rw [← hm, h, headerLine_take] at h3
    exact h3 rfl

theorem repositoryLines_ne_runtime (created project language entry : String)
    (guessed : Bool) :
    ∀ l ∈ repositoryLines created project language entry guessed,
      (l != "[runtime]".data) = true := by
  intro l hl
  rw [bne_iff_ne]
  simp only [repositoryLines, List.mem_cons, List.mem_singleton, List.not_mem_nil,
    or_false] at hl
  rcases hl with h | h | h | h | h | h | h <;> rw [h] <;> intro hh <;>
    first
      | exact absurd hh (by decide)
      | exact absurd (congrArg List.head? hh) (by simp)

theorem runtimeLines_ne_secrets (language : String) :
    ∀ l ∈ runtimeLines language, (l != "[secrets]".data) = true := by
  intro l hl
  rw [bne_iff_ne]
  simp only [runtimeLines, List.mem_cons, List.mem_singleton, List.not_mem_nil,
    or_false] at hl
  rcases hl with h | h | h | h | h | h <;> rw [h] <;> intro hh <;>
    first
      | exact absurd hh (by decide)
      | exact absurd (congrArg List.head? hh) (by simp)

theorem linesBetween_runtime (created project language entry : String)
    (guessed : Bool) (allDeps : GoMap (GoMap String)) (secretsRuntime : Bool)
    (h1 : oneLine created = true) (h2 : oneLine project = true)
    (h3 : oneLine language = true) (h4 : oneLine entry = true)
    (h5 : depsOneLine allDeps = true) :
    linesBetween "[runtime]".data "[secrets]".data
        (generatePhantomToml created project language entry guessed allDeps
          secretsRuntime) = runtimeLines language := by
  rw [linesBetween, textLines_generatePhantomToml _ _ _ _ _ _ _ h1 h2 h3 h4 h5]
  simp only [List.append_assoc]
  rw [List.dropWhile_append_of_pos (repositoryLines_ne_runtime _ _ _ _ _),
    List.dropWhile_append_of_pos
      (dependencyLines_ne allDeps _ (by decide) (by decide) (by decide))]
  have hd : (runtimeLines language ++ (secretsLines secretsRuntime ++ [[]])).dropWhile
      (fun l => l != "[runtime]".data) =
      runtimeLines language ++ (secretsLines secretsRuntime ++ [[]]) := by
    rw [runtimeLines, List.cons_append, List.dropWhile_cons_of_neg]
    simp
  rw [hd, List.takeWhile_append_of_pos (runtimeLines_ne_secrets language), secretsLines,
    List.cons_append, List.takeWhile_cons_of_neg]
  · simp
  · simp

/-- C28, as stated, fails: two inputs that differ in the language have
different texts between the header `[runtime]` and the header `[secrets]`, the
block has a line for the language; and a project name with a line break moves
the first header `[runtime]`. -/
theorem generatePhantomToml_runtime_language :
    linesBetween "[runtime]".data "[secrets]".data
        (generatePhantomToml sampleTime "demo" "js" "index.js" false [] false) =
        ["[runtime]".data, "language = \"js\"".data, "isolation = \"v8\"".data,
          "timeout = 30000".data, "memory = 128".data, []] ∧
      linesBetween "[runtime]".data "[secrets]".data
        (generatePhantomToml sampleTime "demo" "ts" "index.js" false [] false) =
        ["[runtime]".data, "language = \"ts\"".data, "isolation = \"v8\"".data,
          "timeout = 30000".data, "memory = 128".data, []] ∧
      (linesBetween "[runtime]".data "[secrets]".data
        (generatePhantomToml sampleTime "x\"\n[runtime]\ny = \"z" "js" "index.js" false []
          false)).take 3 =
        ["[runtime]".data, "y = \"z\"".data, "version = \"0.1.0\"".data] := by
  decide

/-- C28, amended: the text of `generatePhantomToml` ends with the runtime
block and the section `[secrets]`, and the runtime block is the header
`[runtime]`, the line `language = "<language>"`, the fixed lines
`isolation = "v8"`, `timeout = 30000`, `memory = 128` and a blank line; when
no string of the input has a line break, these are the lines of the text from
the header `[runtime]` up to the header `[secrets]`, the same for any two such
inputs with the same language. -/
theorem generatePhantomToml_runtime_block (created project language entry : String)
    (guessed : Bool) (allDeps : GoMap (GoMap String)) (secretsRuntime : Bool) :
    (generatePhantomToml created project language entry guessed allDeps
        secretsRuntime).data =
        unlines (repositoryLines created project language entry guessed ++
          dependencyLines allDeps) ++
        (unlines ["[runtime]".data, "language = \"".data ++ language.data ++ "\"".data,
          "isolation = \"v8\"".data, "timeout = 30000".data, "memory = 128".data, []] ++
        unlines (secretsLines secretsRuntime)) ∧
      (oneLine created = true → oneLine project = true → oneLine language = true →
        oneLine entry = true → depsOneLine allDeps = true →
        linesBetween "[runtime]".data "[secrets]".data
          (generatePhantomToml created project language entry guessed allDeps
            secretsRuntime) =
          ["[runtime]".data, "language = \"".data ++ language.data ++ "\"".data,
            "isolation = \"v8\"".data, "timeout = 30000".data, "memory = 128".data, []]) := by
  constructor
  · rw [generatePhantomToml_data]
    simp only [unlines_append, List.append_assoc]
    rfl
  · intro h1 h2 h3 h4 h5
    exact linesBetween_runtime created project language entry guessed allDeps secretsRuntime
      h1 h2 h3 h4 h5

/-- Witness of C28 amended: the runtime block of a JavaScript project with
two dependency maps. -/
theorem generatePhantomToml_runtime_block_witness :
    linesBetween "[runtime]".data "[secrets]".data
        (generatePhantomToml sampleTime "demo" "js" "index.js" false sampleDeps true) =
      ["[runtime]".data, "language = \"js\"".data, "isolation = \"v8\"".data,
        "timeout = 30000".data, "memory = 128".data, []] :=
  (generatePhantomToml_runtime_block sampleTime "demo" "js" "index.js" false sampleDeps
    true).2 (by decide) (by decide) (by decide) (by decide) (by decide)

/-! ## The claims about the order of the dependency subsections -/

theorem ranges_of_perm (m v : GoMap (GoMap String)) (h : List.Perm m v) : Ranges m v := by
  refine ⟨v, h, ?_⟩
  induction v generalizing m with
  | nil => exact List.Forall₂.nil
  | cons a t ih => exact List.Forall₂.cons ⟨rfl, List.Perm.refl _⟩ (ih t (List.Perm.refl _))

theorem sectionLines_perm (a b : String × GoMap String) (h : a.1 = b.1 ∧ List.Perm a.2 b.2) :
    List.Perm (sectionLines a) (sectionLines b) := by
  simp only [sectionLines, h.1, h.2.length_eq]
  split_ifs
  · exact List.Perm.cons _ (List.Perm.append_right _ (h.2.map _))
  · exact List.Perm.refl _

theorem dependencyLines_perm (m v : GoMap (GoMap String)) (h : Ranges m v) :
    List.Perm (dependencyLines m) (dependencyLines v) := by
  obtain ⟨mid, hp, hf⟩ := h
  refine List.Perm.trans ((hp.map sectionLines).flatten) ?_
  apply List.Perm.flatten_congr
  clear hp
  induction hf with
  | nil => exact List.Forall₂.nil
  | cons hab _ ih => exact List.Forall₂.cons (sectionLines_perm _ _ hab) ih

set_option maxRecDepth 8000 in
theorem sample_subsections :
    tomlSubsections
        (generatePhantomToml sampleTime "demo" "js" "index.js" false sampleDeps false) =
      ("[dependencies.node]\nexpress = \"^4.18.0\"\n\n" ++
        "[dependencies.rust]\nserde = \"latest\"\n\n").data ∧
    lockSubsections (generatePhantomLock sampleTime "demo" "js" sampleDeps.reverse) =
      ("[dependencies.rust]\nserde = \"latest\"\n\n" ++
        "[dependencies.node]\nexpress = \"^4.18.0\"\n\n").data := by
  decide

set_option maxRecDepth 8000 in
theorem sample_subsections_ne :
    tomlSubsections
        (generatePhantomToml sampleTime "demo" "js" "index.js" false sampleDeps false) ≠
      tomlSubsections
        (generatePhantomToml sampleTime "demo" "js" "index.js" false sampleDeps.reverse
          false) := by
  decide

set_option maxRecDepth 8000 in
theorem sample_lock_subsections_ne :
    lockSubsections (generatePhantomLock sampleTime "demo" "js" sampleDeps) ≠
      lockSubsections (generatePhantomLock sampleTime "demo" "js" sampleDeps.reverse) := by
  decide

set_option maxRecDepth 8000 in
theorem sample_subsections_differ :
    tomlSubsections
        (generatePhantomToml sampleTime "demo" "js" "index.js" false sampleDeps false) ≠
      lockSubsections (generatePhantomLock sampleTime "demo" "js" sampleDeps.reverse) := by
  decide

/-- C22, as stated, fails: for one project name, one detection result and
one timestamp, two ways of ranging over the same two dependency maps give two
different texts, for `generatePhantomToml` and for `generatePhantomLock`. -/
theorem generated_texts_order_dependent :
    Ranges sampleDeps sampleDeps ∧ Ranges sampleDeps sampleDeps.reverse ∧
      generatePhantomToml sampleTime "demo" "js" "index.js" false sampleDeps false ≠
        generatePhantomToml sampleTime "demo" "js" "index.js" false sampleDeps.reverse
          false ∧
      generatePhantomLock sampleTime "demo" "js" sampleDeps ≠
        generatePhantomLock sampleTime "demo" "js" sampleDeps.reverse :=
  ⟨ranges_of_perm _ _ (List.Perm.refl _), ranges_of_perm _ _ (List.reverse_perm _).symm,
    fun h => sample_subsections_ne (h ▸ rfl), fun h => sample_lock_subsections_ne (h ▸ rfl)⟩

/-- C22, amended: for a fixed project name, detection result and timestamp,
the texts of two invocations differ at most in the order of the dependency
subsections and of the entries inside them: whatever the two orders in which
the maps are ranged over, the texts of `generatePhantomToml` are the same
before and after the dependency subsections, the texts of
`generatePhantomLock` are the same before them, and the subsections are made
of the same lines. -/
theorem generated_texts_up_to_order (created project language entry : String)
    (guessed secretsRuntime : Bool) (m v₁ v₂ : GoMap (GoMap String))
    (h₁ : Ranges m v₁) (h₂ : Ranges m v₂) :
    (∀ v ∈ [v₁, v₂],
      (generatePhantomToml created project language entry guessed v secretsRuntime).data =
        unlines (repositoryLines created project language entry guessed) ++
          (unlines (dependencyLines v) ++
            unlines (runtimeLines language ++ secretsLines secretsRuntime)) ∧
      (generatePhantomLock created project language v).data =
        unlines (preambleLines created project language ++
          environmentLines (specSetup language) (lockRuntime language)) ++
          unlines (dependencyLines v)) ∧
      List.Perm (dependencyLines v₁) (dependencyLines v₂) := by
  refine ⟨fun v _ => ⟨?_, ?_⟩, ?_⟩
  · rw [generatePhantomToml_data, unlines_append, unlines_append]
  · rw [generatePhantomLock_data, unlines_append, unlines_append, unlines_append,
      List.append_assoc]
  · exact (dependencyLines_perm m v₁ h₁).symm.trans (dependencyLines_perm m v₂ h₂)

/-- Witness of C22 amended: the two orders of the two sample maps. -/
theorem generated_texts_up_to_order_witness :
    List.Perm (dependencyLines sampleDeps) (dependencyLines sampleDeps.reverse) :=
  (generated_texts_up_to_order sampleTime "demo" "js" "index.js" false false sampleDeps
    sampleDeps sampleDeps.reverse (ranges_of_perm _ _ (List.Perm.refl _))
    (ranges_of_perm _ _ (List.reverse_perm _).symm)).2

/-- C29, as stated, fails: for the same two dependency maps, ranged over in
one order by `generatePhantomToml` and in the other order by
`generatePhantomLock`, the dependency subsections of the two texts differ. -/
theorem generatePhantomLock_other_order :
    Ranges sampleDeps sampleDeps ∧ Ranges sampleDeps sampleDeps.reverse ∧
      tomlSubsections
          (generatePhantomToml sampleTime "demo" "js" "index.js" false sampleDeps false) =
        ("[dependencies.node]\nexpress = \"^4.18.0\"\n\n" ++
          "[dependencies.rust]\nserde = \"latest\"\n\n").data ∧
      lockSubsections (generatePhantomLock sampleTime "demo" "js" sampleDeps.reverse) =
        ("[dependencies.rust]\nserde = \"latest\"\n\n" ++
          "[dependencies.node]\nexpress = \"^4.18.0\"\n\n").data ∧
      tomlSubsections
          (generatePhantomToml sampleTime "demo" "js" "index.js" false sampleDeps false) ≠
        lockSubsections (generatePhantomLock sampleTime "demo" "js" sampleDeps.reverse) :=
  ⟨ranges_of_perm _ _ (List.Perm.refl _), ranges_of_perm _ _ (List.reverse_perm _).symm,
    sample_subsections.1, sample_subsections.2, sample_subsections_differ⟩

/-- C29, amended: when the two functions range over the dependency maps in
the same order, the text that `generatePhantomLock` writes after its header
`[dependencies]` is the text of the dependency subsections that
`generatePhantomToml` writes between its section `[repository]` and its
section `[runtime]`; when the orders differ, the two are made of the same
lines. -/
theorem generatePhantomLock_same_subsections
    (created generated project language entry : String) (guessed secretsRuntime : Bool)
    (m v₁ v₂ : GoMap (GoMap String)) (h₁ : Ranges m v₁) (h₂ : Ranges m v₂) :
    (generatePhantomToml created project language entry guessed v₁ secretsRuntime).data =
        unlines (repositoryLines created project language entry guessed) ++
          (unlines (dependencyLines v₁) ++
            unlines (runtimeLines language ++ secretsLines secretsRuntime)) ∧
      (generatePhantomLock generated project language v₂).data =
        unlines (preambleLines generated project language ++
          environmentLines (specSetup language) (lockRuntime language)) ++
          unlines (dependencyLines v₂) ∧
      List.Perm (dependencyLines v₁) (dependencyLines v₂) := by
  refine ⟨?_, ?_, ?_⟩
  · rw [generatePhantomToml_data, unlines_append, unlines_append]
  · rw [generatePhantomLock_data, unlines_append, unlines_append, unlines_append,
      List.append_assoc]
  · exact (dependencyLines_perm m v₁ h₁).symm.trans (dependencyLines_perm m v₂ h₂)

/-- Witness of C29 amended: the sample maps, ranged over in the same order by
both functions. -/
theorem generatePhantomLock_same_subsections_witness :
    (generatePhantomLock sampleTime "demo" "js" sampleDeps).data =
      unlines (preambleLines sampleTime "demo" "js" ++
        environmentLines (specSetup "js") (lockRuntime "js")) ++
        unlines (dependencyLines sampleDeps) :=
  (generatePhantomLock_same_subsections sampleTime sampleTime "demo" "js" "index.js" false
    false sampleDeps sampleDeps sampleDeps (ranges_of_perm _ _ (List.Perm.refl _))
    (ranges_of_perm _ _ (List.Perm.refl _))).2.1


/-! ## The claims about the lines of the two texts -/

theorem startsWith_append_right (l p rest : List Char) (h : p.length ≤ l.length) :
    startsWith (l ++ rest) p = startsWith l p := by
  rw [startsWith, startsWith, List.take_append_of_le_length h]

theorem splitFirst_append (name rest : List Char)
    (h : splitFirst " = ".data (name ++ " = ".data) = some (name, [])) :
    splitFirst " = ".data (name ++ (" = ".data ++ rest)) = some (name, rest) := by
  induction name with
  | nil => rfl
  | cons c cs ih =>
    rw [List.cons_append, splitFirst] at h
    rw [List.cons_append, splitFirst]
    have happ : c :: (cs ++ (" = ".data ++ rest)) = (c :: (cs ++ " = ".data)) ++ rest := by
      simp
    have hlen : " = ".data.length ≤ (c :: (cs ++ " = ".data)).length := by
      simp only [List.length_cons, List.length_append]
      omega
    rw [happ, startsWith_append_right _ _ rest hlen, ← happ]
    cases hst : startsWith (c :: (cs ++ " = ".data)) " = ".data
    · rw [hst] at h
      simp only [Bool.false_eq_true, if_false] at h ⊢
      cases hsp : splitFirst " = ".data (cs ++ " = ".data) with
      | none => simp [hsp] at h
      | some q =>
        rw [hsp] at h
        simp only [Option.map_some', Option.some.injEq, Prod.mk.injEq, List.cons.injEq,
          true_and] at h
        have hq : q = (cs, []) := Prod.ext h.1 h.2
        rw [hq] at hsp
        rw [ih hsp]
        rfl
    · rw [hst] at h
      simp at h

theorem oneLine_of_plainString (s : String) (h : plainString s = true) : oneLine s = true := by
  simp only [plainString, List.all_eq_true, Bool.and_eq_true] at h
  simp only [oneLine, lineChars, List.all_eq_true]
  exact fun c hc => (h c hc).2

theorem oneLine_of_plainTag (s : String) (h : plainTag s = true) : oneLine s = true := by
  simp only [plainTag, List.all_eq_true, Bool.and_eq_true] at h
  simp only [oneLine, lineChars, List.all_eq_true]
  exact fun c hc => (h c hc).1.1

theorem depsOneLine_of_depsPlain (allDeps : GoMap (GoMap String))
    (h : depsPlain allDeps = true) : depsOneLine allDeps = true := by
  simp only [depsPlain, plainKey, List.all_eq_true, Bool.and_eq_true] at h
  simp only [depsOneLine, List.all_eq_true, Bool.and_eq_true]
  exact fun e he => ⟨oneLine_of_plainTag _ (h e he).1, fun kv hkv =>
    ⟨((h e he).2 kv hkv).1.1.2, oneLine_of_plainString _ ((h e he).2 kv hkv).2⟩⟩

theorem isAssignment_intro (key value : List Char) (hk : isKey key = true)
    (hsplit : splitFirst " = ".data (key ++ " = ".data) = some (key, []))
    (hv : (isStringValue value || isBareValue value) = true) :
    isAssignment (key ++ (" = ".data ++ value)) = true := by
  simp only [isAssignment, splitFirst_append key value hsplit, hk, hv, Bool.and_self]

theorem isStringValue_quoted (s tail : List Char) (hs : plainString ⟨s⟩ = true)
    (ht : tail = [] ∨ startsWith tail " #".data = true) :
    isStringValue ('"' :: (s ++ '"' :: tail)) = true := by
  have hd := (takeWhile_append_stop (fun c => c != '"') s tail '"' (by
    intro x hx
    simp only [plainString, List.all_eq_true, Bool.and_eq_true] at hs
    exact (hs x hx).1) (by decide)).2
  simp only [isStringValue, hd, Bool.or_eq_true]
  rcases ht with h | h
  · left
    rw [h]
    rfl
  · right
    rw [startsWith_eq tail _ h]
    rfl

theorem isAssignment_string (key s tail : List Char) (hk : isKey key = true)
    (hsplit : splitFirst " = ".data (key ++ " = ".data) = some (key, []))
    (hs : plainString ⟨s⟩ = true) (ht : tail = [] ∨ startsWith tail " #".data = true) :
    isAssignment (key ++ (" = ".data ++ ('"' :: (s ++ '"' :: tail)))) = true :=
  isAssignment_intro key _ hk hsplit (by rw [isStringValue_quoted s tail hs ht]; rfl)

theorem wellFormedLine_string (key s tail : List Char) (hk : isKey key = true)
    (hsplit : splitFirst " = ".data (key ++ " = ".data) = some (key, []))
    (hs : plainString ⟨s⟩ = true) (ht : tail = [] ∨ startsWith tail " #".data = true) :
    wellFormedLine (key ++ (" = ".data ++ ('"' :: (s ++ '"' :: tail)))) = true := by
  simp only [wellFormedLine, Bool.or_eq_true]
  right
  exact isAssignment_string key s tail hk hsplit hs ht

theorem isHeader_headerLine (tag : String) (h : plainTag tag = true) :
    isHeader (headerLine tag) = true := by
  have hl : headerLine tag = '[' :: (("dependencies.".data ++ tag.data) ++ [']']) := by
    simp only [headerLine, List.append_assoc]
    rfl
  simp only [plainTag, List.all_eq_true, Bool.and_eq_true] at h
  rw [hl]
  simp only [isHeader, List.getLast?_concat, List.dropLast_concat, beq_self_eq_true,
    Bool.true_and, Bool.and_eq_true, List.all_append, List.all_eq_true]
  refine ⟨rfl, by decide, ?_⟩
  intro c hc
  exact ⟨(h c hc).1.2, (h c hc).2⟩

theorem dependencyLine_assignment (kv : String × String) (hk : plainKey kv.1 = true)
    (hv : plainString kv.2 = true) :
    isAssignment (dependencyLine kv) = true ∧
      splitFirst " = ".data (dependencyLine kv) =
        some (kv.1.data, '"' :: (kv.2.data ++ ['"'])) := by
  simp only [plainKey, nameSplits, Bool.and_eq_true, beq_iff_eq] at hk
  have he : dependencyLine kv = kv.1.data ++ (" = ".data ++ ('"' :: (kv.2.data ++ ['"']))) := by
    simp only [dependencyLine, List.append_assoc]
    rfl
  rw [he]
  exact ⟨isAssignment_string kv.1.data kv.2.data [] hk.1.1 hk.2 hv (Or.inl rfl),
    splitFirst_append _ _ hk.2⟩

theorem wellFormedLine_dependencyLines (allDeps : GoMap (GoMap String))
    (h : depsPlain allDeps = true) :
    ∀ l ∈ dependencyLines allDeps, wellFormedLine l = true := by
  intro l hl
  simp only [depsPlain, List.all_eq_true, Bool.and_eq_true] at h
  rcases dependencyLines_cases allDeps l hl with hb | ⟨e, he, kv, hkv, hd⟩ | ⟨e, he, _, hh⟩
  · rw [hb]
    rfl
  · rw [hd]
    simp only [wellFormedLine, Bool.or_eq_true]
    right
    exact (dependencyLine_assignment kv ((h e he).2 kv hkv).1 ((h e he).2 kv hkv).2).1
  · rw [hh]
    simp only [wellFormedLine, Bool.or_eq_true]
    left
    right
    exact isHeader_headerLine e.1 (h e he).1

theorem wellFormedLine_repositoryLines (created project language entry : String)
    (guessed : Bool) (h1 : plainString created = true) (h2 : plainString project = true)
    (h3 : plainString language = true) (h4 : plainString entry = true) :
    ∀ l ∈ repositoryLines created project language entry guessed,
      wellFormedLine l = true := by
  intro l hl
  simp only [repositoryLines, List.mem_cons, List.mem_singleton, List.not_mem_nil,
    or_false] at hl
  rcases hl with h | h | h | h | h | h | h <;> rw [h]
  · decide
  · exact wellFormedLine_string "project".data project.data [] (by decide) (by decide) h2
      (Or.inl rfl)
  · decide
  · cases guessed
    · have := wellFormedLine_string "entry".data entry.data [] (by decide) (by decide) h4
        (Or.inl rfl)
      simp only [Bool.false_eq_true, if_false, List.append_nil]
      exact this
    · have := wellFormedLine_string "entry".data entry.data
        " # please update to correct entrypoint".data (by decide) (by decide) h4
        (Or.inr (by decide))
      simp only [if_true, List.append_assoc]
      exact this
  · exact wellFormedLine_string "language".data language.data [] (by decide) (by decide) h3
      (Or.inl rfl)
  · exact wellFormedLine_string "created_at".data created.data [] (by decide) (by decide) h1
      (Or.inl rfl)
  · decide

theorem wellFormedLine_runtimeLines (language : String) (secretsRuntime : Bool)
    (h3 : plainString language = true) :
    ∀ l ∈ runtimeLines language ++ secretsLines secretsRuntime, wellFormedLine l = true := by
  intro l hl
  simp only [runtimeLines, secretsLines, List.mem_cons, List.mem_singleton, List.not_mem_nil,
    or_false, List.mem_append] at hl
  rcases hl with (h | h | h | h | h | h) | h | h <;> rw [h]
  · decide
  · exact wellFormedLine_string "language".data language.data [] (by decide) (by decide) h3
      (Or.inl rfl)
  · decide
  · decide
  · decide
  · decide
  · decide
  · cases secretsRuntime <;> decide

theorem plainString_specSetup (language : String) :
    plainString (specSetup language) = true ∧ plainString (lockRuntime language) = true := by
  simp only [specSetup, lockRuntime]
  split_ifs <;> decide

theorem wellFormedLine_lockLines (generated project language : String)
    (h1 : plainString generated = true) (h2 : plainString project = true)
    (h3 : plainString language = true) :
    ∀ l ∈ preambleLines generated project language ++
        environmentLines (specSetup language) (lockRuntime language),
      wellFormedLine l = true := by
  intro l hl
  simp only [preambleLines, environmentLines, List.mem_cons, List.mem_singleton,
    List.not_mem_nil, or_false, List.mem_append] at hl
  rcases hl with (h | h | h | h | h | h | h) | h | h | h | h | h <;> rw [h]
  · decide
  · decide
  · decide
  · exact wellFormedLine_string "project".data project.data [] (by decide) (by decide) h2
      (Or.inl rfl)
  · exact wellFormedLine_string "language".data language.data [] (by decide) (by decide) h3
      (Or.inl rfl)
  · exact wellFormedLine_string "generated_at".data generated.data [] (by decide) (by decide)
      h1 (Or.inl rfl)
  · decide
  · decide
  · exact wellFormedLine_string "setup".data (specSetup language).data [] (by decide)
      (by decide) (plainString_specSetup language).1 (Or.inl rfl)
  · exact wellFormedLine_string "runtime".data (lockRuntime language).data [] (by decide)
      (by decide) (plainString_specSetup language).2 (Or.inl rfl)
  · decide
  · decide

theorem lockLines_lineChars (generated project language : String)
    (h1 : oneLine generated = true) (h2 : oneLine project = true)
    (h3 : oneLine language = true) :
    (preambleLines generated project language ++
      environmentLines (specSetup language) (lockRuntime language)).all lineChars = true := by
  have hs := oneLine_of_plainString _ (plainString_specSetup language).1
  have hr := oneLine_of_plainString _ (plainString_specSetup language).2
  simp only [oneLine, lineChars] at h1 h2 h3 hs hr
  simp only [preambleLines, environmentLines, lineChars, List.all_cons,
    List.all_append, List.all_nil, h1, h2, h3, hs, hr, List.cons_append, List.nil_append]
  decide

theorem textLines_generatePhantomLock (generated project language : String)
    (allDeps : GoMap (GoMap String)) (h1 : oneLine generated = true)
    (h2 : oneLine project = true) (h3 : oneLine language = true)
    (h5 : depsOneLine allDeps = true) :
    textLines (generatePhantomLock generated project language allDeps) =
      (preambleLines generated project language ++
        environmentLines (specSetup language) (lockRuntime language)) ++
        dependencyLines allDeps ++ [[]] := by
  rw [textLines, generatePhantomLock_data, ← List.append_assoc]
  apply textLines_unlines _
  rw [List.all_append, lockLines_lineChars generated project language h1 h2 h3,
    dependencyLines_lineChars allDeps h5]
  rfl

set_option maxRecDepth 8000 in
theorem inline_cargo_line :
    (scanProject sampleLib dirInlineCargo "").allDeps =
        [("rust", [("tokio", "\x7bversion=\"1.0\"\x7d")])] ∧
      "tokio = \"\x7bversion=\"1.0\"\x7d\"".data ∈
        textLines (generatePhantomToml sampleTime "demo"
          (scanProject sampleLib dirInlineCargo "").language
          (scanProject sampleLib dirInlineCargo "").entry
          (scanProject sampleLib dirInlineCargo "").guessed
          (scanProject sampleLib dirInlineCargo "").allDeps
          (scanProject sampleLib dirInlineCargo "").secretsRuntime) ∧
      wellFormedLine "tokio = \"\x7bversion=\"1.0\"\x7d\"".data = false := by
  decide

set_option maxRecDepth 8000 in
theorem broken_name_line :
    "a".data ∈ textLines (generatePhantomToml sampleTime "demo" "js" "index.js" false
        [("node", [("a\nb", "1")])] false) ∧
      wellFormedLine "a".data = false := by
  decide

set_option maxRecDepth 8000 in
theorem odd_tag_line :
    "[dependencies.a] [b]".data ∈ textLines (generatePhantomToml sampleTime "demo" "js"
        "index.js" false [("a] [b", [("x", "1")])] false) ∧
      wellFormedLine "[dependencies.a] [b]".data = false := by
  decide

set_option maxRecDepth 8000 in
theorem odd_name_lines :
    ("a\"b = \"c\"".data ∈ textLines (generatePhantomToml sampleTime "demo" "js" "index.js"
        false [("node", [("a\"b", "c")])] false) ∧
      wellFormedLine "a\"b = \"c\"".data = false) ∧
    ("a = b = \"1\"".data ∈ textLines (generatePhantomToml sampleTime "demo" "js" "index.js"
        false [("node", [("a = b", "1")])] false) ∧
      wellFormedLine "a = b = \"1\"".data = false) ∧
    (" = \"1\"".data ∈ textLines (generatePhantomToml sampleTime "demo" "js" "index.js"
        false [("rust", [("", "1")])] false) ∧
      wellFormedLine " = \"1\"".data = false) := by
  decide

set_option maxRecDepth 8000 in
theorem odd_start_lines :
    ("[x = \"1\"".data ∈ textLines (generatePhantomToml sampleTime "demo" "js" "index.js"
        false [("node", [("[x", "1")])] false) ∧
      wellFormedLine "[x = \"1\"".data = false) ∧
    ("#x = \"1\"".data ∈ textLines (generatePhantomToml sampleTime "demo" "js" "index.js"
        false [("node", [("#x", "1")])] false) ∧
      isComment "#x = \"1\"".data = true ∧ isAssignment "#x = \"1\"".data = false) := by
  decide

/-- C24, as stated, fails: for a `Cargo.toml` whose section `[dependencies]`
has the line `tokio = ` followed by an inline table without blanks, the scan
records the table as the version, and the text of `generatePhantomToml` for
the result of the scan has a line in which the string value contains double
quotes, so that the line is none of the four kinds.  So is the first half of
a dependency name with a line break, the header of a tag with square
brackets, and the line of a dependency whose name has a double quote, has
` = ` inside, is empty, or begins with `[`; and the line of a dependency whose
name begins with `#` is a comment, not an assignment. -/
theorem generatePhantomToml_quote_in_version :
    (scanProject sampleLib dirInlineCargo "").allDeps =
        [("rust", [("tokio", "\x7bversion=\"1.0\"\x7d")])] ∧
      "tokio = \"\x7bversion=\"1.0\"\x7d\"".data ∈
        textLines (generatePhantomToml sampleTime "demo"
          (scanProject sampleLib dirInlineCargo "").language
          (scanProject sampleLib dirInlineCargo "").entry
          (scanProject sampleLib dirInlineCargo "").guessed
          (scanProject sampleLib dirInlineCargo "").allDeps
          (scanProject sampleLib dirInlineCargo "").secretsRuntime) ∧
      wellFormedLine "tokio = \"\x7bversion=\"1.0\"\x7d\"".data = false ∧
      ("a".data ∈ textLines (generatePhantomToml sampleTime "demo" "js" "index.js" false
        [("node", [("a\nb", "1")])] false) ∧
        wellFormedLine "a".data = false) ∧
      ("[dependencies.a] [b]".data ∈ textLines (generatePhantomToml sampleTime "demo" "js"
        "index.js" false [("a] [b", [("x", "1")])] false) ∧
        wellFormedLine "[dependencies.a] [b]".data = false) ∧
      ("a\"b = \"c\"".data ∈ textLines (generatePhantomToml sampleTime "demo" "js" "index.js"
        false [("node", [("a\"b", "c")])] false) ∧
        wellFormedLine "a\"b = \"c\"".data = false) ∧
      ("a = b = \"1\"".data ∈ textLines (generatePhantomToml sampleTime "demo" "js" "index.js"
        false [("node", [("a = b", "1")])] false) ∧
        wellFormedLine "a = b = \"1\"".data = false) ∧
      (" = \"1\"".data ∈ textLines (generatePhantomToml sampleTime "demo" "js" "index.js"
        false [("rust", [("", "1")])] false) ∧
        wellFormedLine " = \"1\"".data = false) ∧
      ("[x = \"1\"".data ∈ textLines (generatePhantomToml sampleTime "demo" "js" "index.js"
        false [("node", [("[x", "1")])] false) ∧
        wellFormedLine "[x = \"1\"".data = false) ∧
      ("#x = \"1\"".data ∈ textLines (generatePhantomToml sampleTime "demo" "js" "index.js"
        false [("node", [("#x", "1")])] false) ∧
        isComment "#x = \"1\"".data = true ∧ isAssignment "#x = \"1\"".data = false) :=
  ⟨inline_cargo_line.1, inline_cargo_line.2.1, inline_cargo_line.2.2, broken_name_line,
    odd_tag_line, odd_name_lines.1, odd_name_lines.2.1, odd_name_lines.2.2,
    odd_start_lines.1, odd_start_lines.2⟩

/-- C24, amended: when the project name, the language, the entrypoint, the
timestamp and every version have no double quote and no line break, no tag
has a line break or a square bracket, and every dependency name is not empty,
has no double quote, no line break and no ` = ` inside, does not end in ` =`
and begins neither with `#` nor with `[`, every line of the texts of
`generatePhantomToml` and `generatePhantomLock` is blank, a `#` comment, a
header `[name]`, or an assignment `key = value` whose value is a number, a
boolean, or a string enclosed in one pair of double quotes, with at most a
`#` comment after it; the header of every tag is such a header, and the line
of every dependency is such an assignment, of its name to its version in
double quotes. -/
theorem generated_lines_well_formed (created generated project language entry : String)
    (guessed secretsRuntime : Bool) (allDeps : GoMap (GoMap String))
    (h1 : plainString created = true) (h1' : plainString generated = true)
    (h2 : plainString project = true) (h3 : plainString language = true)
    (h4 : plainString entry = true) (h5 : depsPlain allDeps = true) :
    (∀ l ∈ textLines (generatePhantomToml created project language entry guessed allDeps
        secretsRuntime), wellFormedLine l = true) ∧
      (∀ l ∈ textLines (generatePhantomLock generated project language allDeps),
        wellFormedLine l = true) ∧
      (∀ e ∈ allDeps, isHeader (headerLine e.1) = true ∧
        ∀ kv ∈ e.2, isAssignment (dependencyLine kv) = true ∧
          splitFirst " = ".data (dependencyLine kv) =
            some (kv.1.data, '"' :: (kv.2.data ++ ['"']))) := by
  have h5' := depsOneLine_of_depsPlain allDeps h5
  refine ⟨?_, ?_, ?_⟩
  · rw [textLines_generatePhantomToml _ _ _ _ _ _ _ (oneLine_of_plainString _ h1)
      (oneLine_of_plainString _ h2) (oneLine_of_plainString _ h3)
      (oneLine_of_plainString _ h4) h5']
    intro l hl
    simp only [List.mem_append, List.mem_singleton] at hl
    rcases hl with (h | h | h) | h
    · exact wellFormedLine_repositoryLines created project language entry guessed h1 h2 h3 h4
        l h
    · exact wellFormedLine_dependencyLines allDeps h5 l h
    · exact wellFormedLine_runtimeLines language secretsRuntime h3 l
        (List.mem_append.mpr h)
    · rw [h]
      rfl
  · rw [textLines_generatePhantomLock _ _ _ _ (oneLine_of_plainString _ h1')
      (oneLine_of_plainString _ h2) (oneLine_of_plainString _ h3) h5']
    intro l hl
    simp only [List.mem_append, List.mem_singleton] at hl
    rcases hl with ((h | h) | h) | h
    · exact wellFormedLine_lockLines generated project language h1' h2 h3 l
        (List.mem_append.mpr (Or.inl h))
    · exact wellFormedLine_lockLines generated project language h1' h2 h3 l
        (List.mem_append.mpr (Or.inr h))
    · exact wellFormedLine_dependencyLines allDeps h5 l h
    · rw [h]
      rfl
  · intro e he
    simp only [depsPlain, List.all_eq_true, Bool.and_eq_true] at h5
    exact ⟨isHeader_headerLine e.1 (h5 e he).1, fun kv hkv =>
      dependencyLine_assignment kv ((h5 e he).2 kv hkv).1 ((h5 e he).2 kv hkv).2⟩

/-- Witness of C24 amended: the two texts for the sample maps and a guessed
entrypoint. -/
theorem generated_lines_well_formed_witness :
    (∀ l ∈ textLines (generatePhantomToml sampleTime "demo" "js" "index.js" true sampleDeps
        false), wellFormedLine l = true) ∧
      (∀ l ∈ textLines (generatePhantomLock sampleTime "demo" "js" sampleDeps),
        wellFormedLine l = true) :=
  have h := generated_lines_well_formed sampleTime sampleTime "demo" "js" "index.js" true
    false sampleDeps (by decide) (by decide) (by decide) (by decide) (by decide) (by decide)
  ⟨h.1, h.2.1⟩

/-! ## The claims about the dependency subsections -/

theorem headerLine_injective (a b : String) (h : headerLine a = headerLine b) : a = b := by
  simp only [headerLine, List.append_assoc] at h
  have h1 := List.append_cancel_left h
  have h2 := List.append_cancel_right h1
  exact String.ext h2

theorem headerLine_mem_dependencyLines (allDeps : GoMap (GoMap String)) (tag : String)
    (h : headerLine tag ∈ dependencyLines allDeps) :
    ∃ e ∈ allDeps, e.1 = tag ∧ e.2.length > 0 := by
  rcases dependencyLines_cases allDeps _ h with hb | ⟨_, _, kv, _, hd⟩ | ⟨e, he, hpos, hh⟩
  · exact absurd (congrArg List.length hb) (by simp [headerLine])
  · have := dependencyLine_getLast kv
    rw [← hd] at this
    have h2 : (headerLine tag).getLast? = some ']' := by
      show (("[dependencies.".data ++ tag.data) ++ [']']).getLast? = some ']'
      exact List.getLast?_concat _
    rw [h2] at this
    exact absurd this (by decide)
  · exact ⟨e, he, (headerLine_injective _ _ hh).symm, hpos⟩

theorem fixedLines_take (created project language entry : String)
    (guessed secretsRuntime : Bool) :
    (repositoryLines created project language entry guessed ++
      (runtimeLines language ++ secretsLines secretsRuntime)).all
        (fun l => l.take 2 != ['[', 'd']) = true := by
  cases secretsRuntime <;> rfl

theorem headerLine_not_mem_fixed (created project language entry : String)
    (guessed secretsRuntime : Bool) (tag : String) :
    headerLine tag ∉ repositoryLines created project language entry guessed ∧
      headerLine tag ∉ runtimeLines language ++ secretsLines secretsRuntime ++ [[]] := by
  have h := fixedLines_take created project language entry guessed secretsRuntime
  rw [List.all_append, Bool.and_eq_true, List.all_eq_true, List.all_eq_true] at h
  refine ⟨fun hm => ?_, fun hm => ?_⟩
  · have := h.1 _ hm
    rw [headerLine_take] at this
    exact absurd this (by decide)
  · rcases List.mem_append.mp hm with hm | hm
    · have := h.2 _ hm
      rw [headerLine_take] at this
      exact absurd this (by decide)
    · rw [List.mem_singleton] at hm
      exact absurd (congrArg List.length hm) (by simp [headerLine])

theorem dependencyLines_append (a b : GoMap (GoMap String)) :
    dependencyLines (a ++ b) = dependencyLines a ++ dependencyLines b := by
  simp [dependencyLines]

/-- C27, as stated, fails: an entrypoint with a line break puts the header
`[dependencies.rust]` on a line of the text although there is no dependency
map at all. -/
theorem generatePhantomToml_header_without_map :
    "[dependencies.rust]".data ∈
      textLines (generatePhantomToml sampleTime "demo" "js" "a\"\n[dependencies.rust]\nb = \"c"
        false [] false) := by
  decide

/-- C27, amended: when no string of the input has a line break and no two
dependency maps have the same tag, the lines of the text of
`generatePhantomToml` contain, for every map that is not empty, the header
`[dependencies.<tag>]` exactly once, followed by one line `name = "version"`
for each entry of the map and a blank line; and they do not contain the
header of a tag whose map is empty or absent. -/
theorem generatePhantomToml_headers (created project language entry : String)
    (guessed secretsRuntime : Bool) (allDeps : GoMap (GoMap String))
    (h1 : oneLine created = true) (h2 : oneLine project = true)
    (h3 : oneLine language = true) (h4 : oneLine entry = true)
    (h5 : depsOneLine allDeps = true) (hk : (allDeps.map Prod.fst).Nodup) :
    (∀ e ∈ allDeps, e.2 ≠ [] → ∃ before after,
      textLines (generatePhantomToml created project language entry guessed allDeps
          secretsRuntime) =
        before ++ headerLine e.1 :: (e.2.map dependencyLine ++ [] :: after) ∧
      headerLine e.1 ∉ before ∧ headerLine e.1 ∉ e.2.map dependencyLine ∧
      headerLine e.1 ∉ after) ∧
    (∀ tag, (∀ e ∈ allDeps, e.1 = tag → e.2 = []) →
      headerLine tag ∉ textLines (generatePhantomToml created project language entry guessed
        allDeps secretsRuntime)) := by
  rw [textLines_generatePhantomToml _ _ _ _ _ _ _ h1 h2 h3 h4 h5]
  constructor
  · intro e he hne
    obtain ⟨pre, post, hsplit⟩ := List.append_of_mem he
    have hpos : e.2.length > 0 := List.length_pos.mpr hne
    rw [hsplit, List.map_append, List.map_cons, List.nodup_append] at hk
    obtain ⟨_, hk2, hk3⟩ := hk
    have hpre : headerLine e.1 ∉ dependencyLines pre := by
      intro hm
      obtain ⟨e', he', heq, _⟩ := headerLine_mem_dependencyLines pre e.1 hm
      exact hk3 (List.mem_map.mpr ⟨e', he', heq⟩) (List.mem_cons_self _ _)
    have hpost : headerLine e.1 ∉ dependencyLines post := by
      intro hm
      obtain ⟨e', he', heq, _⟩ := headerLine_mem_dependencyLines post e.1 hm
      exact (List.nodup_cons.mp hk2).1 (List.mem_map.mpr ⟨e', he', heq⟩)
    have hfix := headerLine_not_mem_fixed created project language entry guessed
      secretsRuntime e.1
    refine ⟨repositoryLines created project language entry guessed ++ dependencyLines pre,
      dependencyLines post ++ (runtimeLines language ++ secretsLines secretsRuntime ++ [[]]),
      ?_, ?_, ?_, ?_⟩
    · rw [hsplit, dependencyLines_append]
      simp only [dependencyLines, List.map_cons, List.flatten_cons, sectionLines, hpos,
        if_true, List.append_assoc, List.cons_append, List.nil_append]
    · intro hm
      rcases List.mem_append.mp hm with hm | hm
      · exact hfix.1 hm
      · exact hpre hm
    · intro hm
      obtain ⟨kv, _, hd⟩ := List.mem_map.mp hm
      have := dependencyLine_getLast kv
      rw [hd] at this
      have h2 : (headerLine e.1).getLast? = some ']' := by
        show (("[dependencies.".data ++ e.1.data) ++ [']']).getLast? = some ']'
        exact List.getLast?_concat _
      rw [h2] at this
      exact absurd this (by decide)
    · intro hm
      rcases List.mem_append.mp hm with hm | hm
      · exact hpost hm
      · exact hfix.2 hm
  · intro tag hempty hm
    have hfix := headerLine_not_mem_fixed created project language entry guessed
      secretsRuntime tag
    simp only [List.mem_append, List.mem_singleton] at hm
    rcases hm with (hm | hm | hm) | hm
    · exact hfix.1 hm
    · obtain ⟨e, he, heq, hpos⟩ := headerLine_mem_dependencyLines allDeps tag hm
      rw [hempty e he heq] at hpos
      exact absurd hpos (by decide)
    · exact hfix.2 (List.mem_append.mpr (Or.inl (List.mem_append.mpr hm)))
    · exact hfix.2 (List.mem_append.mpr (Or.inr (List.mem_singleton.mpr hm)))

/-- Witness of C27 amended: the text for the sample maps has no header for
the tag `python`. -/
theorem generatePhantomToml_headers_witness :
    headerLine "python" ∉
      textLines (generatePhantomToml sampleTime "demo" "js" "index.js" false sampleDeps
        false) :=
  (generatePhantomToml_headers sampleTime "demo" "js" "index.js" false false sampleDeps
    (by decide) (by decide) (by decide) (by decide) (by decide) (by decide)).2 "python"
    (by decide)


/-! ## The claims about reading the subsections back -/

theorem unquote_quoted (v : List Char) : unquote ('"' :: (v ++ ['"'])) = v := by
  simp only [unquote, List.getLast?_concat, if_true, List.dropLast_concat]

theorem specReadHeader_headerLine (tag : String) :
    specReadHeader (headerLine tag) = some tag := by
  have h1 : startsWith (headerLine tag) "[dependencies.".data = true := by
    rw [headerLine, List.append_assoc]
    exact startsWith_append _ _
  have h2 : (headerLine tag).getLast? = some ']' := by
    show (("[dependencies.".data ++ tag.data) ++ [']']).getLast? = some ']'
    exact List.getLast?_concat _
  have h3 : ((headerLine tag).drop "[dependencies.".data.length).dropLast = tag.data := by
    rw [headerLine, List.append_assoc, List.drop_left]
    exact List.dropLast_concat
  simp only [specReadHeader, h1, h2, h3]
  rfl

theorem specReadHeader_none (l : List Char) (h : (l.take 2 != ['[', 'd']) = true) :
    specReadHeader l = none := by
  have hs : startsWith l "[dependencies.".data = false := by
    cases hst : startsWith l "[dependencies.".data
    · rfl
    · have := startsWith_eq l _ hst
      rw [this] at h
      exact absurd h (by simp)
  simp [specReadHeader, hs]

theorem specReadLine_closed (c : GoMap (GoMap String)) (l : List Char)
    (h : specReadHeader l = none) : specReadLine (c, none) l = (c, none) := by
  simp only [specReadLine, h]
  split_ifs
  · simp
  · rfl

theorem specReadLine_blank (st : GoMap (GoMap String) × Option (String × GoMap String)) :
    specReadLine st [] = st := by
  obtain ⟨c, o⟩ := st
  cases o <;> rfl

theorem specReadLine_header (st : GoMap (GoMap String) × Option (String × GoMap String))
    (tag : String) :
    specReadLine st (headerLine tag) = (st.1 ++ st.2.toList, some (tag, [])) := by
  simp only [specReadLine, specReadHeader_headerLine]

theorem specReadLine_entry (c : GoMap (GoMap String)) (tag : String) (es : GoMap String)
    (kv : String × String) (h1 : nameSplits kv.1 = true) :
    specReadLine (c, some (tag, es)) (dependencyLine kv) = (c, some (tag, es ++ [kv])) := by
  have hh : specReadHeader (dependencyLine kv) = none := by
    simp [specReadHeader, dependencyLine_getLast]
  have hb : (startsWith (dependencyLine kv) ['['] &&
      (dependencyLine kv).getLast? == some ']') = false := by
    rw [dependencyLine_getLast]
    simp
  have hs : splitFirst " = ".data (dependencyLine kv) =
      some (kv.1.data, '"' :: (kv.2.data ++ ['"'])) := by
    have := splitFirst_append kv.1.data ('"' :: (kv.2.data ++ ['"'])) (by
      simpa [nameSplits] using h1)
    rw [← this, dependencyLine]
    simp only [List.append_assoc]
    rfl
  simp only [specReadLine, hh, hb, hs, unquote_quoted]
  rfl

theorem foldl_specReadLine_entries (c : GoMap (GoMap String)) (tag : String)
    (es0 es : GoMap String)
    (h : ∀ kv ∈ es, nameSplits kv.1 = true) :
    (es.map dependencyLine).foldl specReadLine (c, some (tag, es0)) =
      (c, some (tag, es0 ++ es)) := by
  induction es generalizing es0 with
  | nil => simp
  | cons kv t ih =>
    rw [List.map_cons, List.foldl_cons,
      specReadLine_entry c tag es0 kv (h kv (List.mem_cons_self _ _)),
      ih _ (fun x hx => h x (List.mem_cons_of_mem _ hx)), List.append_assoc]
    rfl

theorem foldl_specReadLine_sections (allDeps : GoMap (GoMap String))
    (st : GoMap (GoMap String) × Option (String × GoMap String))
    (h : depsReadable allDeps = true) :
    ((dependencyLines allDeps).foldl specReadLine st).1 ++
        ((dependencyLines allDeps).foldl specReadLine st).2.toList =
      st.1 ++ st.2.toList ++ allDeps.filter (fun e => decide (e.2.length > 0)) := by
  induction allDeps generalizing st with
  | nil => simp [dependencyLines]
  | cons e es ih =>
    rw [depsReadable, List.all_cons, Bool.and_eq_true, Bool.and_eq_true] at h
    obtain ⟨⟨_, he⟩, hes⟩ := h
    have hdl : dependencyLines (e :: es) = sectionLines e ++ dependencyLines es := by
      simp [dependencyLines]
    rw [hdl, List.foldl_append, ih _ hes, sectionLines]
    by_cases hpos : e.2.length > 0
    · have hent : ∀ kv ∈ e.2, nameSplits kv.1 = true := by
        intro kv hkv
        have := List.all_eq_true.mp he kv hkv
        simp only [Bool.and_eq_true] at this
        exact this.2
      rw [if_pos hpos, List.foldl_cons, specReadLine_header, List.foldl_append,
        foldl_specReadLine_entries _ _ _ _ hent, List.foldl_cons, specReadLine_blank,
        List.foldl_nil, List.filter_cons_of_pos (by simpa using hpos)]
      simp
    · rw [if_neg hpos, List.foldl_nil, List.filter_cons_of_neg (by simpa using hpos)]

theorem foldl_specReadLine_closed (c : GoMap (GoMap String)) (ls : List (List Char))
    (h : ls.all (fun l => l.take 2 != ['[', 'd']) = true) :
    ls.foldl specReadLine (c, none) = (c, none) := by
  induction ls with
  | nil => rfl
  | cons l t ih =>
    rw [List.all_cons, Bool.and_eq_true] at h
    rw [List.foldl_cons, specReadLine_closed c l (specReadHeader_none l h.1), ih h.2]

theorem lockLines_take (generated project language : String) :
    (preambleLines generated project language ++
      (environmentLines (specSetup language) (lockRuntime language)).take 4).all
        (fun l => l.take 2 != ['[', 'd']) = true := by
  simp only [specSetup, lockRuntime]
  split_ifs <;> rfl

theorem depsOneLine_of_depsReadable (allDeps : GoMap (GoMap String))
    (h : depsReadable allDeps = true) : depsOneLine allDeps = true := by
  simp only [depsReadable, List.all_eq_true, Bool.and_eq_true] at h
  simp only [depsOneLine, List.all_eq_true, Bool.and_eq_true]
  exact fun e he => ⟨(h e he).1, fun kv hkv =>
    ⟨((h e he).2 kv hkv).1.1, ((h e he).2 kv hkv).1.2⟩⟩

theorem specReadBack_generatePhantomToml (created project language entry : String)
    (guessed secretsRuntime : Bool) (allDeps : GoMap (GoMap String))
    (h1 : oneLine created = true) (h2 : oneLine project = true)
    (h3 : oneLine language = true) (h4 : oneLine entry = true)
    (h5 : depsReadable allDeps = true) :
    specReadBack (generatePhantomToml created project language entry guessed allDeps
        secretsRuntime) = allDeps.filter (fun e => decide (e.2.length > 0)) := by
  have hfix := fixedLines_take created project language entry guessed secretsRuntime
  rw [List.all_append, Bool.and_eq_true] at hfix
  have htail : ∀ st : GoMap (GoMap String) × Option (String × GoMap String),
      (runtimeLines language ++ secretsLines secretsRuntime ++ [[]]).foldl specReadLine st =
        (st.1 ++ st.2.toList, none) := by
    intro st
    have hr : runtimeLines language ++ secretsLines secretsRuntime ++ [[]] =
        "[runtime]".data :: ((runtimeLines language).tail ++ secretsLines secretsRuntime ++
          [[]]) := rfl
    have hcl : ((runtimeLines language).tail ++ secretsLines secretsRuntime ++ [[]]).all
        (fun l => l.take 2 != ['[', 'd']) = true := by
      cases secretsRuntime <;> rfl
    rw [hr, List.foldl_cons]
    have h0 : specReadLine st "[runtime]".data = (st.1 ++ st.2.toList, none) := by
      have hh : specReadHeader "[runtime]".data = none := by decide
      have hb : (startsWith "[runtime]".data ['['] &&
          "[runtime]".data.getLast? == some ']') = true := by decide
      simp only [specReadLine, hh, hb]
      rfl
    rw [h0, foldl_specReadLine_closed _ _ hcl]
  have hl : repositoryLines created project language entry guessed ++
      (dependencyLines allDeps ++ (runtimeLines language ++ secretsLines secretsRuntime)) ++
        [[]] =
      repositoryLines created project language entry guessed ++
        (dependencyLines allDeps ++
          (runtimeLines language ++ secretsLines secretsRuntime ++ [[]])) := by
    simp only [List.append_assoc]
  rw [specReadBack, textLines_generatePhantomToml _ _ _ _ _ _ _ h1 h2 h3 h4
    (depsOneLine_of_depsReadable allDeps h5), hl, List.foldl_append,
    foldl_specReadLine_closed [] _ hfix.1, List.foldl_append, htail]
  show _ ++ _ ++ [] = _
  rw [List.append_nil, foldl_specReadLine_sections allDeps _ h5]
  rfl

theorem specReadBack_generatePhantomLock (generated project language : String)
    (allDeps : GoMap (GoMap String)) (h1 : oneLine generated = true)
    (h2 : oneLine project = true) (h3 : oneLine language = true)
    (h5 : depsReadable allDeps = true) :
    specReadBack (generatePhantomLock generated project language allDeps) =
      allDeps.filter (fun e => decide (e.2.length > 0)) := by
  have hfix := lockLines_take generated project language
  have henv : environmentLines (specSetup language) (lockRuntime language) =
      (environmentLines (specSetup language) (lockRuntime language)).take 4 ++
        ["[dependencies]".data] := rfl
  have hd : specReadLine ([], none) "[dependencies]".data = ([], none) :=
    specReadLine_closed [] _ (by decide)
  have hl : preambleLines generated project language ++
      ((environmentLines (specSetup language) (lockRuntime language)).take 4 ++
        ["[dependencies]".data]) ++ dependencyLines allDeps ++ [[]] =
      (preambleLines generated project language ++
        (environmentLines (specSetup language) (lockRuntime language)).take 4) ++
        ("[dependencies]".data :: (dependencyLines allDeps ++ [[]])) := by
    simp only [List.append_assoc, List.cons_append, List.nil_append]
  rw [specReadBack, textLines_generatePhantomLock _ _ _ _ h1 h2 h3
    (depsOneLine_of_depsReadable allDeps h5), henv, hl, List.foldl_append,
    foldl_specReadLine_closed [] _ hfix, List.foldl_cons, hd, List.foldl_append,
    List.foldl_cons, List.foldl_nil, specReadLine_blank,
    foldl_specReadLine_sections allDeps _ h5]
  rfl

set_option maxRecDepth 8000 in
theorem specReadBack_oddDeps :
    specReadBack (generatePhantomToml sampleTime "demo" "js" "index.js" false oddDeps false) =
        [("node", [("a", "b = \"1.0.0\"")])] ∧
      specReadBack (generatePhantomLock sampleTime "demo" "js" oddDeps) =
        [("node", [("a", "b = \"1.0.0\"")])] := by
  decide

set_option maxRecDepth 8000 in
theorem specReadBack_brokenDeps :
    specReadBack (generatePhantomToml sampleTime "demo" "js" "index.js" false brokenDeps
        false) = [("node", [("a", "\"1")])] ∧
      specReadBack (generatePhantomLock sampleTime oddProject "js" []) =
        [("x", [("y", "1"), ("language", "js"), ("generated_at", sampleTime)])] := by
  decide

/-- C23, as stated, fails: for a dependency map with the name `a = b`, the
reader splits the line at the first ` = ` and gives back the name `a`, for
the text of `generatePhantomToml` and for that of `generatePhantomLock`; a
version with a line break comes back cut at the break; and a project name
with a line break makes the reader find a map that was never given. -/
theorem specReadBack_odd_name :
    specReadBack (generatePhantomToml sampleTime "demo" "js" "index.js" false oddDeps false) =
        [("node", [("a", "b = \"1.0.0\"")])] ∧
      specReadBack (generatePhantomLock sampleTime "demo" "js" oddDeps) =
        [("node", [("a", "b = \"1.0.0\"")])] ∧
      oddDeps ≠ [("node", [("a", "b = \"1.0.0\"")])] ∧
      specReadBack (generatePhantomToml sampleTime "demo" "js" "index.js" false brokenDeps
        false) = [("node", [("a", "\"1")])] ∧
      specReadBack (generatePhantomLock sampleTime oddProject "js" []) =
        [("x", [("y", "1"), ("language", "js"), ("generated_at", sampleTime)])] :=
  ⟨specReadBack_oddDeps.1, specReadBack_oddDeps.2, by decide, specReadBack_brokenDeps.1,
    specReadBack_brokenDeps.2⟩

/-- C23, amended: when no string of the input has a line break and no
dependency name contains ` = ` or ends in ` =`, the key-value reader of the
specification, applied to the text of `generatePhantomToml` and to the text
of `generatePhantomLock`, gives back the dependency maps that are not empty,
with their tags, names and versions unchanged, in the order in which they
were written. -/
theorem specReadBack_round_trip (created generated project language entry : String)
    (guessed secretsRuntime : Bool) (allDeps : GoMap (GoMap String))
    (h1 : oneLine created = true) (h1' : oneLine generated = true)
    (h2 : oneLine project = true) (h3 : oneLine language = true)
    (h4 : oneLine entry = true) (h5 : depsReadable allDeps = true) :
    specReadBack (generatePhantomToml created project language entry guessed allDeps
        secretsRuntime) = allDeps.filter (fun e => decide (e.2.length > 0)) ∧
      specReadBack (generatePhantomLock generated project language allDeps) =
        allDeps.filter (fun e => decide (e.2.length > 0)) :=
  ⟨specReadBack_generatePhantomToml created project language entry guessed secretsRuntime
      allDeps h1 h2 h3 h4 h5,
    specReadBack_generatePhantomLock generated project language allDeps h1' h2 h3 h5⟩

/-- Witness of C23 amended: the sample maps, with the version `latest`, and
an empty map that is not written. -/
theorem specReadBack_round_trip_witness :
    specReadBack (generatePhantomToml sampleTime "demo" "js" "index.js" false
        (("python", []) :: sampleDeps) false) = sampleDeps ∧
      specReadBack (generatePhantomLock sampleTime "demo" "js" (("python", []) :: sampleDeps)) =
        sampleDeps :=
  specReadBack_round_trip sampleTime sampleTime "demo" "js" "index.js" false false
    (("python", []) :: sampleDeps) (by decide) (by decide) (by decide) (by decide) (by decide)
    (by decide)


/-! ## The claim about the config files -/

theorem matchEntryAt_pattern (key ws₁ ws₂ name rest : List Char) (sep : Char)
    (hk : key.map asciiLower = "entry".data) (h1 : ∀ c ∈ ws₁, reSpace c = true)
    (hs : sep = ':' ∨ sep = '=') (h2 : ∀ c ∈ ws₂, reSpace c = true) (hne : name ≠ [])
    (hn : ∀ c ∈ name, c ≠ '"') :
    matchEntryAt (key ++ (ws₁ ++ sep :: (ws₂ ++ '"' :: (name ++ '"' :: rest)))) =
      some name := by
  have hlen : key.length = 5 := by
    have := congrArg List.length hk
    simpa using this
  have ht : (key ++ (ws₁ ++ sep :: (ws₂ ++ '"' :: (name ++ '"' :: rest)))).take 5 = key := by
    rw [← hlen, List.take_left]
  have hd : (key ++ (ws₁ ++ sep :: (ws₂ ++ '"' :: (name ++ '"' :: rest)))).drop 5 =
      ws₁ ++ sep :: (ws₂ ++ '"' :: (name ++ '"' :: rest)) := by
    rw [← hlen, List.drop_left]
  have hsep : reSpace sep = false := by
    rcases hs with h | h <;> rw [h] <;> decide
  have hw1 := (takeWhile_append_stop reSpace ws₁ (ws₂ ++ '"' :: (name ++ '"' :: rest)) sep
    h1 hsep).2
  have hw2 := (takeWhile_append_stop reSpace ws₂ (name ++ '"' :: rest) '"' h2
    (by decide)).2
  have hq := matchQuoted_quoted (fun x => x == '"') '"' '"' name rest (by decide) (by decide)
    hne (fun c hc => by simpa using hn c hc)
  have hc : (sep == ':' || sep == '=') = true := by
    rcases hs with h | h <;> rw [h] <;> decide
  simp only [matchEntryAt, ht, hd, hk, hw1, hc, hw2, hq]
  rfl

theorem matchEntryAt_some (l n : List Char) (h : matchEntryAt l = some n) :
    entryPattern l [] n := by
  simp only [matchEntryAt] at h
  split_ifs at h with hk
  have hk' : (l.take 5).map asciiLower = "entry".data := by simpa using hk
  cases hdrop : (l.drop 5).dropWhile reSpace with
  | nil => simp [hdrop] at h
  | cons c r =>
    rw [hdrop] at h
    simp only at h
    split_ifs at h with hc
    cases hm : matchQuoted (fun x => x == '"') (r.dropWhile reSpace) with
    | none => simp [hm] at h
    | some w =>
      obtain ⟨name, rest⟩ := w
      rw [hm] at h
      simp only [Option.map_some', Option.some.injEq] at h
      subst h
      obtain ⟨q1, q2, e, hq1, hq2, hne, hfree⟩ := matchQuoted_some _ _ _ _ hm
      have e1 : q1 = '"' := by simpa using hq1
      have e2 : q2 = '"' := by simpa using hq2
      subst e1 e2
      refine ⟨l.take 5, (l.drop 5).takeWhile reSpace, c, r.takeWhile reSpace, rest, ?_, hk',
        fun x hx => List.mem_takeWhile_imp hx, ?_, fun x hx => List.mem_takeWhile_imp hx,
        hne, fun x hx => by simpa using hfree x hx⟩
      · rw [List.nil_append, ← e, List.takeWhile_append_dropWhile, ← hdrop,
          List.takeWhile_append_dropWhile, List.take_append_drop]
      · simpa using hc

theorem findEntry_some (l n : List Char) (h : findEntry l = some n) :
    ∃ pre, entryPattern l pre n := by
  induction l with
  | nil => simp [findEntry] at h
  | cons c cs ih =>
    rw [findEntry] at h
    cases hm : matchEntryAt (c :: cs) with
    | some e =>
      rw [hm] at h
      simp only [Option.some.injEq] at h
      exact ⟨[], h ▸ matchEntryAt_some _ _ hm⟩
    | none =>
      rw [hm] at h
      obtain ⟨pre, key, ws₁, sep, ws₂, rest, he, hr⟩ := ih h
      exact ⟨c :: pre, key, ws₁, sep, ws₂, rest, by rw [he]; rfl, hr⟩

theorem entryPattern_nil (l pre n : List Char) (h : entryPattern l pre n) :
    matchEntryAt (l.drop pre.length) = some n := by
  obtain ⟨key, ws₁, sep, ws₂, rest, he, hk, h1, hs, h2, hne, hn⟩ := h
  rw [he, List.drop_left]
  exact matchEntryAt_pattern key ws₁ ws₂ n rest sep hk h1 hs h2 hne hn

theorem findEntry_first (l n : List Char) (h : firstEntryMatch l n) :
    findEntry l = some n := by
  obtain ⟨pre, hp, hmin⟩ := h
  induction pre generalizing l with
  | nil =>
    have hm := entryPattern_nil l [] n hp
    rw [List.length_nil, List.drop_zero] at hm
    cases l with
    | nil => simp [matchEntryAt] at hm
    | cons c cs => rw [findEntry, hm]
  | cons c pre' ih =>
    obtain ⟨key, ws₁, sep, ws₂, rest, he, hr⟩ := hp
    have hnone : matchEntryAt l = none := by
      cases hm : matchEntryAt l with
      | none => rfl
      | some e =>
        have := hmin [] e (matchEntryAt_some l e hm)
        simp at this
    rw [he, List.cons_append, findEntry, ← List.cons_append, ← he, hnone]
    apply ih
    · exact ⟨key, ws₁, sep, ws₂, rest, rfl, hr⟩
    · intro pre'' name'' hp''
      obtain ⟨key', ws₁', sep', ws₂', rest', he', hr'⟩ := hp''
      have := hmin (c :: pre'') name'' ⟨key', ws₁', sep', ws₂', rest',
        by rw [he, List.cons_append, he']; rfl, hr'⟩
      simpa using this

theorem parseConfigEntrypoint_of_read (d : Dir) (path content : String)
    (h : readFile d path = some content) :
    parseConfigEntrypoint d path =
      match findEntry content.data with
      | some e => ⟨e⟩
      | none => "" := by
  simp [parseConfigEntrypoint, fileExists_of_readFile d path content h, h]

theorem parseConfigEntrypoint_none (d : Dir) (path : String)
    (h : readFile d path = none ∨
      ∃ content, readFile d path = some content ∧ ∀ pre n, ¬ entryPattern content.data pre n) :
    parseConfigEntrypoint d path = "" := by
  rcases h with h | ⟨content, h, hno⟩
  · simp only [parseConfigEntrypoint, h]
    split_ifs <;> rfl
  · rw [parseConfigEntrypoint_of_read d path content h]
    cases hf : findEntry content.data with
    | none => rfl
    | some e =>
      obtain ⟨pre, hp⟩ := findEntry_some _ _ hf
      exact absurd hp (hno pre e)

theorem parseConfigEntrypoint_first (d : Dir) (path content : String) (name : List Char)
    (h : readFile d path = some content) (hm : firstEntryMatch content.data name) :
    parseConfigEntrypoint d path = ⟨name⟩ ∧ (⟨name⟩ : String) ≠ "" := by
  rw [parseConfigEntrypoint_of_read d path content h, findEntry_first _ _ hm]
  refine ⟨rfl, string_mk_ne_empty _ ?_⟩
  obtain ⟨_, ⟨_, _, _, _, _, _, _, _, _, _, hne, _⟩, _⟩ := hm
  exact hne

theorem tail_of_config (d : Dir) (s : Scan) (h : s.entry ≠ "") :
    (stepDefault (stepLanguage (stepCandidates d s))).entry = s.entry ∧
      (stepDefault (stepLanguage (stepCandidates d s))).guessed = s.guessed := by
  rw [stepCandidates_keep d s h]
  have hO := stepLanguage_origin s
  rw [stepDefault_keep _ (by rw [hO.1]; exact h)]
  exact hO

/-- C30: in a directory in which no manifest and no `Procfile` has set the
entrypoint, when `.config.ts` can be read and the pattern (the key `entry` in
any letter case, a colon or an equals sign with optional whitespace around
it, and a non-empty string in double quotes) occurs in it, `scanProject`
returns the quoted string of the first occurrence, with `guessed = true`,
whatever `.config.toml` says; and when `.config.ts` cannot be read or has no
occurrence, and `.config.toml` can be read and has one, `scanProject` returns
the quoted string of the first occurrence in `.config.toml`, with
`guessed = true`. -/
theorem scanProject_entry_from_config (lib : Lib) (d : Dir) (forcedLang : String)
    (hpkg : ¬ (fileExists d "package.json" = true ∧
      (parsePackageJSON lib d "package.json").entry ≠ ""))
    (hnone : ∀ m ∈ manifestDefaults, fileExists d m.1 = false)
    (hproc : fileExists d "Procfile" = false ∨ parseProcfileEntrypoint d "Procfile" = "") :
    (∀ content name, readFile d ".config.ts" = some content →
      firstEntryMatch content.data name →
      (scanProject lib d forcedLang).entry = ⟨name⟩ ∧
        (scanProject lib d forcedLang).guessed = true) ∧
    (∀ content name,
      (readFile d ".config.ts" = none ∨ ∃ ts, readFile d ".config.ts" = some ts ∧
        ∀ pre n, ¬ entryPattern ts.data pre n) →
      readFile d ".config.toml" = some content → firstEntryMatch content.data name →
      (scanProject lib d forcedLang).entry = ⟨name⟩ ∧
        (scanProject lib d forcedLang).guessed = true) := by
  have hE : (scanManifests lib d forcedLang).entry = "" := by
    rw [scanManifests_entry_empty]
    simp only [manifestDefaults, List.forall_mem_cons, List.not_mem_nil, false_implies,
      implies_true, and_true] at hnone
    exact ⟨hpkg, hnone⟩
  have hP : stepProcfile d (scanManifests lib d forcedLang) = scanManifests lib d forcedLang := by
    simp only [stepProcfile]
    rcases hproc with h | h
    · simp [h]
    · simp [h]
  constructor
  · intro content name hread hm
    obtain ⟨he, hne⟩ := parseConfigEntrypoint_first d ".config.ts" content name hread hm
    have hC : stepConfig d (scanManifests lib d forcedLang) =
        { scanManifests lib d forcedLang with entry := ⟨name⟩, guessed := true } := by
      simp only [stepConfig, hE, if_true, he, hne, ne_eq, not_false_eq_true, false_and,
        if_false, and_false]
    rw [scanProject, scanEntry, hP, hC]
    exact tail_of_config d _ hne
  · intro content name hts hread hm
    obtain ⟨he, hne⟩ := parseConfigEntrypoint_first d ".config.toml" content name hread hm
    have hts' := parseConfigEntrypoint_none d ".config.ts" hts
    have hC : stepConfig d (scanManifests lib d forcedLang) =
        { scanManifests lib d forcedLang with entry := ⟨name⟩, guessed := true } := by
      simp only [stepConfig, hE, if_true, hts', he, hne, ne_eq, not_true_eq_false, if_false,
        not_false_eq_true, and_self]
    rw [scanProject, scanEntry, hP, hC]
    exact tail_of_config d _ hne

/-- Witness of C30: both config files have an entry, and the one of
`.config.ts` is returned. -/
theorem scanProject_entry_from_config_witness :
    (scanProject sampleLib dirConfig "").entry = "src/app.ts" ∧
      (scanProject sampleLib dirConfig "").guessed = true :=
  (scanProject_entry_from_config sampleLib dirConfig "" (by decide) (by decide)
    (by decide)).1 "entry: \"src/app.ts\"\n" "src/app.ts".data rfl
    ⟨[], ⟨"entry".data, [], ':', [' '], "\n".data, rfl, by decide, by decide, by decide,
      by decide, by decide, by decide⟩, fun _ _ _ => Nat.zero_le _⟩


/-! ## The claims about the candidate files and the inferred language -/

theorem find_first {α : Type} (p : α → Bool) (pre post : List α) (c : α)
    (hpre : ∀ x ∈ pre, p x = false) (hc : p c = true) :
    (pre ++ c :: post).find? p = some c := by
  induction pre with
  | nil => simp [List.find?, hc]
  | cons x xs ih =>
    rw [List.cons_append, List.find?, hpre x (List.mem_cons_self _ _)]
    exact ih (fun y hy => hpre y (List.mem_cons_of_mem _ hy))

/-- C31: in a directory in which no manifest, no `Procfile` and neither of
the two config files has set the entrypoint, `scanProject` returns the first
path of the list `candidates` that exists as a file, with `guessed = true`. -/
theorem scanProject_entry_from_candidates (lib : Lib) (d : Dir) (forcedLang : String)
    (pre post : List String) (c : String)
    (hpkg : ¬ (fileExists d "package.json" = true ∧
      (parsePackageJSON lib d "package.json").entry ≠ ""))
    (hnone : ∀ m ∈ manifestDefaults, fileExists d m.1 = false)
    (hproc : fileExists d "Procfile" = false ∨ parseProcfileEntrypoint d "Procfile" = "")
    (hts : parseConfigEntrypoint d ".config.ts" = "")
    (htoml : parseConfigEntrypoint d ".config.toml" = "")
    (hc : ["src/main.tsx", "src/main.ts", "src/index.tsx", "src/index.ts", "src/index.js",
      "src/main.js", "main.py", "app.py"] = pre ++ c :: post)
    (hpre : ∀ x ∈ pre, fileExists d x = false) (hex : fileExists d c = true) :
    (scanProject lib d forcedLang).entry = c ∧
      (scanProject lib d forcedLang).guessed = true := by
  have hE : (scanManifests lib d forcedLang).entry = "" := by
    rw [scanManifests_entry_empty]
    simp only [manifestDefaults, List.forall_mem_cons, List.not_mem_nil, false_implies,
      implies_true, and_true] at hnone
    exact ⟨hpkg, hnone⟩
  have hP : stepProcfile d (scanManifests lib d forcedLang) = scanManifests lib d forcedLang := by
    simp only [stepProcfile]
    rcases hproc with h | h
    · simp [h]
    · simp [h]
  have hC : stepConfig d (scanManifests lib d forcedLang) = scanManifests lib d forcedLang := by
    simp [stepConfig, hE, hts, htoml]
  have hne : c ≠ "" := by
    have hmem : c ∈ ["src/main.tsx", "src/main.ts", "src/index.tsx", "src/index.ts",
        "src/index.js", "src/main.js", "main.py", "app.py"] := by
      rw [hc]
      simp
    intro h0
    rw [h0] at hmem
    exact absurd hmem (by decide)
  have hfind : candidates.find? (fun x => fileExists d x) = some c := by
    rw [candidates, hc]
    exact find_first _ pre post c hpre hex
  have hS : stepCandidates d (scanManifests lib d forcedLang) =
      { scanManifests lib d forcedLang with entry := c, guessed := true } := by
    simp only [stepCandidates, hE, if_true, hfind]
  have hO := stepLanguage_origin (stepCandidates d (scanManifests lib d forcedLang))
  rw [scanProject, scanEntry, hP, hC,
    stepDefault_keep _ (by rw [hO.1, hS]; exact hne), hO.1, hO.2, hS]
  exact ⟨rfl, rfl⟩

/-- Witness of C31: only the fourth candidate exists. -/
theorem scanProject_entry_from_candidates_witness :
    (scanProject sampleLib dirIndexTs "").entry = "src/index.ts" ∧
      (scanProject sampleLib dirIndexTs "").guessed = true :=
  scanProject_entry_from_candidates sampleLib dirIndexTs ""
    ["src/main.tsx", "src/main.ts", "src/index.tsx"]
    ["src/index.js", "src/main.js", "main.py", "app.py"] "src/index.ts"
    (by decide) (by decide) (by decide) (by decide) (by decide) rfl (by decide) (by decide)

/-- C32, as stated, fails: in the empty directory the entrypoint returned is
the default `src/main.tsx`, which ends in `.tsx`, and the language is `js`. -/
theorem scanProject_default_entry_js :
    (∀ p ∈ probedFiles, fileExists emptyDir p = false) ∧
      (scanProject sampleLib emptyDir "").entry = "src/main.tsx" ∧
      endsWith (scanProject sampleLib emptyDir "").entry ".tsx" = true ∧
      (scanProject sampleLib emptyDir "").language = "js" := by
  decide

/-- C32, amended: in a directory without any manifest file and with an empty
forced language, when the `Procfile`, the two config files or the candidate
search supply an entrypoint, it is the entrypoint returned and the language
is `ts` exactly when it ends in `.ts` or `.tsx`; when none of them supplies
one, the entrypoint returned is the default `src/main.tsx` and the language is
`js`. -/
theorem scanProject_language_agrees (lib : Lib) (d : Dir)
    (hpkg : fileExists d "package.json" = false)
    (hnone : ∀ m ∈ manifestDefaults, fileExists d m.1 = false) :
    ((scanEntry d initialScan).entry ≠ "" →
      (scanProject lib d "").entry = (scanEntry d initialScan).entry ∧
      ((scanProject lib d "").language = "ts" ↔
        (endsWith (scanProject lib d "").entry ".ts" = true ∨
          endsWith (scanProject lib d "").entry ".tsx" = true))) ∧
    ((scanEntry d initialScan).entry = "" →
      (scanProject lib d "").entry = "src/main.tsx" ∧
        (scanProject lib d "").language = "js") := by
  have h0 := scanManifests_none lib d hpkg hnone
  have hl : (scanProject lib d "").language = inferLanguage (scanEntry d initialScan).entry := by
    rw [scanProject_language, stepLanguage_language_infer, h0, (scanEntry_frame d _).1]
    rfl
  have hO := stepLanguage_origin (scanEntry d initialScan)
  constructor
  · intro hne
    have he : (scanProject lib d "").entry = (scanEntry d initialScan).entry := by
      rw [scanProject, h0, stepDefault_keep _ (by rw [hO.1]; exact hne), hO.1]
    refine ⟨he, ?_⟩
    rw [hl, he, inferLanguage]
    cases h1 : endsWith (scanEntry d initialScan).entry ".ts" <;>
      cases h2 : endsWith (scanEntry d initialScan).entry ".tsx" <;>
      cases h3 : endsWith (scanEntry d initialScan).entry ".py" <;>
      cases h4 : endsWith (scanEntry d initialScan).entry ".rs" <;>
      simp
  · intro he
    constructor
    · rw [scanProject, h0]
      simp only [stepDefault, hO.1, he, if_true]
    · rw [hl, he]
      decide

/-- Witness of C32 amended: the candidate `src/index.ts` gives the language
`ts`. -/
theorem scanProject_language_agrees_witness :
    (scanProject sampleLib dirIndexTs "").language = "ts" :=
  (((scanProject_language_agrees sampleLib dirIndexTs (by decide) (by decide)).1
    (by decide)).2).2 (Or.inl (by decide))

/-! ## The claim about the secrets flag -/

/-- C33: `scanProject` returns `secretsRuntime = true` if and only if
`package.json` exists and either `.env` exists or the dependency map under
the tag `node` has one of the keys `tauri`, `electron`, `next`; without
`package.json` the flag is false. -/
theorem scanProject_secrets_iff (lib : Lib) (d : Dir) (forcedLang : String) :
    ((scanProject lib d forcedLang).secretsRuntime = true ↔
      (fileExists d "package.json" = true ∧
        (fileExists d ".env" = true ∨
          ∃ m, mapGet (scanProject lib d forcedLang).allDeps "node" = some m ∧
            ∃ k ∈ ["tauri", "electron", "next"], mapHas m k = true))) ∧
    (fileExists d "package.json" = false →
      (scanProject lib d forcedLang).secretsRuntime = false) := by
  rw [scanProject_secrets_eq, scanProject_allDeps_node]
  constructor
  · by_cases hp : fileExists d "package.json" = true
    · simp only [hp, Bool.true_and, Bool.or_eq_true, true_and, if_true, Option.some.injEq,
        exists_eq_left', hasAnyDep, List.any_eq_true]
    · simp [hp]
  · intro hp
    rw [hp]
    rfl

/-- Witness of C33: a directory with `.env` and no `package.json`. -/
theorem scanProject_secrets_iff_witness :
    (scanProject sampleLib dirEnvOnly "").secretsRuntime = false :=
  (scanProject_secrets_iff sampleLib dirEnvOnly "").2 (by decide)

/-! ## The claim about blocks in `go.mod` -/

theorem goModLine_block (deps : GoMap String) (raw : List Char)
    (h : startsWith (trimSpaceChars raw) "require ".data = true →
      trimSpaceChars raw = "require (".data) :
    goModLine deps raw = deps := by
  simp only [goModLine]
  split_ifs with hs
  · rw [h hs]
    rfl
  · rfl

/-- C34: when every line of a `go.mod` that begins with `require ` after
trimming is, after trimming, the opening line `require (` of a block,
`parseGoMod` returns the empty map. -/
theorem parseGoMod_block (d : Dir) (path content : String)
    (hr : readFile d path = some content)
    (h : ∀ l ∈ textLines content, startsWith (trimSpaceChars l) "require ".data = true →
      trimSpaceChars l = "require (".data) :
    parseGoMod d path = [] := by
  simp only [parseGoMod, hr]
  have hall : ∀ raw ∈ scanLines content.data, ∀ deps, goModLine deps raw = deps := by
    intro raw hraw deps
    simp only [scanLines, List.mem_map] at hraw
    obtain ⟨t, ht, rfl⟩ := hraw
    have ht' : t ∈ textLines content := by
      have := List.takeWhile_subset _ ht
      rw [rawLines_eq] at this
      exact mem_of_mem_dropEmptyLast _ _ this
    apply goModLine_block
    rw [trimSpaceChars_dropCR]
    exact h t ht'
  generalize scanLines content.data = ls at hall
  induction ls with
  | nil => rfl
  | cons x xs ih =>
    rw [List.foldl_cons, hall x (List.mem_cons_self _ _)]
    exact ih (fun y hy => hall y (List.mem_cons_of_mem _ hy))

/-- Witness of C34: a `go.mod` with two modules inside a block. -/
theorem parseGoMod_block_witness : parseGoMod dirBlockGoMod "go.mod" = [] :=
  parseGoMod_block dirBlockGoMod "go.mod" blockGoModText rfl (by decide)

/-! ## The claim about `isValidAPIKey` -/

theorem decodeRune_ascii (b : Nat) (rest : List Nat) (h : b < 0x80) :
    decodeRune (b :: rest) = (b, 1) := by
  simp [decodeRune, h]

theorem decodeRune_high (b : Nat) (rest : List Nat) (h : ¬ b < 0x80) :
    126 < (decodeRune (b :: rest)).1 := by
  have he : 126 < runeError := by decide
  simp only [decodeRune, if_neg h]
  split_ifs with h2 h3 h4
  · rcases rest with _ | ⟨b1, _⟩
    · exact he
    · simp only
      split_ifs
      · show 126 < b % 32 * 64 + b1 % 64
        omega
      · exact he
  · rcases rest with _ | ⟨b1, _ | ⟨b2, _⟩⟩
    · exact he
    · exact he
    · simp only
      split_ifs with hv
      · show 126 < b % 16 * 4096 + b1 % 64 * 64 + b2 % 64
        simp only [acceptsSecond, isContinuation, Bool.and_eq_true] at hv
        obtain ⟨hv1, _⟩ := hv
        split_ifs at hv1 with e1 e2 e3 e4 <;> simp only [decide_eq_true_eq] at hv1 <;> omega
      · exact he
  · rcases rest with _ | ⟨b1, _ | ⟨b2, _ | ⟨b3, _⟩⟩⟩
    · exact he
    · exact he
    · exact he
    · simp only
      split_ifs with hv
      · show 126 < b % 8 * 262144 + b1 % 64 * 4096 + b2 % 64 * 64 + b3 % 64
        simp only [acceptsSecond, isContinuation, Bool.and_eq_true] at hv
        obtain ⟨⟨hv1, _⟩, _⟩ := hv
        split_ifs at hv1 with e1 e2 e3 e4 <;> simp only [decide_eq_true_eq] at hv1 <;> omega
      · exact he
  · exact he

theorem validRunes_bytes (key : List Nat) :
    validRunes 0 key = true ↔ ∀ b ∈ key, 32 ≤ b ∧ b ≤ 126 := by
  induction key with
  | nil => simp [validRunes]
  | cons b rest ih =>
    by_cases h : b < 0x80
    · rw [validRunes, decodeRune_ascii b rest h]
      by_cases hb : b < 32 ∨ b > 126
      · rw [if_pos hb]
        constructor
        · intro hf
          exact absurd hf (by decide)
        · intro hall
          have := hall b (List.mem_cons_self _ _)
          omega
      · rw [if_neg hb]
        show validRunes 0 rest = true ↔ _
        rw [ih, List.forall_mem_cons]
        constructor
        · intro hr
          exact ⟨by omega, hr⟩
        · intro hr
          exact hr.2
    · have hd := decodeRune_high b rest h
      rw [validRunes, if_pos (Or.inr hd)]
      constructor
      · intro hf
        exact absurd hf (by decide)
      · intro hall
        have := hall b (List.mem_cons_self _ _)
        omega

theorem validRunes_runes (skip : Nat) (key : List Nat) :
    validRunes skip key = true ↔ ∀ r ∈ rangeRunes skip key, 32 ≤ r ∧ r ≤ 126 := by
  induction key generalizing skip with
  | nil => simp [validRunes, rangeRunes]
  | cons b rest ih =>
    cases skip with
    | succ n =>
      rw [validRunes, rangeRunes]
      exact ih n
    | zero =>
      rw [validRunes, rangeRunes, List.forall_mem_cons]
      by_cases hb : (decodeRune (b :: rest)).1 < 32 ∨ (decodeRune (b :: rest)).1 > 126
      · rw [if_pos hb]
        constructor
        · intro hf
          exact absurd hf (by decide)
        · intro hall
          omega
      · rw [if_neg hb, ih]
        constructor
        · intro hr
          exact ⟨by omega, hr⟩
        · intro hr
          exact hr.2

/-- C35: `isValidAPIKey` returns true if and only if the key has at least 8
bytes and every byte of it is between 32 and 126; and this is the case if and
only if the key has at least 8 bytes and every rune that the loop decodes
from it is between 32 and 126. -/
theorem isValidAPIKey_iff (key : List Nat) :
    (isValidAPIKey key = true ↔ 8 ≤ key.length ∧ ∀ b ∈ key, 32 ≤ b ∧ b ≤ 126) ∧
      (isValidAPIKey key = true ↔
        8 ≤ key.length ∧ ∀ r ∈ rangeRunes 0 key, 32 ≤ r ∧ r ≤ 126) := by
  simp only [isValidAPIKey]
  by_cases h : key.length < 8
  · simp only [if_pos h]
    constructor <;>
    · constructor
      · intro hf
        exact absurd hf (by decide)
      · intro hall
        omega
  · simp only [if_neg h]
    refine ⟨?_, ?_⟩
    · rw [validRunes_bytes]
      exact ⟨fun hr => ⟨by omega, hr⟩, fun hr => hr.2⟩
    · rw [validRunes_runes]
      exact ⟨fun hr => ⟨by omega, hr⟩, fun hr => hr.2⟩

/-- Witness of C35: the key `sk_live_42`, ten bytes between 32 and 126. -/
theorem isValidAPIKey_iff_witness : isValidAPIKey sampleKey = true :=
  (isValidAPIKey_iff sampleKey).1.mpr ⟨by decide, by decide⟩

theorem isValidAPIKey_accent :
    isValidAPIKey accentKey = false ∧
      rangeRunes 0 accentKey = [99, 108, 233, 45, 50, 48, 50, 52] := by
  decide

end Phantom
